import Mathlib

/-!
A shallow embedding of the `smt` Go package (a sparse Merkle tree with
multi-version node retraction), together with theorems checking its
natural-language specification against the code.

Modelling conventions:
* Byte strings (`[]byte`) are `List Nat` with byte values below 256.
* The Go code hashes through the `crypto/sha256` package; the package is an
  external collaborator and is modelled by a parameter `A : HashAlgo`
  (a digest function plus its output size, mirroring `hash.Hash`).
* Stores are the repository's own `SimpleMap` (a reference-counting
  in-memory map); its `Get`/`Delete` fail with `InvalidKeyError`.
* Fallible Go functions return `Except SMTErr _`; mutation is explicit
  state passing of the tree structure.
* `nil` byte slices are `Option Bytes` wherever the Go code distinguishes
  `nil` from a concrete slice (leaf data, side nodes).
-/

namespace Smt

/-- Byte strings: `[]byte` as a list of byte values. -/
abbrev Bytes := List Nat

/-- An external hash algorithm (models a `hash.Hash` factory such as the
`crypto/sha256` package): a digest function and its output size in bytes. -/
structure HashAlgo where
  hash : Bytes → Bytes
  size : Nat

/-- Errors of the embedding: the store's `InvalidKeyError`, the sentinel
`errKeyAlreadyEmpty`, and the `fmt.Errorf("trail sidenodes fail: %w", err)`
wrapping done by `UpdateForRoot`. -/
inductive SMTErr where
  | invalidKey (key : Bytes)
  | keyAlreadyEmpty
  | trailSideNodesFail (e : SMTErr)
  deriving DecidableEq, Repr

/-- `errors.As(err, &invalidKeyError)`: the error, unwrapped, is an
`InvalidKeyError`. -/
def SMTErr.isInvalidKey : SMTErr → Bool
  | .invalidKey _ => true
  | .keyAlreadyEmpty => false
  | .trailSideNodesFail e => e.isInvalidKey

/-- `errors.Is(err, errKeyAlreadyEmpty)`. -/
def SMTErr.isKeyAlreadyEmpty : SMTErr → Bool
  | .invalidKey _ => false
  | .keyAlreadyEmpty => true
  | .trailSideNodesFail e => e.isKeyAlreadyEmpty

/-- Equality of `Except` results is decidable componentwise. -/
def exceptDecEq {e a : Type} [DecidableEq e] [DecidableEq a] :
    DecidableEq (Except e a)
  | .ok x, .ok y =>
    if h : x = y then isTrue (by rw [h]) else isFalse (by intro hh; cases hh; exact h rfl)
  | .ok x, .error y => isFalse (by intro hh; cases hh)
  | .error x, .ok y => isFalse (by intro hh; cases hh)
  | .error x, .error y =>
    if h : x = y then isTrue (by rw [h]) else isFalse (by intro hh; cases hh; exact h rfl)

instance {e a : Type} [DecidableEq e] [DecidableEq a] : DecidableEq (Except e a) :=
  exceptDecEq

/-- `var defaultValue = []byte{}` -/
def defaultValue : Bytes := []

/-- Modelled from the spec: the MSB-first bit sequence of a byte string —
`getBitAtFromMSB data position` is the bit at `position`, counting from the
most significant bit of the first byte (the helper itself is not under
`src/`; the spec fixes "bit by bit, MSB first"). Returns 1 or 0. -/
def getBitAtFromMSB (data : Bytes) (position : Nat) : Nat :=
  (data.getD (position / 8) 0 >>> (7 - position % 8)) % 2

/-- Modelled from the spec: "the bit-length of the shared prefix" of two
byte strings, scanning MSB-first over the first string's bits (the helper
itself is not under `src/`). -/
def countCommonPrefGo (d1 d2 : Bytes) : Nat → Nat → Nat
  | i, 0 => i
  | i, fuel + 1 =>
    if getBitAtFromMSB d1 i = getBitAtFromMSB d2 i then
      countCommonPrefGo d1 d2 (i + 1) fuel
    else i

/-- Modelled from the spec: shared-prefix bit length (Go `countCommonPrefix`,
not under `src/`). -/
def countCommonPref (d1 d2 : Bytes) : Nat :=
  countCommonPrefGo d1 d2 0 (8 * d1.length)

/-- Modelled from the spec: "Both lists are reversed before return"
(Go `reverseByteSlices`, not under `src/`). -/
def reverseByteSlices (slices : List α) : List α :=
  slices.reverse

/-! ## treehasher.go -/

/-- `var leafPrefix = []byte{0}` (Go name `leafPrefix`). -/
def leafPref : Bytes := [0]

/-- `var nodePrefix = []byte{1}` (Go name `nodePrefix`). -/
def nodePref : Bytes := [1]

/-- The `treeHasher` struct. Its Go `hasher hash.Hash` field is omitted from
the model: `newTreeHasher` never assigns it (it stays `nil`) and nothing in
`src/` reads it except the compact-proof path, which lives outside `src/`. -/
structure treeHasher where
  hashL : Nat
  zeroValue : Bytes
  deriving DecidableEq, Repr

/-- `newTreeHasher(hasher hash.Hash)`. Faithful to the source: the `hasher`
argument is ignored; `hashL` is set from `sha256.New().Size()` — i.e. from
the ambient `crypto/sha256` package `A`, not from the argument. -/
def newTreeHasher (A : HashAlgo) (hasher : HashAlgo) : treeHasher :=
  { hashL := A.size
    zeroValue := List.replicate A.size 0 }

/-- `treeHasher.pathSize()` -/
def treeHasher.pathSize (th : treeHasher) : Nat := th.hashL

/-- `treeHasher.placeholder()` -/
def treeHasher.placeholder (th : treeHasher) : Bytes := th.zeroValue

/-- `treeHasher.digest(data)`: instantiates `sha256.New()` — the ambient
package `A` — regardless of the receiver's configuration. -/
def treeHasher.digest (th : treeHasher) (A : HashAlgo) (data : Bytes) : Bytes :=
  A.hash data

/-- `treeHasher.path(key)` -/
def treeHasher.path (th : treeHasher) (A : HashAlgo) (key : Bytes) : Bytes :=
  th.digest A key

/-- `treeHasher.digestLeaf(path, leafData)` -/
def treeHasher.digestLeaf (th : treeHasher) (A : HashAlgo) (path leafData : Bytes) :
    Bytes × Bytes :=
  let value := leafPref ++ path ++ leafData
  (th.digest A value, value)

/-- `treeHasher.parseLeaf(data)`: `(path, valueHash, payload-after-tag)`. -/
def treeHasher.parseLeaf (th : treeHasher) (data : Bytes) : Bytes × Bytes × Bytes :=
  ((data.drop 1).take th.pathSize, data.drop (1 + th.pathSize), data.drop 1)

/-- `treeHasher.isLeaf(data)` -/
def treeHasher.isLeaf (th : treeHasher) (data : Bytes) : Bool :=
  data.take 1 = leafPref

/-- `treeHasher.digestNode(leftData, rightData)` -/
def treeHasher.digestNode (th : treeHasher) (A : HashAlgo) (leftData rightData : Bytes) :
    Bytes × Bytes :=
  let value := nodePref ++ leftData ++ rightData
  (th.digest A value, value)

/-- `treeHasher.parseNode(data)` -/
def treeHasher.parseNode (th : treeHasher) (data : Bytes) : Bytes × Bytes :=
  ((data.drop 1).take th.pathSize, data.drop (1 + th.pathSize))

/-! ## mapstore.go -/

/-- `SimpleValue`: stored data plus a `uint32` reference count. -/
structure SimpleValue where
  data : Bytes
  count : Nat
  deriving DecidableEq, Repr

/-- `SimpleMap`: the in-memory reference-counting map, as an association
list keyed by byte strings. -/
abbrev SimpleMap := List (Bytes × SimpleValue)

/-- Lookup in the underlying Go map. -/
def SimpleMap.find? : SimpleMap → Bytes → Option SimpleValue
  | [], _ => none
  | (k, v) :: rest, key => if k = key then some v else SimpleMap.find? rest key

/-- `SimpleMap.Get`: data of an entry, or `InvalidKeyError`. -/
def SimpleMap.get (sm : SimpleMap) (key : Bytes) : Except SMTErr Bytes :=
  match sm.find? key with
  | some v => .ok v.data
  | none => .error (.invalidKey key)

/-- `SimpleMap.Put`: replace the data and increment the `uint32` count of an
existing entry, or insert with count 1. -/
def SimpleMap.put : SimpleMap → Bytes → Bytes → SimpleMap
  | [], key, value => [(key, ⟨value, 1⟩)]
  | (k, v) :: rest, key, value =>
    if k = key then (k, ⟨value, (v.count + 1) % 2 ^ 32⟩) :: rest
    else (k, v) :: SimpleMap.put rest key value

/-- `SimpleMap.Has` -/
def SimpleMap.has (sm : SimpleMap) (key : Bytes) : Bool :=
  (sm.find? key).isSome

/-- `SimpleMap.Delete`: decrement the `uint32` count, removing the entry at
zero; `InvalidKeyError` when the key is absent. -/
def SimpleMap.delete : SimpleMap → Bytes → Except SMTErr SimpleMap
  | [], key => .error (.invalidKey key)
  | (k, v) :: rest, key =>
    if k = key then
      let c := (v.count + (2 ^ 32 - 1)) % 2 ^ 32
      if c = 0 then .ok rest else .ok ((k, ⟨v.data, c⟩) :: rest)
    else
      match SimpleMap.delete rest key with
      | .ok rest' => .ok ((k, v) :: rest')
      | .error e => .error e

/-! ## smt.go: the tree structure -/

/-- `SparseMerkleTree` -/
structure SparseMerkleTree where
  th : treeHasher
  nodes : SimpleMap
  values : SimpleMap
  root : Bytes
  deriving DecidableEq, Repr

/-- `NewSparseMerkleTree(nodes, values, hasher)`; no `Option` functional
arguments are defined in the source, so the variadic `options` list is
empty and omitted. Sets the root to the placeholder. -/
def NewSparseMerkleTree (A : HashAlgo) (nodes values : SimpleMap) (hasher : HashAlgo) :
    SparseMerkleTree :=
  let th := newTreeHasher A hasher
  { th := th, nodes := nodes, values := values, root := th.placeholder }

/-- `ImportSparseMerkleTree(nodes, values, hasher, root)` -/
def ImportSparseMerkleTree (A : HashAlgo) (nodes values : SimpleMap) (hasher : HashAlgo)
    (root : Bytes) : SparseMerkleTree :=
  { th := newTreeHasher A hasher, nodes := nodes, values := values, root := root }

/-- `smt.depth()` -/
def SparseMerkleTree.depth (smt : SparseMerkleTree) : Nat :=
  smt.th.pathSize * 8

/-- `smt.SetRoot(root)` -/
def SparseMerkleTree.setRoot (smt : SparseMerkleTree) (root : Bytes) : SparseMerkleTree :=
  { smt with root := root }

/-! ## smt.go: traversal (`sideNodesForRoot`) -/

/-- The result of a traversal: side nodes (in the Go code each entry is a
byte slice that may in principle be `nil`, hence `Option`), path nodes, the
terminus leaf data, and the optional deepest sibling data. -/
abbrev TraversalResult :=
  List (Option Bytes) × List Bytes × Option Bytes × Option Bytes

/-- The descent loop of `sideNodesForRoot`, recursing on the remaining
depth (`fuel = depth - i`). `currentData` is the encoding of the current
internal node; accumulators grow at the tail exactly as the Go `append`s
do, and are reversed by the caller. The last computed side node is carried
for the `getSiblingData` read after the loop. -/
def sideNodesGo (smt : SparseMerkleTree) (path : Bytes) :
    Nat → Nat → Bytes → List (Option Bytes) → List Bytes → Option Bytes →
    Except SMTErr (List (Option Bytes) × List Bytes × Option Bytes × Option Bytes)
  | 0, _, currentData, sideNodes, pathNodes, lastSide =>
    -- the loop ran to full depth without a break: `currentData` is the most
    -- recently fetched (non-leaf) encoding and is returned as the leaf data
    .ok (sideNodes, pathNodes, some currentData, lastSide)
  | fuel + 1, i, currentData, sideNodes, pathNodes, _ =>
    let lr := smt.th.parseNode currentData
    let sideNode := if getBitAtFromMSB path i = 1 then lr.1 else lr.2
    let nodeHash := if getBitAtFromMSB path i = 1 then lr.2 else lr.1
    let sideNodes := sideNodes ++ [some sideNode]
    let pathNodes := pathNodes ++ [nodeHash]
    if nodeHash = smt.th.placeholder then
      -- the selected child is a placeholder: the end, with nil leaf data
      .ok (sideNodes, pathNodes, none, some sideNode)
    else
      match smt.nodes.get nodeHash with
      | .error e => .error e
      | .ok currentData =>
        if smt.th.isLeaf currentData then
          .ok (sideNodes, pathNodes, some currentData, some sideNode)
        else
          sideNodesGo smt path fuel (i + 1) currentData sideNodes pathNodes (some sideNode)

/-- `smt.sideNodesForRoot(path, root, getSiblingData)` -/
def sideNodesForRoot (smt : SparseMerkleTree) (path root : Bytes)
    (getSiblingData : Bool) : Except SMTErr TraversalResult :=
  if root = smt.th.placeholder then
    .ok ([], [root], none, none)
  else
    match smt.nodes.get root with
    | .error e => .error e
    | .ok currentData =>
      if smt.th.isLeaf currentData then
        .ok ([], [root], some currentData, none)
      else
        match sideNodesGo smt path smt.depth 0 currentData [] [root] none with
        | .error e => .error e
        | .ok (sideNodes, pathNodes, leafData, lastSide) =>
          if getSiblingData then
            match smt.nodes.get (lastSide.getD []) with
            | .error e => .error e
            | .ok siblingData =>
              .ok (reverseByteSlices sideNodes, reverseByteSlices pathNodes,
                   leafData, some siblingData)
          else
            .ok (reverseByteSlices sideNodes, reverseByteSlices pathNodes,
                 leafData, none)

/-! ## smt.go: reads -/

/-- `smt.GetFromRoot(key, root)` -/
def GetFromRoot (A : HashAlgo) (smt : SparseMerkleTree) (key root : Bytes) :
    Except SMTErr Bytes :=
  if root = smt.th.placeholder then
    .ok defaultValue
  else
    let path := smt.th.path A key
    match sideNodesForRoot smt path root false with
    | .error e =>
      if e.isInvalidKey then .ok defaultValue else .error e
    | .ok (_, _, leafData, _) =>
      match leafData with
      | none => .ok defaultValue
      | some ld =>
        let parsed := smt.th.parseLeaf ld
        if parsed.1 ≠ path then .ok defaultValue
        else
          let kv := smt.th.digest A parsed.2.2
          smt.values.get kv

/-- `smt.Get(key)` -/
def Get (A : HashAlgo) (smt : SparseMerkleTree) (key : Bytes) : Except SMTErr Bytes :=
  GetFromRoot A smt key smt.root

/-! ## smt.go: mutation engine -/

/-- The spine-rebuilding loop of `updateWithSideNodes` (`for i := 0; i <
smt.depth(); i++`), recursing on `fuel = depth - i`. `cpc` is
`commonPrefixCount`, `dep` is `smt.depth()`, `offset` is
`offsetOfSideNodes`. `SimpleMap.Put` never fails, so the loop is pure.

The side node the loop uses at iteration `i` is factored out: an
existing side node when the index falls into `sideNodes`, an injected
placeholder between the divergence depth and the bottom, or nothing
(the level is skipped). -/
def updateSideAt (th : treeHasher) (cpc dep offset : Nat)
    (sideNodes : List (Option Bytes)) (i : Nat) : Option Bytes :=
  if i < offset ∨ sideNodes.getD (i - offset) none = none then
    if cpc ≠ dep ∧ cpc > dep - 1 - i then some th.placeholder else none
  else sideNodes.getD (i - offset) none

def updateLoop (th : treeHasher) (A : HashAlgo) (path : Bytes) (cpc dep offset : Nat)
    (sideNodes : List (Option Bytes)) :
    Nat → Nat → Bytes → Bytes → SimpleMap → Bytes × Bytes × SimpleMap
  | 0, _, currentHash, currentData, nodes => (currentHash, currentData, nodes)
  | fuel + 1, i, currentHash, currentData, nodes =>
    match updateSideAt th cpc dep offset sideNodes i with
    | none => updateLoop th A path cpc dep offset sideNodes fuel (i + 1)
        currentHash currentData nodes
    | some sideNode =>
      let hd :=
        if getBitAtFromMSB path (dep - 1 - i) = 1 then th.digestNode A sideNode currentData
        else th.digestNode A currentData sideNode
      updateLoop th A path cpc dep offset sideNodes fuel (i + 1)
        hd.1 hd.1 (nodes.put hd.1 hd.2)

/-- `smt.updateWithSideNodes(path, key, value, sideNodes, pathNodes,
oldLeafData)`. The only fallible operations are `SimpleMap.Put`s, which
never fail, so the result is pure. Note that the new leaf and the value
entry are `Put` before the idempotent-write short-circuit is tested, and
the short-circuit returns the tree's current `root` field. -/
def updateWithSideNodes (A : HashAlgo) (smt : SparseMerkleTree)
    (path key value : Bytes) (sideNodes : List (Option Bytes))
    (pathNodes : List Bytes) (oldLeafData : Option Bytes) :
    Bytes × SparseMerkleTree :=
  let valueHash := smt.th.digest A value
  let leafHD := smt.th.digestLeaf A path valueHash
  let currentHash := leafHD.1
  let smt := { smt with nodes := smt.nodes.put leafHD.1 leafHD.2 }
  let kvHash := path ++ valueHash
  let kv := smt.th.digest A kvHash
  let smt := { smt with values := smt.values.put kv value }
  let currentData := currentHash
  let cpcOld : Nat × Option Bytes :=
    if pathNodes.getD 0 [] = smt.th.placeholder then (smt.depth, none)
    else
      let parsed := smt.th.parseLeaf (oldLeafData.getD [])
      (countCommonPref path parsed.1, some parsed.2.1)
  let commonPrefCount := cpcOld.1
  let oldValue := cpcOld.2
  if h : commonPrefCount ≠ smt.depth then
    let hd :=
      if getBitAtFromMSB path commonPrefCount = 1 then
        smt.th.digestNode A (pathNodes.getD 0 []) currentData
      else
        smt.th.digestNode A currentData (pathNodes.getD 0 [])
    let smt := { smt with nodes := smt.nodes.put hd.1 hd.2 }
    let offsetOfSideNodes := smt.depth - sideNodes.length
    let res := updateLoop smt.th A path commonPrefCount smt.depth offsetOfSideNodes
      sideNodes smt.depth 0 hd.1 hd.1 smt.nodes
    (res.1, { smt with nodes := res.2.2 })
  else if oldValue = some valueHash then
    -- short-circuit: the same value is being set; return the tree's root
    (smt.root, smt)
  else
    let offsetOfSideNodes := smt.depth - sideNodes.length
    let res := updateLoop smt.th A path commonPrefCount smt.depth offsetOfSideNodes
      sideNodes smt.depth 0 currentHash currentData smt.nodes
    (res.1, { smt with nodes := res.2.2 })

/-- The bubbling loop of `deleteWithSideNodes` (`for i, sideNode := range
sideNodes`). `totalLen` is `len(sideNodes)`; `currentHash`/`currentData`
start as Go `nil`, modelled by `none`; `npr` is `nonPlaceholderReached`.
The single store read happens while `currentData` is still `nil`. -/
def deleteLoop (th : treeHasher) (A : HashAlgo) (path : Bytes) (totalLen : Nat)
    (nodesStore : SimpleMap) :
    List (Option Bytes) → Nat → Option Bytes → Option Bytes → Bool → SimpleMap →
    Except SMTErr (Option Bytes × SimpleMap)
  | [], _, currentHash, _, _, nodes => .ok (currentHash, nodes)
  | sn? :: rest, i, currentHash, currentData, npr, nodes =>
    let sideNode := sn?.getD []
    let afterFetch : Except SMTErr (Option Bytes × Option Bytes × Bool × Bool) :=
      -- (currentHash, currentData, npr, skipRest): resolves the
      -- `if currentData == nil` block; `skipRest` is the leaf-sibling `continue`
      match currentData with
      | none =>
        match nodes.get sideNode with
        | .error e => .error e
        | .ok sideNodeValue =>
          if th.isLeaf sideNodeValue then
            .ok (some sideNode, some sideNode, npr, true)
          else
            .ok (currentHash, some th.placeholder, true, false)
      | some cd => .ok (currentHash, some cd, npr, false)
    match afterFetch with
    | .error e => .error e
    | .ok (currentHash, currentData, npr, skipRest) =>
      if skipRest then
        deleteLoop th A path totalLen nodesStore rest (i + 1) currentHash currentData npr nodes
      else if ¬npr ∧ sideNode = th.placeholder then
        -- another placeholder sibling: keep bubbling up
        deleteLoop th A path totalLen nodesStore rest (i + 1) currentHash currentData npr nodes
      else
        let cd := currentData.getD []
        let hd :=
          if getBitAtFromMSB path (totalLen - 1 - i) = 1 then th.digestNode A sideNode cd
          else th.digestNode A cd sideNode
        deleteLoop th A path totalLen nodesStore rest (i + 1) (some hd.1) (some hd.1) true
          (nodes.put hd.1 hd.2)

/-- `smt.deleteWithSideNodes(path, sideNodes, pathNodes, oldLeafData)`. -/
def deleteWithSideNodes (A : HashAlgo) (smt : SparseMerkleTree) (path : Bytes)
    (sideNodes : List (Option Bytes)) (pathNodes : List Bytes)
    (oldLeafData : Option Bytes) : Except SMTErr (Bytes × SparseMerkleTree) :=
  if pathNodes.getD 0 [] = smt.th.placeholder then
    .error .keyAlreadyEmpty
  else
    let parsed := smt.th.parseLeaf (oldLeafData.getD [])
    if path ≠ parsed.1 then
      .error .keyAlreadyEmpty
    else
      match deleteLoop smt.th A path sideNodes.length smt.nodes sideNodes 0
          none none false smt.nodes with
      | .error e => .error e
      | .ok (currentHash?, nodes') =>
        (.ok (currentHash?.getD smt.th.placeholder, { smt with nodes := nodes' }))

/-- `smt.UpdateForRoot(key, value, root)` -/
def UpdateForRoot (A : HashAlgo) (smt : SparseMerkleTree) (key value root : Bytes) :
    Except SMTErr (Bytes × SparseMerkleTree) :=
  let path := smt.th.path A key
  match sideNodesForRoot smt path root false with
  | .error e => .error (.trailSideNodesFail e)
  | .ok (sideNodes, pathNodes, oldLeafData, _) =>
    if value = defaultValue then
      match deleteWithSideNodes A smt path sideNodes pathNodes oldLeafData with
      | .error e =>
        if e.isKeyAlreadyEmpty then .ok (root, smt) else .error e
      | .ok r => .ok r
    else
      .ok (updateWithSideNodes A smt path key value sideNodes pathNodes oldLeafData)

/-- `smt.Update(key, value)`: runs `UpdateForRoot` at the current root and
installs the new root. -/
def Update (A : HashAlgo) (smt : SparseMerkleTree) (key value : Bytes) :
    Except SMTErr (Bytes × SparseMerkleTree) :=
  match UpdateForRoot A smt key value smt.root with
  | .error e => .error e
  | .ok (newRoot, smt') => .ok (newRoot, smt'.setRoot newRoot)

/-- `smt.Delete(key)` -/
def Delete (A : HashAlgo) (smt : SparseMerkleTree) (key : Bytes) :
    Except SMTErr (Bytes × SparseMerkleTree) :=
  Update A smt key defaultValue

/-- `smt.DeleteForRoot(key, root)` -/
def DeleteForRoot (A : HashAlgo) (smt : SparseMerkleTree) (key root : Bytes) :
    Except SMTErr (Bytes × SparseMerkleTree) :=
  UpdateForRoot A smt key defaultValue root

/-! ## smt.go: retraction engine -/

/-- Loop body shared by the retraction loops: delete `node` from the node
store unless it is the placeholder. -/
def removeNodeStep (th : treeHasher) (node : Bytes) (nodes : SimpleMap) :
    Except SMTErr SimpleMap :=
  if node = th.placeholder then .ok nodes
  else nodes.delete node

/-- The loop of `RemovePathForRoot`: over `pathNodes` with index `i`; at
`i = 0` with leaf data present, a terminus leaf for a different key skips
the whole iteration, a matching leaf first deletes the value entry. -/
def removePathForRootLoop (th : treeHasher) (A : HashAlgo) (path : Bytes)
    (leafData : Option Bytes) :
    List Bytes → Nat → SimpleMap → SimpleMap → Except SMTErr (SimpleMap × SimpleMap)
  | [], _, values, nodes => .ok (values, nodes)
  | node :: rest, i, values, nodes =>
    if i = 0 ∧ leafData.isSome then
      let parsed := th.parseLeaf (leafData.getD [])
      if parsed.1 ≠ path then
        removePathForRootLoop th A path leafData rest (i + 1) values nodes
      else
        let kv := th.digest A parsed.2.2
        match values.delete kv with
        | .error e => .error e
        | .ok values =>
          match removeNodeStep th node nodes with
          | .error e => .error e
          | .ok nodes => removePathForRootLoop th A path leafData rest (i + 1) values nodes
    else
      match removeNodeStep th node nodes with
      | .error e => .error e
      | .ok nodes => removePathForRootLoop th A path leafData rest (i + 1) values nodes

/-- `smt.RemovePathForRoot(key, root)` -/
def RemovePathForRoot (A : HashAlgo) (smt : SparseMerkleTree) (key root : Bytes) :
    Except SMTErr SparseMerkleTree :=
  let path := smt.th.path A key
  match sideNodesForRoot smt path root false with
  | .error e => .error e
  | .ok (_, pathNodes, leafData, _) =>
    match removePathForRootLoop smt.th A path leafData pathNodes 0 smt.values smt.nodes with
    | .error e => .error e
    | .ok (values, nodes) => .ok { smt with values := values, nodes := nodes }

/-- Loop body of `RemovePath` for the node store: delete `node` unless it is
the placeholder or a member of the keep-set `smap`. -/
def removeNodeStepKeep (th : treeHasher) (smap : List Bytes) (node : Bytes)
    (nodes : SimpleMap) : Except SMTErr SimpleMap :=
  if node = th.placeholder then .ok nodes
  else if node ∈ smap then .ok nodes
  else nodes.delete node

/-- The loop of `RemovePath`: over the remove-root's `pathNodes`; the keep
root's path nodes `smap` protect shared nodes, and at `i = 0` also protect
the terminus leaf's value entry. -/
def removePathLoop (th : treeHasher) (A : HashAlgo) (path : Bytes)
    (leafData : Option Bytes) (pathNodes0 : Bytes) (smap : List Bytes) :
    List Bytes → Nat → SimpleMap → SimpleMap → Except SMTErr (SimpleMap × SimpleMap)
  | [], _, values, nodes => .ok (values, nodes)
  | node :: rest, i, values, nodes =>
    if i = 0 ∧ leafData.isSome then
      let parsed := th.parseLeaf (leafData.getD [])
      if parsed.1 ≠ path ∨ pathNodes0 ∈ smap then
        removePathLoop th A path leafData pathNodes0 smap rest (i + 1) values nodes
      else
        let kv := th.digest A parsed.2.2
        match values.delete kv with
        | .error e => .error e
        | .ok values =>
          match removeNodeStepKeep th smap node nodes with
          | .error e => .error e
          | .ok nodes =>
            removePathLoop th A path leafData pathNodes0 smap rest (i + 1) values nodes
    else
      match removeNodeStepKeep th smap node nodes with
      | .error e => .error e
      | .ok nodes => removePathLoop th A path leafData pathNodes0 smap rest (i + 1) values nodes

/-- `smt.RemovePath(key, removeRoot, keepRoot)` -/
def RemovePath (A : HashAlgo) (smt : SparseMerkleTree) (key removeRoot keepRoot : Bytes) :
    Except SMTErr SparseMerkleTree :=
  let path := smt.th.path A key
  match sideNodesForRoot smt path removeRoot false with
  | .error e => .error e
  | .ok (_, pathNodes, leafData, _) =>
    match sideNodesForRoot smt path keepRoot false with
    | .error e => .error e
    | .ok (_, kpathNodes, _, _) =>
      match removePathLoop smt.th A path leafData (pathNodes.getD 0 []) kpathNodes
          pathNodes 0 smt.values smt.nodes with
      | .error e => .error e
      | .ok (values, nodes) => .ok { smt with values := values, nodes := nodes }

/-! ## smt.go: proof engine -/

/-- Modelled from the spec: the `SparseMerkleProof` structure (declared in a
file of the repository not under `src/`; its three fields are fixed by the
spec and by their use in `doProveForRoot`): the non-empty side nodes, the
optional non-membership leaf data, and the optional sibling data. -/
structure SparseMerkleProof where
  SideNodes : List Bytes
  NonMembershipLeafData : Option Bytes
  SiblingData : Option Bytes
  deriving DecidableEq, Repr

/-- `smt.doProveForRoot(key, root, isUpdatable)` -/
def doProveForRoot (A : HashAlgo) (smt : SparseMerkleTree) (key root : Bytes)
    (isUpdatable : Bool) : Except SMTErr SparseMerkleProof :=
  let path := smt.th.path A key
  match sideNodesForRoot smt path root isUpdatable with
  | .error e => .error e
  | .ok (sideNodes, pathNodes, leafData, siblingData) =>
    let nonEmptySideNodes := sideNodes.filterMap id
    let nonMembershipLeafData : Option Bytes :=
      if pathNodes.getD 0 [] ≠ smt.th.placeholder then
        let parsed := smt.th.parseLeaf (leafData.getD [])
        if parsed.1 ≠ path then leafData else none
      else none
    .ok { SideNodes := nonEmptySideNodes
          NonMembershipLeafData := nonMembershipLeafData
          SiblingData := siblingData }

/-- `smt.ProveForRoot(key, root)` -/
def ProveForRoot (A : HashAlgo) (smt : SparseMerkleTree) (key root : Bytes) :
    Except SMTErr SparseMerkleProof :=
  doProveForRoot A smt key root false

/-- `smt.Prove(key)` -/
def Prove (A : HashAlgo) (smt : SparseMerkleTree) (key : Bytes) :
    Except SMTErr SparseMerkleProof :=
  ProveForRoot A smt key smt.root

/-! ## Concrete test fixtures

A small hash algorithm with 1-byte digests (depth 8) used to evaluate the
model on concrete inputs, mirroring the role `sha256` plays in the Go
tests. -/

/-- A 1-byte mixing digest for concrete evaluation. -/
def testHash (data : Bytes) : Bytes :=
  [(data.foldl (fun a b => (31 * a + b + 11) % 256) ((data.length + 1) % 256)) % 256]

/-- The test hash algorithm: 1-byte digests, so the tree has depth 8. -/
def testAlgo : HashAlgo := ⟨testHash, 1⟩

/-- An empty test tree over empty stores. -/
def emptyTestTree : SparseMerkleTree := NewSparseMerkleTree testAlgo [] [] testAlgo

/-- Apply `Update`, keeping the old tree if it fails (it does not on these
fixtures); convenience for building concrete states. -/
def applyUpdate (A : HashAlgo) (smt : SparseMerkleTree) (key value : Bytes) :
    SparseMerkleTree :=
  match Update A smt key value with
  | .ok p => p.2
  | .error _ => smt

/-- The test tree holding foo ↦ bar. -/
def tree1 : SparseMerkleTree := applyUpdate testAlgo emptyTestTree [102, 111, 111] [98, 97, 114]

/-- The test tree after foo ↦ bar and then foo ↦ qux: its current root
differs from `tree1`'s, while foo still held bar under `tree1.root`. -/
def tree1b : SparseMerkleTree := applyUpdate testAlgo tree1 [102, 111, 111] [113, 117, 120]

/-- The test tree holding key [1] ↦ [55]. -/
def treeP1 : SparseMerkleTree := applyUpdate testAlgo emptyTestTree [1] [55]

/-- The test tree holding [1] ↦ [55] and [2] ↦ [55] (two keys, one value). -/
def treeP2 : SparseMerkleTree := applyUpdate testAlgo treeP1 [2] [55]

/-! ## Canonical tree abstraction

The functional reading of the store: a canonical sparse-Merkle subtree is
empty, a single leaf, or an internal node with at least two leaves below
it and no empty/leaf sibling degeneracies — exactly the shape §3's
invariants and the Libra optimization describe. The mutation engine is
verified by relating it to pure tree operations on this abstraction. -/

/-- The canonical-subtree abstraction of the stored tree. -/
inductive CTree where
  | empty
  | leaf (p vh : Bytes)
  | node (lt rt : CTree)
  deriving DecidableEq, Repr

/-- The leaf encoding `0x00 ‖ path ‖ valueHash` (as built by `digestLeaf`). -/
def leafEncB (p vh : Bytes) : Bytes := leafPref ++ p ++ vh

/-- The internal-node encoding `0x01 ‖ left ‖ right` (as built by
`digestNode`). -/
def nodeEncB (l r : Bytes) : Bytes := nodePref ++ l ++ r

/-- The digest of a canonical subtree: placeholder for empty, content
digest otherwise. -/
def CTree.digestOf (A : HashAlgo) : CTree → Bytes
  | .empty => List.replicate A.size 0
  | .leaf p vh => A.hash (leafEncB p vh)
  | .node lt rt => A.hash (nodeEncB (lt.digestOf A) (rt.digestOf A))

/-- The leaves of a canonical subtree, left to right. -/
def CTree.leaves : CTree → List (Bytes × Bytes)
  | .empty => []
  | .leaf p vh => [(p, vh)]
  | .node lt rt => lt.leaves ++ rt.leaves

/-- Number of leaves. -/
def CTree.leafCount (t : CTree) : Nat := t.leaves.length

/-- Path lookup in a leaf list. -/
def lookupPath : List (Bytes × Bytes) → Bytes → Option Bytes
  | [], _ => none
  | (p, vh) :: rest, q => if p = q then some vh else lookupPath rest q

/-- The partial map a canonical subtree represents: full path ↦ valueHash. -/
def CTree.mapOf (t : CTree) (q : Bytes) : Option Bytes := lookupPath t.leaves q

/-- The node/leaf encodings appearing in a canonical subtree. -/
def CTree.encList (A : HashAlgo) : CTree → List Bytes
  | .empty => []
  | .leaf p vh => [leafEncB p vh]
  | .node lt rt =>
    nodeEncB (lt.digestOf A) (rt.digestOf A) :: (lt.encList A ++ rt.encList A)

/-- Canonical well-formedness of a subtree hanging at depth `d`: leaf paths
are full-length, node children split by the bit at the node's depth, no
internal node has fewer than two leaves below it (which rules out both the
placeholder/placeholder and the leaf/placeholder sibling shapes), and
nodes never occur at the bottom depth. -/
def CTree.cwf (A : HashAlgo) : Nat → CTree → Prop
  | _, .empty => True
  | d, .leaf p vh => p.length = A.size ∧ d ≤ 8 * A.size ∧ ∀ x ∈ p, x < 256
  | d, .node lt rt =>
    d < 8 * A.size ∧ lt.cwf A (d + 1) ∧ rt.cwf A (d + 1) ∧
    (∀ pr ∈ lt.leaves, getBitAtFromMSB pr.1 d = 0) ∧
    (∀ pr ∈ rt.leaves, getBitAtFromMSB pr.1 d = 1) ∧
    2 ≤ lt.leafCount + rt.leafCount

/-- Data stored at a key, ignoring the reference count. -/
def SimpleMap.dataAt (sm : SimpleMap) (k : Bytes) : Option Bytes :=
  (sm.find? k).map SimpleValue.data

/-- The store faithfully holds a canonical subtree: each node's encoding is
stored at its digest, digests have the hash length, and no digest collides
with the placeholder. -/
def CTree.storedIn (A : HashAlgo) (nodes : SimpleMap) : CTree → Prop
  | .empty => True
  | .leaf p vh =>
    nodes.dataAt (A.hash (leafEncB p vh)) = some (leafEncB p vh) ∧
    (A.hash (leafEncB p vh)).length = A.size ∧
    A.hash (leafEncB p vh) ≠ List.replicate A.size 0
  | .node lt rt =>
    nodes.dataAt (A.hash (nodeEncB (lt.digestOf A) (rt.digestOf A))) =
      some (nodeEncB (lt.digestOf A) (rt.digestOf A)) ∧
    (A.hash (nodeEncB (lt.digestOf A) (rt.digestOf A))).length = A.size ∧
    A.hash (nodeEncB (lt.digestOf A) (rt.digestOf A)) ≠ List.replicate A.size 0 ∧
    lt.storedIn A nodes ∧ rt.storedIn A nodes

/-- Canonical well-formedness is decidable. -/
def CTree.cwfDec (A : HashAlgo) : (d : Nat) → (t : CTree) → Decidable (t.cwf A d)
  | _, .empty => .isTrue trivial
  | d, .leaf p vh => by unfold CTree.cwf; infer_instance
  | d, .node lt rt => by
    unfold CTree.cwf
    have hl := CTree.cwfDec A (d + 1) lt
    have hr := CTree.cwfDec A (d + 1) rt
    infer_instance

instance (A : HashAlgo) (d : Nat) (t : CTree) : Decidable (t.cwf A d) :=
  CTree.cwfDec A d t

/-- Being stored is decidable. -/
def CTree.storedInDec (A : HashAlgo) (nodes : SimpleMap) :
    (t : CTree) → Decidable (t.storedIn A nodes)
  | .empty => .isTrue trivial
  | .leaf p vh => by unfold CTree.storedIn; infer_instance
  | .node lt rt => by
    unfold CTree.storedIn
    have hl := CTree.storedInDec A nodes lt
    have hr := CTree.storedInDec A nodes rt
    infer_instance

instance (A : HashAlgo) (nodes : SimpleMap) (t : CTree) : Decidable (t.storedIn A nodes) :=
  CTree.storedInDec A nodes t

/-- The pure splitting helper for inserting a new leaf whose path diverges
from an existing leaf's: `fuel` levels of single-child nodes (empty
sibling) from depth `d` down to the divergence depth, then the two-leaf
node ordered by the new path's bit. -/
def CTree.splitLeaf (p vh q wh : Bytes) : Nat → Nat → CTree
  | d, 0 =>
    if getBitAtFromMSB p d = 1 then .node (.leaf q wh) (.leaf p vh)
    else .node (.leaf p vh) (.leaf q wh)
  | d, fuel + 1 =>
    if getBitAtFromMSB p d = 1 then .node .empty (CTree.splitLeaf p vh q wh (d + 1) fuel)
    else .node (CTree.splitLeaf p vh q wh (d + 1) fuel) .empty

/-- The pure insert of `p ↦ vh` into a canonical subtree at depth `d`,
mirroring `updateWithSideNodes`: replace an equal-path leaf, split an
unequal-path leaf at the common-prefix depth, descend through nodes by the
path bit. -/
def CTree.insertLeaf (A : HashAlgo) : Nat → CTree → Bytes → Bytes → CTree
  | _, .empty, p, vh => .leaf p vh
  | d, .leaf q wh, p, vh =>
    if countCommonPref p q = 8 * A.size then .leaf p vh
    else CTree.splitLeaf p vh q wh d (countCommonPref p q - d)
  | d, .node lt rt, p, vh =>
    if getBitAtFromMSB p d = 1 then .node lt (CTree.insertLeaf A (d + 1) rt p vh)
    else .node (CTree.insertLeaf A (d + 1) lt p vh) rt

/-- Canonicalizing node constructor used by deletion: collapse an
empty/empty pair and bubble a lone leaf upward (an empty/subtree pair with
an internal subtree is left in place). -/
def CTree.mkNode : CTree → CTree → CTree
  | .empty, .empty => .empty
  | .leaf p vh, .empty => .leaf p vh
  | .empty, .leaf p vh => .leaf p vh
  | lt, rt => .node lt rt

/-- The pure delete of path `p` from a canonical subtree at depth `d`,
mirroring `deleteWithSideNodes`: an equal-path leaf disappears and the
affected spine re-canonicalizes via `CTree.mkNode`. -/
def CTree.deleteLeaf (A : HashAlgo) : Nat → CTree → Bytes → CTree
  | _, .empty, _ => .empty
  | _, .leaf q wh, p =>
    if countCommonPref p q = 8 * A.size then .empty else .leaf q wh
  | d, .node lt rt, p =>
    if getBitAtFromMSB p d = 1 then CTree.mkNode lt (CTree.deleteLeaf A (d + 1) rt p)
    else CTree.mkNode (CTree.deleteLeaf A (d + 1) lt p) rt

/-- Top-down sibling digests along a query path: what the traversal
collects (before its final reversal). -/
def CTree.travSides (A : HashAlgo) : CTree → Bytes → Nat → List Bytes
  | .node lt rt, q, d =>
    if getBitAtFromMSB q d = 1 then lt.digestOf A :: rt.travSides A q (d + 1)
    else rt.digestOf A :: lt.travSides A q (d + 1)
  | _, _, _ => []

/-- Top-down selected-child digests along a query path (the traversal's
path nodes below the root, before its final reversal). -/
def CTree.travPath (A : HashAlgo) : CTree → Bytes → Nat → List Bytes
  | .node lt rt, q, d =>
    if getBitAtFromMSB q d = 1 then rt.digestOf A :: rt.travPath A q (d + 1)
    else lt.digestOf A :: lt.travPath A q (d + 1)
  | _, _, _ => []

/-- The terminus subtree of a query path: descend through nodes by the
path bits until a leaf or an empty subtree. -/
def CTree.terminus (A : HashAlgo) : CTree → Bytes → Nat → CTree
  | .node lt rt, q, d =>
    if getBitAtFromMSB q d = 1 then rt.terminus A q (d + 1) else lt.terminus A q (d + 1)
  | t, _, _ => t

/-- The traversal's leaf data under the abstraction: the terminus leaf's
encoding, or `none` at an empty terminus. -/
def CTree.travLeaf (A : HashAlgo) (t : CTree) (q : Bytes) (d : Nat) : Option Bytes :=
  match t.terminus A q d with
  | .empty => none
  | .leaf p vh => some (leafEncB p vh)
  | .node _ _ => none

/-- One combination step at depth `d`: the sibling `s` and the running
digest `h`, ordered by the query path's bit; returns (digest, encoding)
exactly as `digestNode` does. -/
def combineAt (A : HashAlgo) (q : Bytes) (d : Nat) (s h : Bytes) : Bytes × Bytes :=
  if getBitAtFromMSB q d = 1 then (A.hash (nodeEncB s h), nodeEncB s h)
  else (A.hash (nodeEncB h s), nodeEncB h s)

/-- Recombination of a digest at the bottom of a sibling chain: combine
upward through the top-down sibling list by the query path's bits. -/
def combineDown (A : HashAlgo) (q : Bytes) : List Bytes → Nat → Bytes → Bytes
  | [], _, h => h
  | s :: rest, d, h => (combineAt A q d s (combineDown A q rest (d + 1) h)).1

/-- The internal-node encodings created while recombining through a
sibling list, deepest first (the order `updateWithSideNodes`' loop `Put`s
them). -/
def sidesEncs (A : HashAlgo) (q : Bytes) : List Bytes → Nat → Bytes → List Bytes
  | [], _, _ => []
  | s :: rest, d, h =>
    sidesEncs A q rest (d + 1) h ++ [(combineAt A q d s (combineDown A q rest (d + 1) h)).2]

/-- Wrap a subtree in a single-child node at depth `d`, empty sibling on
the off-path side of the query path's bit. -/
def wrapAt (q : Bytes) (d : Nat) (t : CTree) : CTree :=
  if getBitAtFromMSB q d = 1 then .node .empty t else .node t .empty

/-- Iterated wrapping from the bottom: `f` single-child nodes at depths
`dtop + f - 1` down to `dtop` (built bottom-up, which is the order the
loop creates them). -/
def wrapChain (q : Bytes) : Nat → Nat → CTree → CTree
  | 0, _, t => t
  | f + 1, dtop, t => wrapChain q f dtop (wrapAt q (dtop + f) t)

/-- The root encoding of a nonempty canonical subtree (empty gives the
empty byte string, which never arises in use). -/
def rootEncOf (A : HashAlgo) : CTree → Bytes
  | .empty => []
  | .leaf p vh => leafEncB p vh
  | .node lt rt => nodeEncB (lt.digestOf A) (rt.digestOf A)

/-- The node encodings created by iterated wrapping, deepest first. -/
def wrapEncs (A : HashAlgo) (q : Bytes) : Nat → Nat → CTree → List Bytes
  | 0, _, _ => []
  | f + 1, dtop, t =>
    rootEncOf A (wrapAt q (dtop + f) t) :: wrapEncs A q f dtop (wrapAt q (dtop + f) t)

/-- The two-leaf node at divergence depth `e`, ordered by the new path's
bit (the pre-loop combine of `updateWithSideNodes`). -/
def twoLeafAt (p vh q wh : Bytes) (e : Nat) : CTree :=
  if getBitAtFromMSB p e = 1 then .node (.leaf q wh) (.leaf p vh)
  else .node (.leaf p vh) (.leaf q wh)

/-- Content-addressed `Put` of a list of encodings, head first. -/
def putAll (A : HashAlgo) : List Bytes → SimpleMap → SimpleMap
  | [], nodes => nodes
  | e :: rest, nodes => putAll A rest (nodes.put (A.hash e) e)


/-! ## Verification scaffolding: histories of updates

`updateSeq` runs a list of `Update`s, failing if any returns an error;
`insertFold` is its pure shadow on canonical trees. `TreeInv` is the
coupling invariant, and `StepOk`/`HistOk` collect the per-step
hash-freshness side conditions (decidable, so concrete witnesses can
evaluate them). -/

/-- Run `Update` for each key/value pair in order. -/
def updateSeq (A : HashAlgo) : List (Bytes × Bytes) → SparseMerkleTree →
    Option SparseMerkleTree
  | [], smt => some smt
  | kv :: rest, smt =>
    match Update A smt kv.1 kv.2 with
    | .error _ => none
    | .ok p => updateSeq A rest p.2

/-- The pure shadow of `updateSeq` on canonical trees. -/
def insertFold (A : HashAlgo) (kvs : List (Bytes × Bytes)) (t : CTree) : CTree :=
  kvs.foldl (fun t kv => CTree.insertLeaf A 0 t (A.hash kv.1) (A.hash kv.2)) t

/-- Coupling invariant between a tree state and its canonical abstraction. -/
def TreeInv (A : HashAlgo) (smt : SparseMerkleTree) (t : CTree) : Prop :=
  smt.th = ⟨A.size, List.replicate A.size 0⟩ ∧
  smt.root = t.digestOf A ∧ t.cwf A 0 ∧ t.storedIn A smt.nodes

/-- Per-step side conditions for an insert: a real value, a well-formed
path, and hash freshness/injectivity over the new tree's encodings. -/
def StepOk (A : HashAlgo) (smt : SparseMerkleTree) (t : CTree) (key value : Bytes) : Prop :=
  value ≠ defaultValue ∧
  (A.hash key).length = A.size ∧ (∀ x ∈ A.hash key, x < 256) ∧
  (∀ e ∈ (CTree.insertLeaf A 0 t (A.hash key) (A.hash value)).encList A,
    (A.hash e).length = A.size ∧ A.hash e ≠ List.replicate A.size 0 ∧
    (smt.nodes.dataAt (A.hash e) = none ∨ smt.nodes.dataAt (A.hash e) = some e)) ∧
  (∀ e1 ∈ (CTree.insertLeaf A 0 t (A.hash key) (A.hash value)).encList A,
    ∀ e2 ∈ (CTree.insertLeaf A 0 t (A.hash key) (A.hash value)).encList A,
      A.hash e1 = A.hash e2 → e1 = e2)

instance (A : HashAlgo) (smt : SparseMerkleTree) (t : CTree) (key value : Bytes) :
    Decidable (StepOk A smt t key value) := by
  unfold StepOk
  infer_instance

/-- The side conditions along a whole history, following the real execution. -/
def HistOk (A : HashAlgo) : SparseMerkleTree → CTree → List (Bytes × Bytes) → Prop
  | _, _, [] => True
  | smt, t, kv :: rest =>
    StepOk A smt t kv.1 kv.2 ∧
    match Update A smt kv.1 kv.2 with
    | .error _ => False
    | .ok p => HistOk A p.2 (CTree.insertLeaf A 0 t (A.hash kv.1) (A.hash kv.2)) rest

/-- `HistOk` is decidable. -/
def HistOkDec (A : HashAlgo) :
    (kvs : List (Bytes × Bytes)) → (smt : SparseMerkleTree) → (t : CTree) →
      Decidable (HistOk A smt t kvs)
  | [], _, _ => .isTrue trivial
  | kv :: rest, smt, t => by
    unfold HistOk
    cases hu : Update A smt kv.1 kv.2 with
    | error e => infer_instance
    | ok p =>
      have := HistOkDec A rest p.2 (CTree.insertLeaf A 0 t (A.hash kv.1) (A.hash kv.2))
      infer_instance

instance (A : HashAlgo) (smt : SparseMerkleTree) (t : CTree) (kvs : List (Bytes × Bytes)) :
    Decidable (HistOk A smt t kvs) := HistOkDec A kvs smt t

/-! # Theorems -/

/-! ## Store lemmas -/

theorem SimpleMap.find?_put_other (sm : SimpleMap) (k w : Bytes) (v : Bytes)
    (h : w ≠ k) : (sm.put k v).find? w = sm.find? w := by
  induction sm with
  | nil => simp [SimpleMap.put, SimpleMap.find?, Ne.symm h]
  | cons p rest ih =>
    obtain ⟨k', v'⟩ := p
    by_cases hk : k' = k
    · subst hk
      simp [SimpleMap.put, SimpleMap.find?, h, Ne.symm h]
    · simp [SimpleMap.put, SimpleMap.find?, hk]
      by_cases hw : k' = w <;> simp [hw, ih]

theorem SimpleMap.find?_put_self (sm : SimpleMap) (k : Bytes) (v : Bytes) :
    (sm.put k v).find? k =
      some ⟨v, (((sm.find? k).map SimpleValue.count).getD 0 + 1) % 2 ^ 32⟩ := by
  induction sm with
  | nil => simp [SimpleMap.put, SimpleMap.find?]
  | cons p rest ih =>
    obtain ⟨k', v'⟩ := p
    by_cases hk : k' = k
    · subst hk
      simp [SimpleMap.put, SimpleMap.find?]
    · simp [SimpleMap.put, SimpleMap.find?, hk, ih]

theorem SimpleMap.find?_delete_other (sm sm' : SimpleMap) (k w : Bytes)
    (h : sm.delete k = .ok sm') (hw : w ≠ k) : sm'.find? w = sm.find? w := by
  induction sm generalizing sm' with
  | nil => exact absurd h (by simp [SimpleMap.delete])
  | cons p rest ih =>
    obtain ⟨k', v'⟩ := p
    simp only [SimpleMap.delete] at h
    split at h
    case isTrue hk =>
      subst hk
      split at h
      · rw [Except.ok.injEq] at h
        subst h
        simp [SimpleMap.find?, Ne.symm hw]
      · rw [Except.ok.injEq] at h
        subst h
        simp [SimpleMap.find?, Ne.symm hw]
    case isFalse hk =>
      split at h
      case h_1 rest' heq =>
        rw [Except.ok.injEq] at h
        subst h
        by_cases hkw : k' = w <;> simp [SimpleMap.find?, hkw, ih rest' heq]
      case h_2 e heq => cases h

theorem SimpleMap.find?_mem (sm : SimpleMap) (k : Bytes) (v : SimpleValue)
    (h : sm.find? k = some v) : (k, v) ∈ sm := by
  induction sm with
  | nil => simp [SimpleMap.find?] at h
  | cons p rest ih =>
    obtain ⟨k', v'⟩ := p
    simp only [SimpleMap.find?] at h
    split at h
    case isTrue hk =>
      subst hk
      rw [Option.some.injEq] at h
      subst h
      exact List.mem_cons_self _ _
    case isFalse hk =>
      exact List.mem_cons_of_mem _ (ih h)

/-! ## C4: the hash algorithm argument -/

/-- C4: the claim says every digest the tree computes is computed with the
hash function `h` passed to `NewSparseMerkleTree` / `ImportSparseMerkleTree`,
so a different algorithm changes every digest. The code drops the argument:
`newTreeHasher` never stores it and `treeHasher.digest` instantiates the
`crypto/sha256` package (the ambient `A`) directly, so the constructed tree
— and hence every digest and address it ever computes — is identical for
any two hasher arguments `h1`, `h2`, and every digest equals the ambient
SHA-256 digest. This refutes the claim as a property of the code and
evidences the code bug. -/
theorem c4_hasher_argument_ignored (A h1 h2 : HashAlgo) (nodesm valuesm : SimpleMap)
    (root data : Bytes) :
    NewSparseMerkleTree A nodesm valuesm h1 = NewSparseMerkleTree A nodesm valuesm h2 ∧
    ImportSparseMerkleTree A nodesm valuesm h1 root =
      ImportSparseMerkleTree A nodesm valuesm h2 root ∧
    (newTreeHasher A h1).digest A data = A.hash data ∧
    (newTreeHasher A h1).path A data = A.hash data :=
  ⟨rfl, rfl, rfl, rfl⟩

/-! ## C7: deleting an absent key -/

/-- C7: for a key absent under `root` — the traversal terminus is a
placeholder, or the terminus leaf stores a different path than the key's —
`DeleteForRoot` (and `Delete`, when `root` is the current root) returns
`root` unchanged with an unchanged tree and no error: the internal
`errKeyAlreadyEmpty` is absorbed by `UpdateForRoot`. -/
theorem c7_delete_absent_noop (A : HashAlgo) (smt : SparseMerkleTree) (key root : Bytes)
    (sn : List (Option Bytes)) (pn : List Bytes) (leafData sib : Option Bytes)
    (htrav : sideNodesForRoot smt (smt.th.path A key) root false = .ok (sn, pn, leafData, sib))
    (habsent : pn.getD 0 [] = smt.th.placeholder ∨
      (smt.th.parseLeaf (leafData.getD [])).1 ≠ smt.th.path A key) :
    DeleteForRoot A smt key root = .ok (root, smt) ∧
    (root = smt.root → Delete A smt key = .ok (root, smt)) := by
  have hdel : deleteWithSideNodes A smt (smt.th.path A key) sn pn leafData =
      .error .keyAlreadyEmpty := by
    by_cases h1 : pn.getD 0 [] = smt.th.placeholder
    · simp only [deleteWithSideNodes]
      rw [if_pos h1]
    · have h2 := habsent.resolve_left h1
      simp only [deleteWithSideNodes]
      rw [if_neg h1, if_pos (Ne.symm h2)]
  have hupd : UpdateForRoot A smt key defaultValue root = .ok (root, smt) := by
    simp only [UpdateForRoot]
    rw [htrav]
    simp [hdel, SMTErr.isKeyAlreadyEmpty]
  refine ⟨hupd, fun hr => ?_⟩
  unfold Delete Update
  rw [← hr, hupd]
  subst hr
  rfl

/-- Witness for C7 at a concrete input: deleting key `[9]` from the empty
test tree (whose traversal terminus is the placeholder). -/
theorem c7_witness :
    sideNodesForRoot emptyTestTree (emptyTestTree.th.path testAlgo [9]) [0] false =
      .ok ([], [[0]], none, none) ∧
    DeleteForRoot testAlgo emptyTestTree [9] [0] = .ok ([0], emptyTestTree) ∧
    ([0] = emptyTestTree.root → Delete testAlgo emptyTestTree [9] = .ok ([0], emptyTestTree)) :=
  ⟨by decide, c7_delete_absent_noop testAlgo emptyTestTree [9] [0] [] [[0]] none none
    (by decide) (by decide)⟩

/-! ## C9: proof assembly -/

/-- C9: `ProveForRoot` (and `Prove` at the current root) returns a proof
whose `SideNodes` are the traversal's side nodes with `nil` entries
stripped, and whose `NonMembershipLeafData` is the traversal's leaf data
exactly when the terminus is a non-placeholder leaf whose stored path
differs from the queried key's path, and `none` otherwise; `SiblingData`
is the traversal's sibling data (`none` for non-updatable proofs). -/
theorem c9_prove_structure (A : HashAlgo) (smt : SparseMerkleTree) (key root : Bytes)
    (sn : List (Option Bytes)) (pn : List Bytes) (leafData sib : Option Bytes)
    (htrav : sideNodesForRoot smt (smt.th.path A key) root false = .ok (sn, pn, leafData, sib)) :
    ProveForRoot A smt key root = .ok
      { SideNodes := sn.filterMap id
        NonMembershipLeafData :=
          if pn.getD 0 [] ≠ smt.th.placeholder ∧
              (smt.th.parseLeaf (leafData.getD [])).1 ≠ smt.th.path A key
          then leafData else none
        SiblingData := sib } ∧
    (root = smt.root → Prove A smt key = ProveForRoot A smt key root) := by
  constructor
  · simp only [ProveForRoot, doProveForRoot]
    rw [htrav]
    by_cases h1 : pn.getD 0 [] = smt.th.placeholder
    · rw [List.getD_eq_getElem?_getD] at h1
      simp [h1]
    · rw [List.getD_eq_getElem?_getD] at h1
      by_cases h2 : (smt.th.parseLeaf (leafData.getD [])).1 = smt.th.path A key
      · simp [h1, h2]
      · simp [h1, h2]
  · intro hr
    rw [Prove, hr]

/-- Witness for C9 at a concrete input: a non-membership query for key
`[9]` against the one-leaf test tree holding foo ↦ bar; the terminus leaf
is foo's, whose stored path differs, so it is returned as
non-membership leaf data, and there are no side nodes. -/
theorem c9_witness :
    sideNodesForRoot tree1 (tree1.th.path testAlgo [9]) tree1.root false =
      .ok ([], [tree1.root], some [0, 237, 58], none) ∧
    ProveForRoot testAlgo tree1 [9] tree1.root = .ok
      { SideNodes := [], NonMembershipLeafData := some [0, 237, 58], SiblingData := none } :=
  ⟨by decide, by
    have h := c9_prove_structure testAlgo tree1 [9] tree1.root [] [tree1.root]
      (some [0, 237, 58]) none (by decide)
    exact h.1.trans (by decide)⟩

/-! ## C8: Get default-value characterization -/

/-- C8: provided every value-store entry is non-default (as every entry
written by `Update` is), `GetFromRoot` returns the default value in exactly
three cases — the descent fails with the store's `InvalidKey` error, the
traversal yields no leaf data, or the terminus leaf's stored path differs
from the queried path — and returns an error verbatim in exactly the
remaining failure cases: a non-`InvalidKey` traversal error, or an error
from the value-store read of a matching leaf's value entry. -/
theorem c8_get_characterization (A : HashAlgo) (smt : SparseMerkleTree)
    (key root : Bytes)
    (hvals : ∀ p ∈ smt.values, p.2.data ≠ defaultValue) :
    (GetFromRoot A smt key root = .ok defaultValue ↔
      (∃ e, sideNodesForRoot smt (smt.th.path A key) root false = .error e ∧
        e.isInvalidKey) ∨
      (∃ sn pn sib,
        sideNodesForRoot smt (smt.th.path A key) root false = .ok (sn, pn, none, sib)) ∨
      (∃ sn pn ld sib,
        sideNodesForRoot smt (smt.th.path A key) root false = .ok (sn, pn, some ld, sib) ∧
        (smt.th.parseLeaf ld).1 ≠ smt.th.path A key)) ∧
    (∀ e, GetFromRoot A smt key root = .error e ↔
      (sideNodesForRoot smt (smt.th.path A key) root false = .error e ∧
        ¬e.isInvalidKey) ∨
      (∃ sn pn ld sib,
        sideNodesForRoot smt (smt.th.path A key) root false = .ok (sn, pn, some ld, sib) ∧
        (smt.th.parseLeaf ld).1 = smt.th.path A key ∧
        smt.values.get (smt.th.digest A (smt.th.parseLeaf ld).2.2) = .error e)) := by
  by_cases hroot : root = smt.th.placeholder
  · have htrav : sideNodesForRoot smt (smt.th.path A key) root false =
        .ok ([], [root], none, none) := by
      rw [hroot]
      simp [sideNodesForRoot]
    rw [htrav]
    constructor
    · simp only [GetFromRoot, if_pos hroot]
      exact iff_of_true trivial (Or.inr (Or.inl ⟨[], [root], none, rfl⟩))
    · intro e
      simp only [GetFromRoot, if_pos hroot]
      constructor
      · intro h
        cases h
      · rintro (⟨h, -⟩ | ⟨sn, pn, ld, sib, h, -, -⟩) <;> cases h
  · simp only [GetFromRoot, if_neg hroot]
    cases htrav : sideNodesForRoot smt (smt.th.path A key) root false with
    | error e' =>
      by_cases hik : e'.isInvalidKey
      · constructor
        · simp only [hik, if_true]
          exact iff_of_true trivial (Or.inl ⟨e', rfl, hik⟩)
        · intro e
          simp only [hik, if_true]
          constructor
          · intro h
            cases h
          · rintro (⟨h, hnik⟩ | ⟨sn, pn, ld, sib, h, -, -⟩)
            · rw [Except.error.injEq] at h
              subst h
              exact absurd hik hnik
            · cases h
      · rw [Bool.not_eq_true] at hik
        constructor
        · simp only [hik, Bool.false_eq_true, if_false]
          constructor
          · intro h
            cases h
          · rintro (⟨e, h, hike⟩ | ⟨sn, pn, sib, h⟩ | ⟨sn, pn, ld, sib, h, -⟩)
            · rw [Except.error.injEq] at h
              subst h
              rw [hik] at hike
              cases hike
            · cases h
            · cases h
        · intro e
          simp only [hik, Bool.false_eq_true, if_false]
          constructor
          · intro h
            rw [Except.error.injEq] at h
            subst h
            exact Or.inl ⟨rfl, by rw [hik]; exact Bool.false_ne_true⟩
          · rintro (⟨h, -⟩ | ⟨sn, pn, ld, sib, h, -, -⟩)
            · rw [Except.error.injEq] at h
              subst h
              rfl
            · cases h
    | ok res =>
      obtain ⟨sn, pn, ld, sib⟩ := res
      cases ld with
      | none =>
        constructor
        · exact iff_of_true rfl (Or.inr (Or.inl ⟨sn, pn, sib, rfl⟩))
        · intro e
          constructor
          · intro h
            cases h
          · rintro (⟨h, -⟩ | ⟨sn', pn', ld', sib', h, -, -⟩)
            · cases h
            · simp at h
      | some l =>
        dsimp only
        by_cases h2 : (smt.th.parseLeaf l).1 = smt.th.path A key
        · have hne : ¬((smt.th.parseLeaf l).1 ≠ smt.th.path A key) := not_not_intro h2
          rw [if_neg hne]
          constructor
          · constructor
            · intro h
              exfalso
              unfold SimpleMap.get at h
              cases hfind : smt.values.find? (smt.th.digest A (smt.th.parseLeaf l).2.2) with
              | none =>
                rw [hfind] at h
                cases h
              | some sv =>
                rw [hfind] at h
                rw [Except.ok.injEq] at h
                exact hvals _ (SimpleMap.find?_mem _ _ _ hfind) h
            · rintro (⟨e, h, -⟩ | ⟨sn', pn', sib', h⟩ | ⟨sn', pn', ld', sib', h, hne'⟩)
              · cases h
              · simp at h
              · rw [Except.ok.injEq] at h
                simp only [Prod.mk.injEq] at h
                obtain ⟨-, -, hld, -⟩ := h
                rw [Option.some.injEq] at hld
                subst hld
                exact absurd h2 hne'
          · intro e
            constructor
            · intro h
              exact Or.inr ⟨sn, pn, l, sib, rfl, h2, h⟩
            · rintro (⟨h, -⟩ | ⟨sn', pn', ld', sib', h, hpeq, herr⟩)
              · cases h
              · rw [Except.ok.injEq] at h
                simp only [Prod.mk.injEq] at h
                obtain ⟨-, -, hld, -⟩ := h
                rw [Option.some.injEq] at hld
                subst hld
                exact herr
        · rw [if_pos h2]
          constructor
          · exact iff_of_true rfl (Or.inr (Or.inr ⟨sn, pn, l, sib, rfl, h2⟩))
          · intro e
            constructor
            · intro h
              cases h
            · rintro (⟨h, -⟩ | ⟨sn', pn', ld', sib', h, hpeq, -⟩)
              · cases h
              · rw [Except.ok.injEq] at h
                simp only [Prod.mk.injEq] at h
                obtain ⟨-, -, hld, -⟩ := h
                rw [Option.some.injEq] at hld
                subst hld
                exact absurd hpeq h2

/-- Witness for C8 at a concrete input: querying absent key `[9]` against
the one-leaf test tree returns the default value, derived from the
characterization via its different-leaf-terminus case. -/
theorem c8_witness :
    GetFromRoot testAlgo tree1 [9] tree1.root = .ok defaultValue :=
  (c8_get_characterization testAlgo tree1 [9] tree1.root (by decide)).1.mpr
    (Or.inr (Or.inr ⟨[], [tree1.root], [0, 237, 58], none, by decide, by decide⟩))

/-! ## C3: idempotent writes -/

/-- C3 counterexample: the claim says an update writing a key's current
valueHash "performs no net change to the Node Store or the Value Store
(including their reference counts)" and that `UpdateForRoot(k, v, r)`
"returns the given root unchanged". At the concrete one-leaf test tree
holding foo ↦ bar, re-updating foo ↦ bar returns the same root but
changes the value store (the refcount of bar's entry is incremented), and
`UpdateForRoot` at the historical root `tree1.root` of the two-version
tree `tree1b` returns `tree1b`'s current root, which differs from the
given root. -/
theorem c3_counterexample :
    (Update testAlgo tree1 [102, 111, 111] [98, 97, 114]).map Prod.fst = .ok tree1.root ∧
    (Update testAlgo tree1 [102, 111, 111] [98, 97, 114]).map (fun p => p.2.values) ≠
      .ok tree1.values ∧
    (UpdateForRoot testAlgo tree1b [102, 111, 111] [98, 97, 114] tree1.root).map Prod.fst =
      .ok tree1b.root ∧
    tree1b.root ≠ tree1.root := by
  decide

/-- C3 amended: writing a key's current valueHash under a root whose
terminus leaf stores the full query path and that valueHash returns the
tree's *current* root field (`smt.root`, which is the given root only when
the update runs against the current root), and its only store effect is to
re-`Put` the key's leaf encoding in the node store and the raw value in
the value store: both entries keep their data and get their reference
count incremented, and every other entry of both stores is untouched. -/
theorem c3_amended (A : HashAlgo) (smt : SparseMerkleTree) (key value root : Bytes)
    (sn : List (Option Bytes)) (pn : List Bytes) (ld : Bytes) (sib : Option Bytes)
    (c c' : Nat)
    (htrav : sideNodesForRoot smt (smt.th.path A key) root false = .ok (sn, pn, some ld, sib))
    (hvalue : value ≠ defaultValue)
    (hpn0 : ¬pn.getD 0 [] = smt.th.placeholder)
    (hcpc : countCommonPref (smt.th.path A key) (smt.th.parseLeaf ld).1 = smt.depth)
    (hvh : (smt.th.parseLeaf ld).2.1 = smt.th.digest A value)
    (hnode : smt.nodes.find?
      (smt.th.digestLeaf A (smt.th.path A key) (smt.th.digest A value)).1 = some ⟨(smt.th.digestLeaf A (smt.th.path A key) (smt.th.digest A value)).2, c⟩)
    (hvalstore : smt.values.find?
      (smt.th.digest A (smt.th.path A key ++ smt.th.digest A value)) = some ⟨value, c'⟩) :
    UpdateForRoot A smt key value root = .ok (smt.root,
      { smt with
        nodes := smt.nodes.put (smt.th.digestLeaf A (smt.th.path A key) (smt.th.digest A value)).1
          (smt.th.digestLeaf A (smt.th.path A key) (smt.th.digest A value)).2
        values := smt.values.put (smt.th.digest A (smt.th.path A key ++ smt.th.digest A value))
          value }) ∧
    (smt.nodes.put (smt.th.digestLeaf A (smt.th.path A key) (smt.th.digest A value)).1
        (smt.th.digestLeaf A (smt.th.path A key) (smt.th.digest A value)).2).find?
      (smt.th.digestLeaf A (smt.th.path A key) (smt.th.digest A value)).1 =
      some ⟨(smt.th.digestLeaf A (smt.th.path A key) (smt.th.digest A value)).2, (c + 1) % 2 ^ 32⟩ ∧
    (∀ w, w ≠ (smt.th.digestLeaf A (smt.th.path A key) (smt.th.digest A value)).1 →
      (smt.nodes.put (smt.th.digestLeaf A (smt.th.path A key) (smt.th.digest A value)).1
        (smt.th.digestLeaf A (smt.th.path A key) (smt.th.digest A value)).2).find? w =
        smt.nodes.find? w) ∧
    (smt.values.put (smt.th.digest A (smt.th.path A key ++ smt.th.digest A value)) value).find?
      (smt.th.digest A (smt.th.path A key ++ smt.th.digest A value)) =
      some ⟨value, (c' + 1) % 2 ^ 32⟩ ∧
    (∀ w, w ≠ smt.th.digest A (smt.th.path A key ++ smt.th.digest A value) →
      (smt.values.put (smt.th.digest A (smt.th.path A key ++ smt.th.digest A value)) value).find? w =
        smt.values.find? w) := by
  refine ⟨?_, ?_, ?_, ?_, ?_⟩
  · simp only [UpdateForRoot]
    rw [htrav]
    rw [show (match (Except.ok (sn, pn, some ld, sib) :
        Except SMTErr TraversalResult) with
      | Except.error e => Except.error e.trailSideNodesFail
      | Except.ok (sideNodes, pathNodes, oldLeafData, _) =>
        if value = defaultValue then
          match deleteWithSideNodes A smt (smt.th.path A key) sideNodes pathNodes oldLeafData with
          | Except.error e =>
            if e.isKeyAlreadyEmpty = true then Except.ok (root, smt) else Except.error e
          | Except.ok r => Except.ok r
        else
          Except.ok (updateWithSideNodes A smt (smt.th.path A key) key value sideNodes pathNodes
            oldLeafData)) =
      (if value = defaultValue then
          match deleteWithSideNodes A smt (smt.th.path A key) sn pn (some ld) with
          | Except.error e =>
            if e.isKeyAlreadyEmpty = true then Except.ok (root, smt) else Except.error e
          | Except.ok r => Except.ok r
        else
          Except.ok (updateWithSideNodes A smt (smt.th.path A key) key value sn pn (some ld)))
      from rfl]
    rw [if_neg hvalue]
    simp only [updateWithSideNodes]
    simp only [if_neg hpn0]
    simp only [Option.getD_some]
    split
    · next h => exact absurd hcpc h
    · rw [if_pos (congrArg some hvh)]
  · rw [SimpleMap.find?_put_self, hnode]
    simp
  · exact fun w hw => SimpleMap.find?_put_other _ _ _ _ hw
  · rw [SimpleMap.find?_put_self, hvalstore]
    simp
  · exact fun w hw => SimpleMap.find?_put_other _ _ _ _ hw

/-- Witness for the amended C3 at a concrete input: re-updating foo ↦ bar
on the one-leaf test tree returns the same root and bumps the two
reference counts from 1 to 2. -/
theorem c3_amended_witness :
    UpdateForRoot testAlgo tree1 [102, 111, 111] [98, 97, 114] tree1.root =
      .ok (tree1.root, { tree1 with
        nodes := tree1.nodes.put [20] [0, 237, 58]
        values := tree1.values.put [144] [98, 97, 114] }) ∧
    (tree1.nodes.put [20] [0, 237, 58]).find? [20] = some ⟨[0, 237, 58], 2⟩ ∧
    (tree1.values.put [144] [98, 97, 114]).find? [144] = some ⟨[98, 97, 114], 2⟩ := by
  have h := c3_amended testAlgo tree1 [102, 111, 111] [98, 97, 114] tree1.root
    [] [[20]] [0, 237, 58] none 1 1 (by decide) (by decide) (by decide) (by decide)
    (by decide) (by decide) (by decide)
  exact ⟨h.1.trans (by decide), h.2.1.trans (by decide), h.2.2.2.1.trans (by decide)⟩

/-! ## C5: value slots under retraction -/

/-- The `RemovePathForRoot` loop touches at most one value-store slot: the
terminus leaf's `digest(path ‖ valueHash)`. Every other value-store key is
unchanged. -/
theorem removePathForRootLoop_values_frame (th : treeHasher) (A : HashAlgo) (path : Bytes)
    (leafData : Option Bytes) (w : Bytes)
    (hw : w ≠ th.digest A (th.parseLeaf (leafData.getD [])).2.2) :
    ∀ (l : List Bytes) (i : Nat) (values nodes values' nodes' : SimpleMap),
      removePathForRootLoop th A path leafData l i values nodes = .ok (values', nodes') →
      values'.find? w = values.find? w := by
  intro l
  induction l with
  | nil =>
    intro i values nodes values' nodes' h
    simp only [removePathForRootLoop] at h
    rw [Except.ok.injEq, Prod.mk.injEq] at h
    rw [← h.1]
  | cons node rest ih =>
    intro i values nodes values' nodes' h
    simp only [removePathForRootLoop] at h
    split at h
    · split at h
      · exact ih _ _ _ _ _ h
      · split at h
        case h_1 e hdel => cases h
        case h_2 values2 hdel =>
          split at h
          case h_1 e hstep => cases h
          case h_2 nodes2 hstep =>
            rw [ih _ _ _ _ _ h]
            exact SimpleMap.find?_delete_other _ _ _ _ hdel hw
    · split at h
      case h_1 e hstep => cases h
      case h_2 nodes2 hstep => exact ih _ _ _ _ _ h

/-- C5 counterexample: keys `[1]` and `[2]` both hold `[55]` under the test
tree's current root; the claim says that after `RemovePathForRoot([1], r)`
the query `Get([2])` still returns `[55]`, but it returns the default value
because the shared spine above the two leaves is deleted along `[1]`'s
path. -/
theorem c5_counterexample :
    Get testAlgo treeP2 [1] = .ok [55] ∧
    Get testAlgo treeP2 [2] = .ok [55] ∧
    ([1] : Bytes) ≠ [2] ∧
    (RemovePathForRoot testAlgo treeP2 [1] treeP2.root).map
      (fun s => Get testAlgo s [2]) = .ok (.ok defaultValue) ∧
    (RemovePathForRoot testAlgo treeP2 [1] treeP2.root).map
      (fun s => Get testAlgo s [2]) ≠ .ok (.ok [55]) := by
  decide

/-- C5 amended: what survives is the *value slot*: `RemovePathForRoot`
deletes at most the value-store entry at the retracted key's own
`digest(path ‖ valueHash)` address, so the slot of any other key — in
particular a different key holding an identical value, whose address
differs because value keys are path-scoped — is untouched (though a `Get`
along the retracted root may no longer reach it once shared spine nodes
are gone). -/
theorem c5_amended (A : HashAlgo) (smt : SparseMerkleTree) (key root : Bytes)
    (s' : SparseMerkleTree) (sn : List (Option Bytes)) (pn : List Bytes)
    (leafData sib : Option Bytes)
    (htrav : sideNodesForRoot smt (smt.th.path A key) root false = .ok (sn, pn, leafData, sib))
    (h : RemovePathForRoot A smt key root = .ok s') (w : Bytes)
    (hw : w ≠ smt.th.digest A (smt.th.parseLeaf (leafData.getD [])).2.2) :
    s'.values.find? w = smt.values.find? w := by
  simp only [RemovePathForRoot] at h
  rw [htrav] at h
  dsimp only at h
  split at h
  case h_1 e hloop => cases h
  case h_2 values2 nodes2 hloop =>
    rw [Except.ok.injEq] at h
    rw [← h]
    exact removePathForRootLoop_values_frame smt.th A _ leafData w hw pn 0
      smt.values smt.nodes values2 nodes2 hloop

/-- Witness for the amended C5 at a concrete input: after retracting key
`[1]`'s path, key `[2]`'s value slot `[56]` still holds `[55]`. -/
theorem c5_amended_witness :
    RemovePathForRoot testAlgo treeP2 [1] treeP2.root = .ok
      { th := { hashL := 1, zeroValue := [0] }
        nodes := [([188], ⟨[0, 75, 128], 1⟩)]
        values := [([56], ⟨[55], 1⟩)]
        root := [63] } ∧
    SimpleMap.find? [([56], ⟨[55], 1⟩)] [56] = treeP2.values.find? [56] := by
  refine ⟨by decide, ?_⟩
  have h := c5_amended testAlgo treeP2 [1] treeP2.root
    { th := { hashL := 1, zeroValue := [0] }
      nodes := [([188], ⟨[0, 75, 128], 1⟩)]
      values := [([56], ⟨[55], 1⟩)]
      root := [63] }
    [some [188], some [0], some [0], some [0], some [0], some [0], some [0], some [0]]
    [[157], [167], [143], [57], [33], [231], [225], [201], [63]]
    (some [0, 74, 128]) none (by decide) (by decide) [56] (by decide)
  exact h

/-! ## Framework lemmas: encodings and store bridges -/

theorem parseLeaf_leafEncB (th : treeHasher) (p vh : Bytes) (hp : p.length = th.pathSize) :
    th.parseLeaf (leafEncB p vh) = (p, vh, p ++ vh) := by
  have h1 : leafEncB p vh = 0 :: (p ++ vh) := by simp [leafEncB, leafPref]
  unfold treeHasher.parseLeaf
  rw [h1, ← hp, Nat.add_comm 1 p.length]
  simp only [List.drop_succ_cons, List.drop_zero, List.drop_one, List.tail_cons]
  rw [List.take_left, List.drop_left]

theorem parseNode_nodeEncB (th : treeHasher) (l r : Bytes) (hl : l.length = th.pathSize) :
    th.parseNode (nodeEncB l r) = (l, r) := by
  have h1 : nodeEncB l r = 1 :: (l ++ r) := by simp [nodeEncB, nodePref]
  unfold treeHasher.parseNode
  rw [h1, ← hl, Nat.add_comm 1 l.length]
  simp only [List.drop_succ_cons, List.drop_zero, List.drop_one, List.tail_cons]
  rw [List.take_left, List.drop_left]

theorem isLeaf_leafEncB (th : treeHasher) (p vh : Bytes) :
    th.isLeaf (leafEncB p vh) = true := by
  simp [treeHasher.isLeaf, leafEncB, leafPref]

theorem isLeaf_nodeEncB (th : treeHasher) (l r : Bytes) :
    th.isLeaf (nodeEncB l r) = false := by
  simp [treeHasher.isLeaf, nodeEncB, nodePref, leafPref]

theorem get_of_dataAt (sm : SimpleMap) (k v : Bytes) (h : sm.dataAt k = some v) :
    sm.get k = .ok v := by
  unfold SimpleMap.dataAt at h
  unfold SimpleMap.get
  cases hf : sm.find? k with
  | none => rw [hf] at h; cases h
  | some sv =>
    rw [hf] at h
    simp only [Option.map_some'] at h
    rw [Option.some.injEq] at h
    rw [← h]

theorem dataAt_put (sm : SimpleMap) (k v w : Bytes) :
    (sm.put k v).dataAt w = if w = k then some v else sm.dataAt w := by
  by_cases hw : w = k
  · subst hw
    rw [if_pos rfl]
    unfold SimpleMap.dataAt
    rw [SimpleMap.find?_put_self]
    rfl
  · rw [if_neg hw]
    unfold SimpleMap.dataAt
    rw [SimpleMap.find?_put_other _ _ _ _ hw]

theorem digestOf_length (A : HashAlgo) (nodes : SimpleMap) :
    ∀ t : CTree, t.storedIn A nodes → (t.digestOf A).length = A.size := by
  intro t hst
  cases t with
  | empty => simp [CTree.digestOf]
  | leaf p vh => exact hst.2.1
  | node lt rt => exact hst.2.1

theorem digestOf_ne_placeholder (A : HashAlgo) (nodes : SimpleMap) (t : CTree)
    (hst : t.storedIn A nodes) (hne : t ≠ .empty) :
    t.digestOf A ≠ List.replicate A.size 0 := by
  cases t with
  | empty => exact absurd rfl hne
  | leaf p vh => exact hst.2.2
  | node lt rt => exact hst.2.2.1

/-! ## Framework: traversal correctness -/

theorem sideNodesGo_spec (A : HashAlgo) (smt : SparseMerkleTree) (q : Bytes)
    (hth : smt.th = ⟨A.size, List.replicate A.size 0⟩) :
    ∀ (t : CTree) (lt rt : CTree) (d : Nat), t = .node lt rt → t.cwf A d →
    t.storedIn A smt.nodes →
    ∀ (accS : List (Option Bytes)) (accP : List Bytes) (ls : Option Bytes),
    ∃ ls' : Option Bytes,
      sideNodesGo smt q (8 * A.size - d) d (nodeEncB (lt.digestOf A) (rt.digestOf A))
          accS accP ls =
        .ok (accS ++ (t.travSides A q d).map some, accP ++ t.travPath A q d,
             t.travLeaf A q d, ls') := by
  intro t
  induction t with
  | empty => intro lt rt d h; cases h
  | leaf p vh => intro lt rt d h; cases h
  | node lt0 rt0 ihl ihr =>
    intro lt rt d heq hcwf hst accS accP ls
    injection heq with h1 h2
    subst h1
    subst h2
    obtain ⟨hdlt, hcl, hcr, hbl, hbr, hcount⟩ := hcwf
    obtain ⟨hdat, hlen, hne, hsl, hsr⟩ := hst
    have hfuel : 8 * A.size - d = (8 * A.size - (d + 1)) + 1 := by omega
    rw [hfuel]
    have hparse : smt.th.parseNode (nodeEncB (lt0.digestOf A) (rt0.digestOf A)) =
        (lt0.digestOf A, rt0.digestOf A) := by
      refine parseNode_nodeEncB _ _ _ ?_
      rw [hth]
      exact digestOf_length A smt.nodes lt0 hsl
    have hph : smt.th.placeholder = List.replicate A.size 0 := by rw [hth]; rfl
    simp only [sideNodesGo, hparse]
    by_cases hbit : getBitAtFromMSB q d = 1
    · -- descend right, side is left
      simp only [hbit, if_true, CTree.travSides, CTree.travPath, CTree.travLeaf,
        CTree.terminus]
      cases hrt : rt0 with
      | empty =>
        subst hrt
        rw [if_pos (by rw [hph]; rfl)]
        refine ⟨some (lt0.digestOf A), ?_⟩
        simp [CTree.travSides, CTree.travPath, CTree.travLeaf, CTree.terminus,
          CTree.digestOf]
      | leaf p vh =>
        subst hrt
        rw [if_neg (by rw [hph]; exact digestOf_ne_placeholder A smt.nodes _ hsr (by simp))]
        rw [show CTree.digestOf A (CTree.leaf p vh) = A.hash (leafEncB p vh) from rfl]
        rw [get_of_dataAt _ _ _ hsr.1]
        dsimp only
        simp only [isLeaf_leafEncB, if_true]
        refine ⟨some (lt0.digestOf A), ?_⟩
        simp [CTree.travSides, CTree.travPath, CTree.travLeaf, CTree.terminus,
          CTree.digestOf]
      | node l2 r2 =>
        subst hrt
        rw [if_neg (by rw [hph]; exact digestOf_ne_placeholder A smt.nodes _ hsr (by simp))]
        rw [show CTree.digestOf A (CTree.node l2 r2) =
          A.hash (nodeEncB (l2.digestOf A) (r2.digestOf A)) from rfl]
        rw [get_of_dataAt _ _ _ hsr.1]
        dsimp only
        simp only [isLeaf_nodeEncB, Bool.false_eq_true, if_false]
        obtain ⟨ls', hrec⟩ := ihr l2 r2 (d + 1) rfl hcr hsr
          (accS ++ [some (lt0.digestOf A)]) (accP ++ [(CTree.node l2 r2).digestOf A])
          (some (lt0.digestOf A))
        refine ⟨ls', ?_⟩
        rw [show (CTree.node l2 r2).digestOf A =
          A.hash (nodeEncB (l2.digestOf A) (r2.digestOf A)) from rfl] at hrec
        rw [hrec]
        simp [CTree.travSides, CTree.travPath, CTree.travLeaf, CTree.terminus]
    · -- descend left, side is right
      simp only [hbit, if_neg hbit, if_false, CTree.travSides, CTree.travPath,
        CTree.travLeaf, CTree.terminus]
      cases hlt : lt0 with
      | empty =>
        subst hlt
        rw [if_pos (by rw [hph]; rfl)]
        refine ⟨some (rt0.digestOf A), ?_⟩
        simp [CTree.travSides, CTree.travPath, CTree.travLeaf, CTree.terminus,
          CTree.digestOf]
      | leaf p vh =>
        subst hlt
        rw [if_neg (by rw [hph]; exact digestOf_ne_placeholder A smt.nodes _ hsl (by simp))]
        rw [show CTree.digestOf A (CTree.leaf p vh) = A.hash (leafEncB p vh) from rfl]
        rw [get_of_dataAt _ _ _ hsl.1]
        dsimp only
        simp only [isLeaf_leafEncB, if_true]
        refine ⟨some (rt0.digestOf A), ?_⟩
        simp [CTree.travSides, CTree.travPath, CTree.travLeaf, CTree.terminus,
          CTree.digestOf]
      | node l2 r2 =>
        subst hlt
        rw [if_neg (by rw [hph]; exact digestOf_ne_placeholder A smt.nodes _ hsl (by simp))]
        rw [show CTree.digestOf A (CTree.node l2 r2) =
          A.hash (nodeEncB (l2.digestOf A) (r2.digestOf A)) from rfl]
        rw [get_of_dataAt _ _ _ hsl.1]
        dsimp only
        simp only [isLeaf_nodeEncB, Bool.false_eq_true, if_false]
        obtain ⟨ls', hrec⟩ := ihl l2 r2 (d + 1) rfl hcl hsl
          (accS ++ [some (rt0.digestOf A)]) (accP ++ [(CTree.node l2 r2).digestOf A])
          (some (rt0.digestOf A))
        refine ⟨ls', ?_⟩
        rw [show (CTree.node l2 r2).digestOf A =
          A.hash (nodeEncB (l2.digestOf A) (r2.digestOf A)) from rfl] at hrec
        rw [hrec]
        simp [CTree.travSides, CTree.travPath, CTree.travLeaf, CTree.terminus]

theorem sideNodesForRoot_spec (A : HashAlgo) (smt : SparseMerkleTree) (q : Bytes)
    (t : CTree) (hth : smt.th = ⟨A.size, List.replicate A.size 0⟩)
    (hcwf : t.cwf A 0) (hst : t.storedIn A smt.nodes) :
    sideNodesForRoot smt q (t.digestOf A) false =
      .ok (((t.travSides A q 0).map some).reverse,
           (t.travPath A q 0).reverse ++ [t.digestOf A],
           t.travLeaf A q 0, none) := by
  have hph : smt.th.placeholder = List.replicate A.size 0 := by rw [hth]; rfl
  cases t with
  | empty =>
    unfold sideNodesForRoot
    rw [if_pos (by rw [hph]; rfl)]
    simp [CTree.travSides, CTree.travPath, CTree.travLeaf, CTree.terminus]
  | leaf p vh =>
    unfold sideNodesForRoot
    rw [if_neg (by rw [hph]; exact digestOf_ne_placeholder A smt.nodes _ hst (by simp))]
    rw [show CTree.digestOf A (CTree.leaf p vh) = A.hash (leafEncB p vh) from rfl]
    rw [get_of_dataAt _ _ _ hst.1]
    dsimp only
    simp only [isLeaf_leafEncB, if_true]
    simp [CTree.travSides, CTree.travPath, CTree.travLeaf, CTree.terminus]
  | node lt rt =>
    unfold sideNodesForRoot
    rw [if_neg (by rw [hph]; exact digestOf_ne_placeholder A smt.nodes _ hst (by simp))]
    rw [show CTree.digestOf A (CTree.node lt rt) =
      A.hash (nodeEncB (lt.digestOf A) (rt.digestOf A)) from rfl]
    rw [get_of_dataAt _ _ _ hst.1]
    dsimp only
    simp only [isLeaf_nodeEncB, Bool.false_eq_true, if_false]
    have hdep : smt.depth = 8 * A.size - 0 := by
      unfold SparseMerkleTree.depth treeHasher.pathSize
      rw [hth]
      dsimp only
      omega
    rw [hdep]
    obtain ⟨ls', hrec⟩ := sideNodesGo_spec A smt q hth (.node lt rt) lt rt 0 rfl hcwf hst
      [] [A.hash (nodeEncB (lt.digestOf A) (rt.digestOf A))] none
    rw [hrec]
    dsimp only
    simp [reverseByteSlices]

/-! ## Framework: content-addressed put sequences -/

theorem dataAt_putAll_mono (A : HashAlgo) :
    ∀ (E : List Bytes) (nodes : SimpleMap),
      (∀ e ∈ E, nodes.dataAt (A.hash e) = none ∨ nodes.dataAt (A.hash e) = some e) →
      (∀ e1 ∈ E, ∀ e2 ∈ E, A.hash e1 = A.hash e2 → e1 = e2) →
      ∀ w v, nodes.dataAt w = some v → (putAll A E nodes).dataAt w = some v := by
  intro E
  induction E with
  | nil => intro nodes _ _ w v h; exact h
  | cons e rest ih =>
    intro nodes hfresh hinj w v h
    unfold putAll
    have hstep : ∀ w' v', nodes.dataAt w' = some v' →
        (nodes.put (A.hash e) e).dataAt w' = some v' := by
      intro w' v' h'
      rw [dataAt_put]
      by_cases hw : w' = A.hash e
      · subst hw
        rcases hfresh e (by simp) with hf | hf
        · rw [h'] at hf; cases hf
        · rw [h'] at hf
          rw [if_pos rfl, hf]
      · rw [if_neg hw]; exact h'
    refine ih (nodes.put (A.hash e) e) ?_ ?_ w v (hstep w v h)
    · intro e' he'
      rw [dataAt_put]
      by_cases hw : A.hash e' = A.hash e
      · have : e' = e := hinj e' (by simp [he']) e (by simp) hw
        subst this
        rw [if_pos hw]
        exact Or.inr rfl
      · rw [if_neg hw]
        exact hfresh e' (by simp [he'])
    · intro e1 h1 e2 h2
      exact hinj e1 (by simp [h1]) e2 (by simp [h2])

theorem dataAt_putAll_mem (A : HashAlgo) :
    ∀ (E : List Bytes) (nodes : SimpleMap),
      (∀ e ∈ E, nodes.dataAt (A.hash e) = none ∨ nodes.dataAt (A.hash e) = some e) →
      (∀ e1 ∈ E, ∀ e2 ∈ E, A.hash e1 = A.hash e2 → e1 = e2) →
      ∀ e ∈ E, (putAll A E nodes).dataAt (A.hash e) = some e := by
  intro E
  induction E with
  | nil => intro nodes _ _ e he; cases he
  | cons e0 rest ih =>
    intro nodes hfresh hinj e he
    unfold putAll
    have hfresh' : ∀ e' ∈ rest, (nodes.put (A.hash e0) e0).dataAt (A.hash e') = none ∨
        (nodes.put (A.hash e0) e0).dataAt (A.hash e') = some e' := by
      intro e' he'
      rw [dataAt_put]
      by_cases hw : A.hash e' = A.hash e0
      · have : e' = e0 := hinj e' (by simp [he']) e0 (by simp) hw
        subst this
        rw [if_pos hw]
        exact Or.inr rfl
      · rw [if_neg hw]
        exact hfresh e' (by simp [he'])
    have hinj' : ∀ e1 ∈ rest, ∀ e2 ∈ rest, A.hash e1 = A.hash e2 → e1 = e2 := by
      intro e1 h1 e2 h2
      exact hinj e1 (by simp [h1]) e2 (by simp [h2])
    rcases List.mem_cons.mp he with he0 | hrest
    · subst he0
      refine dataAt_putAll_mono A rest (nodes.put (A.hash e) e) hfresh' hinj' _ _ ?_
      rw [dataAt_put, if_pos rfl]
    · exact ih (nodes.put (A.hash e0) e0) hfresh' hinj' e hrest

theorem putAll_append (A : HashAlgo) :
    ∀ (E1 E2 : List Bytes) (nodes : SimpleMap),
      putAll A (E1 ++ E2) nodes = putAll A E2 (putAll A E1 nodes) := by
  intro E1
  induction E1 with
  | nil => intro E2 nodes; rfl
  | cons e rest ih => intro E2 nodes; simp only [List.cons_append, putAll]; exact ih E2 _

theorem storedIn_mono (A : HashAlgo) (n n' : SimpleMap)
    (hmono : ∀ w v, n.dataAt w = some v → n'.dataAt w = some v) :
    ∀ t : CTree, t.storedIn A n → t.storedIn A n' := by
  intro t
  induction t with
  | empty => intro h; trivial
  | leaf p vh => intro h; exact ⟨hmono _ _ h.1, h.2.1, h.2.2⟩
  | node lt rt ihl ihr =>
    intro h
    exact ⟨hmono _ _ h.1, h.2.1, h.2.2.1, ihl h.2.2.2.1, ihr h.2.2.2.2⟩

/-! ## Framework: the update loop -/

theorem digestNode_eq_combine (th : treeHasher) (A : HashAlgo) (l r : Bytes) :
    th.digestNode A l r = (A.hash (nodeEncB l r), nodeEncB l r) := rfl

theorem updateLoop_split (th : treeHasher) (A : HashAlgo) (q : Bytes)
    (cpc dep off : Nat) (sn : List (Option Bytes)) :
    ∀ (f1 f2 i : Nat) (h cd : Bytes) (nodes : SimpleMap),
      updateLoop th A q cpc dep off sn (f1 + f2) i h cd nodes =
        (fun r : Bytes × Bytes × SimpleMap =>
          updateLoop th A q cpc dep off sn f2 (i + f1) r.1 r.2.1 r.2.2)
          (updateLoop th A q cpc dep off sn f1 i h cd nodes) := by
  intro f1
  induction f1 with
  | zero =>
    intro f2 i h cd nodes
    simp only [Nat.zero_add, Nat.add_zero, updateLoop]
  | succ f ih =>
    intro f2 i h cd nodes
    rw [show f + 1 + f2 = (f + f2) + 1 from by omega]
    simp only [updateLoop]
    cases updateSideAt th cpc dep off sn i with
    | none =>
      rw [ih f2 (i + 1) h cd nodes]
      rw [show i + 1 + f = i + (f + 1) from by omega]
    | some s =>
      dsimp only
      rw [ih]
      rw [show i + 1 + f = i + (f + 1) from by omega]

theorem updateLoop_skip (th : treeHasher) (A : HashAlgo) (q : Bytes)
    (cpc dep off : Nat) (sn : List (Option Bytes)) :
    ∀ (f i : Nat) (h cd : Bytes) (nodes : SimpleMap),
      (∀ j, i ≤ j → j < i + f → updateSideAt th cpc dep off sn j = none) →
      updateLoop th A q cpc dep off sn f i h cd nodes = (h, cd, nodes) := by
  intro f
  induction f with
  | zero => intro i h cd nodes _; rfl
  | succ f ih =>
    intro i h cd nodes hnone
    simp only [updateLoop]
    rw [hnone i le_rfl (by omega)]
    exact ih (i + 1) h cd nodes (fun j h1 h2 => hnone j (by omega) (by omega))

theorem wrapChain_cons (q : Bytes) :
    ∀ (f dtop : Nat) (t : CTree),
      wrapChain q (f + 1) dtop t = wrapAt q dtop (wrapChain q f (dtop + 1) t) := by
  intro f
  induction f with
  | zero => intro dtop t; rfl
  | succ f ih =>
    intro dtop t
    rw [show wrapChain q (f + 1 + 1) dtop t =
      wrapChain q (f + 1) dtop (wrapAt q (dtop + (f + 1)) t) from rfl]
    rw [ih dtop (wrapAt q (dtop + (f + 1)) t)]
    rw [show wrapChain q (f + 1) (dtop + 1) t =
      wrapChain q f (dtop + 1) (wrapAt q (dtop + 1 + f) t) from rfl]
    rw [show dtop + (f + 1) = dtop + 1 + f from by omega]

theorem splitLeaf_eq_wrapChain (p vh q wh : Bytes) :
    ∀ (fuel d : Nat),
      CTree.splitLeaf p vh q wh d fuel = wrapChain p fuel d (twoLeafAt p vh q wh (d + fuel)) := by
  intro fuel
  induction fuel with
  | zero =>
    intro d
    simp [CTree.splitLeaf, wrapChain, twoLeafAt]
  | succ f ih =>
    intro d
    rw [wrapChain_cons]
    rw [show CTree.splitLeaf p vh q wh d (f + 1) =
      (if getBitAtFromMSB p d = 1 then CTree.node .empty (CTree.splitLeaf p vh q wh (d + 1) f)
       else CTree.node (CTree.splitLeaf p vh q wh (d + 1) f) .empty) from rfl]
    rw [ih (d + 1)]
    rw [show d + 1 + f = d + (f + 1) from by omega]
    rfl

theorem updateLoop_wraps (th : treeHasher) (A : HashAlgo) (q : Bytes)
    (cpc dep off : Nat) (sn : List (Option Bytes))
    (hthp : th.placeholder = List.replicate A.size 0)
    (hcpc : cpc ≠ dep) :
    ∀ (f dtop : Nat) (t0 : CTree) (nodes : SimpleMap),
      dtop + f ≤ cpc → dep - dtop ≤ off → dtop + f ≤ dep →
      updateLoop th A q cpc dep off sn f (dep - (dtop + f))
          (t0.digestOf A) (t0.digestOf A) nodes =
        ((wrapChain q f dtop t0).digestOf A, (wrapChain q f dtop t0).digestOf A,
         putAll A (wrapEncs A q f dtop t0) nodes) := by
  intro f
  induction f with
  | zero => intro dtop t0 nodes _ _ _; rfl
  | succ f ih =>
    intro dtop t0 nodes hcap hoff hdep
    simp only [updateLoop]
    have hside : updateSideAt th cpc dep off sn (dep - (dtop + (f + 1))) =
        some th.placeholder := by
      unfold updateSideAt
      rw [if_pos (Or.inl (by omega))]
      rw [if_pos ⟨hcpc, by omega⟩]
    rw [hside]
    dsimp only
    have hlev : dep - 1 - (dep - (dtop + (f + 1))) = dtop + f := by omega
    rw [hlev]
    have hcomb : (if getBitAtFromMSB q (dtop + f) = 1 then
          th.digestNode A th.placeholder (t0.digestOf A)
        else th.digestNode A (t0.digestOf A) th.placeholder) =
        ((wrapAt q (dtop + f) t0).digestOf A, rootEncOf A (wrapAt q (dtop + f) t0)) := by
      by_cases hbit : getBitAtFromMSB q (dtop + f) = 1
      · rw [if_pos hbit]
        rw [digestNode_eq_combine, hthp]
        unfold wrapAt
        rw [if_pos hbit]
        rfl
      · rw [if_neg hbit]
        rw [digestNode_eq_combine, hthp]
        unfold wrapAt
        rw [if_neg hbit]
        rfl
    rw [hcomb]
    have harg : dep - (dtop + (f + 1)) + 1 = dep - (dtop + f) := by omega
    rw [harg]
    rw [ih dtop (wrapAt q (dtop + f) t0) (nodes.put ((wrapAt q (dtop + f) t0).digestOf A)
      (rootEncOf A (wrapAt q (dtop + f) t0))) (by omega) hoff (by omega)]
    rw [show wrapChain q (f + 1) dtop t0 = wrapChain q f dtop (wrapAt q (dtop + f) t0) from rfl]
    rw [show wrapEncs A q (f + 1) dtop t0 =
      rootEncOf A (wrapAt q (dtop + f) t0) :: wrapEncs A q f dtop (wrapAt q (dtop + f) t0)
      from rfl]
    rw [show (wrapAt q (dtop + f) t0).digestOf A = A.hash (rootEncOf A (wrapAt q (dtop + f) t0))
      from by unfold wrapAt rootEncOf; by_cases hb : getBitAtFromMSB q (dtop + f) = 1 <;>
        simp [hb, CTree.digestOf]]
    rfl

theorem combineAt_eq_digestNode (th : treeHasher) (A : HashAlgo) (q : Bytes) (d : Nat)
    (s h : Bytes) :
    (if getBitAtFromMSB q d = 1 then th.digestNode A s h else th.digestNode A h s) =
      combineAt A q d s h := by
  unfold combineAt
  by_cases hb : getBitAtFromMSB q d = 1 <;> simp [hb, digestNode_eq_combine]

theorem combineDown_snoc (A : HashAlgo) (q : Bytes) :
    ∀ (S : List Bytes) (s : Bytes) (d : Nat) (h : Bytes),
      combineDown A q (S ++ [s]) d h =
        combineDown A q S d ((combineAt A q (d + S.length) s h).1) := by
  intro S
  induction S with
  | nil => intro s d h; simp [combineDown]
  | cons x rest ih =>
    intro s d h
    simp only [List.cons_append, combineDown, List.append_eq]
    rw [ih s (d + 1) h]
    rw [show d + 1 + rest.length = d + (x :: rest).length from by simp; omega]

theorem combineAt_fst (A : HashAlgo) (q : Bytes) (d : Nat) (s h : Bytes) :
    (combineAt A q d s h).1 = A.hash ((combineAt A q d s h).2) := by
  unfold combineAt; split <;> rfl

theorem sidesEncs_snoc (A : HashAlgo) (q : Bytes) :
    ∀ (S : List Bytes) (s : Bytes) (d : Nat) (h : Bytes),
      sidesEncs A q (S ++ [s]) d h =
        (combineAt A q (d + S.length) s h).2 ::
          sidesEncs A q S d ((combineAt A q (d + S.length) s h).1) := by
  intro S
  induction S with
  | nil => intro s d h; simp [sidesEncs, combineDown]
  | cons x rest ih =>
    intro s d h
    simp only [List.cons_append, sidesEncs, List.append_eq]
    rw [ih s (d + 1) h, combineDown_snoc]
    rw [show d + 1 + rest.length = d + (x :: rest).length from by simp; omega]
    simp

theorem updateLoop_sides (th : treeHasher) (A : HashAlgo) (q : Bytes)
    (cpc dep off : Nat) (sn : List (Option Bytes)) (dtop : Nat) :
    ∀ (S : List Bytes) (h : Bytes) (nodes : SimpleMap),
      dtop + S.length ≤ dep →
      (∀ j, j < S.length →
        updateSideAt th cpc dep off sn (dep - dtop - S.length + j) =
          some (S.getD (S.length - 1 - j) [])) →
      updateLoop th A q cpc dep off sn S.length (dep - dtop - S.length) h h nodes =
        (combineDown A q S dtop h, combineDown A q S dtop h,
         putAll A (sidesEncs A q S dtop h) nodes) := by
  intro S
  induction S using List.reverseRecOn with
  | nil =>
    intro h nodes _ _
    rfl
  | append_singleton S' s ih =>
    intro h nodes hle hS
    have hlen : (S' ++ [s]).length = S'.length + 1 := by simp
    rw [hlen]
    simp only [updateLoop]
    have h0 := hS 0 (by simp)
    have h0' : updateSideAt th cpc dep off sn (dep - dtop - (S'.length + 1)) = some s := by
      have e1 : dep - dtop - (S' ++ [s]).length + 0 = dep - dtop - (S'.length + 1) := by
        simp
      have e2 : (S' ++ [s]).getD ((S' ++ [s]).length - 1 - 0) [] = s := by
        simp
      rw [e1, e2] at h0
      exact h0
    rw [h0']
    dsimp only
    have hlev : dep - 1 - (dep - dtop - (S'.length + 1)) = dtop + S'.length := by
      simp at hle
      omega
    rw [hlev, combineAt_eq_digestNode]
    have harg : dep - dtop - (S'.length + 1) + 1 = dep - dtop - S'.length := by
      simp at hle
      omega
    rw [harg]
    rw [ih ((combineAt A q (dtop + S'.length) s h).1)
      (nodes.put (combineAt A q (dtop + S'.length) s h).1 (combineAt A q (dtop + S'.length) s h).2)
      (by simp at hle; omega) ?_]
    · rw [combineDown_snoc, sidesEncs_snoc]
      simp only [putAll]
      rw [combineAt_fst]
    · intro j hj
      have := hS (j + 1) (by simp; omega)
      rw [show dep - dtop - (S' ++ [s]).length + (j + 1) = dep - dtop - S'.length + j from by
        simp at hle ⊢; omega] at this
      rw [show (S' ++ [s]).getD ((S' ++ [s]).length - 1 - (j + 1)) [] =
        S'.getD (S'.length - 1 - j) [] from by
          rw [show (S' ++ [s]).length - 1 - (j + 1) = S'.length - 1 - j from by
            simp; omega]
          rw [List.getD_append _ _ _ _ (by omega)]] at this
      exact this

/-! ## Framework: bit and common-prefix arithmetic -/

theorem getBit_lt_two (data : Bytes) (pos : Nat) : getBitAtFromMSB data pos < 2 :=
  Nat.mod_lt _ (by omega)

theorem countCommonPrefGo_ge (d1 d2 : Bytes) :
    ∀ (fuel i : Nat), i ≤ countCommonPrefGo d1 d2 i fuel := by
  intro fuel
  induction fuel with
  | zero => intro i; exact le_refl i
  | succ f ih =>
    intro i
    simp only [countCommonPrefGo]
    by_cases hb : getBitAtFromMSB d1 i = getBitAtFromMSB d2 i
    · rw [if_pos hb]; exact le_trans (by omega) (ih (i + 1))
    · rw [if_neg hb]

theorem countCommonPrefGo_le (d1 d2 : Bytes) :
    ∀ (fuel i : Nat), countCommonPrefGo d1 d2 i fuel ≤ i + fuel := by
  intro fuel
  induction fuel with
  | zero => intro i; simp [countCommonPrefGo]
  | succ f ih =>
    intro i
    simp only [countCommonPrefGo]
    by_cases hb : getBitAtFromMSB d1 i = getBitAtFromMSB d2 i
    · rw [if_pos hb]; have := ih (i + 1); omega
    · rw [if_neg hb]; omega

theorem countCommonPref_le (d1 d2 : Bytes) : countCommonPref d1 d2 ≤ 8 * d1.length := by
  have := countCommonPrefGo_le d1 d2 (8 * d1.length) 0
  unfold countCommonPref
  omega

theorem countCommonPrefGo_agree (d1 d2 : Bytes) :
    ∀ (fuel i j : Nat), i ≤ j → j < countCommonPrefGo d1 d2 i fuel →
      getBitAtFromMSB d1 j = getBitAtFromMSB d2 j := by
  intro fuel
  induction fuel with
  | zero => intro i j hij hlt; simp only [countCommonPrefGo] at hlt; omega
  | succ f ih =>
    intro i j hij hlt
    simp only [countCommonPrefGo] at hlt
    by_cases hb : getBitAtFromMSB d1 i = getBitAtFromMSB d2 i
    · rw [if_pos hb] at hlt
      rcases Nat.eq_or_lt_of_le hij with he | hl
      · rw [← he]; exact hb
      · exact ih (i + 1) j (by omega) hlt
    · rw [if_neg hb] at hlt; omega

theorem countCommonPref_agree (d1 d2 : Bytes) (j : Nat)
    (h : j < countCommonPref d1 d2) :
    getBitAtFromMSB d1 j = getBitAtFromMSB d2 j :=
  countCommonPrefGo_agree d1 d2 _ 0 j (Nat.zero_le j) h

theorem countCommonPrefGo_ge_of_agree (d1 d2 : Bytes) :
    ∀ (fuel m i : Nat), m ≤ fuel →
      (∀ j, i ≤ j → j < i + m → getBitAtFromMSB d1 j = getBitAtFromMSB d2 j) →
      i + m ≤ countCommonPrefGo d1 d2 i fuel := by
  intro fuel
  induction fuel with
  | zero =>
    intro m i hm _
    simp only [countCommonPrefGo]
    omega
  | succ f ih =>
    intro m i hm hag
    match m with
    | 0 =>
      have := countCommonPrefGo_ge d1 d2 (f + 1) i
      omega
    | m' + 1 =>
      simp only [countCommonPrefGo]
      rw [if_pos (hag i le_rfl (by omega))]
      have := ih m' (i + 1) (by omega) (fun j h1 h2 => hag j (by omega) (by omega))
      omega

theorem countCommonPref_ge_of_agree (d1 d2 : Bytes) (m : Nat) (hm : m ≤ 8 * d1.length)
    (hag : ∀ j, j < m → getBitAtFromMSB d1 j = getBitAtFromMSB d2 j) :
    m ≤ countCommonPref d1 d2 := by
  have := countCommonPrefGo_ge_of_agree d1 d2 (8 * d1.length) m 0 hm
    (fun j h1 h2 => hag j (by omega))
  unfold countCommonPref
  omega

theorem bit_ne_at_countCommonPrefGo (d1 d2 : Bytes) :
    ∀ (fuel i : Nat), countCommonPrefGo d1 d2 i fuel < i + fuel →
      getBitAtFromMSB d1 (countCommonPrefGo d1 d2 i fuel) ≠
        getBitAtFromMSB d2 (countCommonPrefGo d1 d2 i fuel) := by
  intro fuel
  induction fuel with
  | zero => intro i h; simp only [countCommonPrefGo] at h; omega
  | succ f ih =>
    intro i h
    simp only [countCommonPrefGo] at h ⊢
    by_cases hb : getBitAtFromMSB d1 i = getBitAtFromMSB d2 i
    · rw [if_pos hb] at h ⊢
      exact ih (i + 1) (by omega)
    · rw [if_neg hb] at h ⊢
      exact hb

theorem bit_ne_at_countCommonPref (d1 d2 : Bytes)
    (h : countCommonPref d1 d2 < 8 * d1.length) :
    getBitAtFromMSB d1 (countCommonPref d1 d2) ≠
      getBitAtFromMSB d2 (countCommonPref d1 d2) := by
  have h' : countCommonPrefGo d1 d2 0 (8 * d1.length) < 0 + 8 * d1.length := by
    unfold countCommonPref at h
    omega
  exact bit_ne_at_countCommonPrefGo d1 d2 (8 * d1.length) 0 h'

theorem byte_eq_of_bits (x y : Nat) (hx : x < 256) (hy : y < 256)
    (h : ∀ r, r < 8 → (x >>> (7 - r)) % 2 = (y >>> (7 - r)) % 2) : x = y := by
  apply Nat.eq_of_testBit_eq
  intro s
  by_cases hs : s < 8
  · have h8 := h (7 - s) (by omega)
    rw [show 7 - (7 - s) = s from by omega] at h8
    rw [Nat.shiftRight_eq_div_pow, Nat.shiftRight_eq_div_pow] at h8
    rw [Nat.testBit_to_div_mod, Nat.testBit_to_div_mod, h8]
  · have hpow : 256 ≤ 2 ^ s := by
      calc (256 : Nat) = 2 ^ 8 := by norm_num
      _ ≤ 2 ^ s := Nat.pow_le_pow_right (by norm_num) (by omega)
    rw [Nat.testBit_to_div_mod, Nat.testBit_to_div_mod]
    rw [Nat.div_eq_of_lt (by omega), Nat.div_eq_of_lt (by omega)]

theorem list_eq_of_bits (p q : Bytes) (hlen : p.length = q.length)
    (hp : ∀ x ∈ p, x < 256) (hq : ∀ x ∈ q, x < 256)
    (h : ∀ j, j < 8 * p.length → getBitAtFromMSB p j = getBitAtFromMSB q j) : p = q := by
  apply List.ext_getElem hlen
  intro m hm1 hm2
  apply byte_eq_of_bits _ _ (hp _ (List.getElem_mem hm1)) (hq _ (List.getElem_mem hm2))
  intro r hr
  have hb := h (8 * m + r) (by omega)
  unfold getBitAtFromMSB at hb
  rw [show (8 * m + r) / 8 = m from by omega, show (8 * m + r) % 8 = r from by omega] at hb
  rw [List.getD_eq_getElem p 0 hm1, List.getD_eq_getElem q 0 hm2] at hb
  exact hb

theorem countCommonPref_eq_full_iff (p q : Bytes) (hlen : p.length = q.length)
    (hp : ∀ x ∈ p, x < 256) (hq : ∀ x ∈ q, x < 256) :
    countCommonPref p q = 8 * p.length ↔ p = q := by
  constructor
  · intro hc
    apply list_eq_of_bits p q hlen hp hq
    intro j hj
    exact countCommonPref_agree p q j (by omega)
  · intro he
    subst he
    have h1 := countCommonPref_le p p
    have h2 := countCommonPref_ge_of_agree p p (8 * p.length) le_rfl (fun j _ => rfl)
    omega

/-! ## Framework: the traversal terminus -/

theorem terminus_not_node (A : HashAlgo) (q : Bytes) :
    ∀ (t : CTree) (d : Nat) (lt rt : CTree), t.terminus A q d ≠ .node lt rt := by
  intro t
  induction t with
  | empty => intro d lt rt h; simp [CTree.terminus] at h
  | leaf p vh => intro d lt rt h; simp [CTree.terminus] at h
  | node l r ihl ihr =>
    intro d lt rt
    unfold CTree.terminus
    by_cases hb : getBitAtFromMSB q d = 1
    · rw [if_pos hb]; exact ihr (d + 1) lt rt
    · rw [if_neg hb]; exact ihl (d + 1) lt rt

theorem terminus_leaves_sub (A : HashAlgo) (q : Bytes) :
    ∀ (t : CTree) (d : Nat) (pr : Bytes × Bytes),
      pr ∈ (t.terminus A q d).leaves → pr ∈ t.leaves := by
  intro t
  induction t with
  | empty => intro d pr h; exact h
  | leaf p vh => intro d pr h; exact h
  | node l r ihl ihr =>
    intro d pr
    unfold CTree.terminus
    by_cases hb : getBitAtFromMSB q d = 1
    · rw [if_pos hb]
      intro h
      exact List.mem_append.mpr (Or.inr (ihr (d + 1) pr h))
    · rw [if_neg hb]
      intro h
      exact List.mem_append.mpr (Or.inl (ihl (d + 1) pr h))

theorem travSides_length_eq_travPath (A : HashAlgo) (q : Bytes) :
    ∀ (t : CTree) (d : Nat), (t.travPath A q d).length = (t.travSides A q d).length := by
  intro t
  induction t with
  | empty => intro d; rfl
  | leaf p vh => intro d; rfl
  | node l r ihl ihr =>
    intro d
    unfold CTree.travSides CTree.travPath
    by_cases hb : getBitAtFromMSB q d = 1
    · rw [if_pos hb, if_pos hb]
      simp [ihr (d + 1)]
    · rw [if_neg hb, if_neg hb]
      simp [ihl (d + 1)]

theorem travSides_length_le (A : HashAlgo) (q : Bytes) :
    ∀ (t : CTree) (d : Nat), t.cwf A d →
      d + (t.travSides A q d).length ≤ 8 * A.size ∨ t.travSides A q d = [] := by
  intro t
  induction t with
  | empty => intro d _; exact Or.inr rfl
  | leaf p vh => intro d _; exact Or.inr rfl
  | node l r ihl ihr =>
    intro d hcwf
    left
    unfold CTree.travSides
    by_cases hb : getBitAtFromMSB q d = 1
    · rw [if_pos hb]
      rcases ihr (d + 1) hcwf.2.2.1 with h | h
      · simp; omega
      · rw [h]
        have hd := hcwf.1
        simp
        omega
    · rw [if_neg hb]
      rcases ihl (d + 1) hcwf.2.1 with h | h
      · simp; omega
      · rw [h]
        have hd := hcwf.1
        simp
        omega

theorem terminus_cwf (A : HashAlgo) (q : Bytes) :
    ∀ (t : CTree) (d : Nat), t.cwf A d →
      (t.terminus A q d).cwf A (d + (t.travSides A q d).length) := by
  intro t
  induction t with
  | empty => intro d h; exact h
  | leaf p vh => intro d h; exact h
  | node l r ihl ihr =>
    intro d hcwf
    unfold CTree.terminus CTree.travSides
    by_cases hb : getBitAtFromMSB q d = 1
    · rw [if_pos hb, if_pos hb]
      have := ihr (d + 1) hcwf.2.2.1
      simp only [List.length_cons]
      rw [show d + ((r.travSides A q (d + 1)).length + 1) =
        d + 1 + (r.travSides A q (d + 1)).length from by omega]
      exact this
    · rw [if_neg hb, if_neg hb]
      have := ihl (d + 1) hcwf.2.1
      simp only [List.length_cons]
      rw [show d + ((l.travSides A q (d + 1)).length + 1) =
        d + 1 + (l.travSides A q (d + 1)).length from by omega]
      exact this

theorem terminus_storedIn (A : HashAlgo) (nodes : SimpleMap) (q : Bytes) :
    ∀ (t : CTree) (d : Nat), t.storedIn A nodes → (t.terminus A q d).storedIn A nodes := by
  intro t
  induction t with
  | empty => intro d h; exact h
  | leaf p vh => intro d h; exact h
  | node l r ihl ihr =>
    intro d hst
    unfold CTree.terminus
    by_cases hb : getBitAtFromMSB q d = 1
    · rw [if_pos hb]; exact ihr (d + 1) hst.2.2.2.2
    · rw [if_neg hb]; exact ihl (d + 1) hst.2.2.2.1

theorem terminus_bits (A : HashAlgo) (q : Bytes) :
    ∀ (t : CTree) (d : Nat) (p wh : Bytes), t.cwf A d →
      t.terminus A q d = .leaf p wh →
      ∀ j, d ≤ j → j < d + (t.travSides A q d).length →
        getBitAtFromMSB q j = getBitAtFromMSB p j := by
  intro t
  induction t with
  | empty => intro d p wh _ ht; simp [CTree.terminus] at ht
  | leaf p' wh' =>
    intro d p wh _ ht j h1 h2
    simp [CTree.travSides] at h2
    omega
  | node l r ihl ihr =>
    intro d p wh hcwf ht j h1 h2
    unfold CTree.terminus at ht
    unfold CTree.travSides at h2
    by_cases hb : getBitAtFromMSB q d = 1
    · rw [if_pos hb] at ht
      rw [if_pos hb] at h2
      simp only [List.length_cons] at h2
      have hmem : (p, wh) ∈ r.leaves := by
        apply terminus_leaves_sub A q r (d + 1)
        rw [ht]
        simp [CTree.leaves]
      rcases Nat.eq_or_lt_of_le h1 with he | hl
      · rw [← he, hb]
        exact (hcwf.2.2.2.2.1 (p, wh) hmem).symm
      · exact ihr (d + 1) p wh hcwf.2.2.1 ht j (by omega) (by omega)
    · rw [if_neg hb] at ht
      rw [if_neg hb] at h2
      simp only [List.length_cons] at h2
      have hmem : (p, wh) ∈ l.leaves := by
        apply terminus_leaves_sub A q l (d + 1)
        rw [ht]
        simp [CTree.leaves]
      rcases Nat.eq_or_lt_of_le h1 with he | hl
      · have hq0 : getBitAtFromMSB q d = 0 := by
          have := getBit_lt_two q d
          omega
        have hp0 : getBitAtFromMSB p d = 0 := hcwf.2.2.2.1 (p, wh) hmem
        rw [← he, hq0, hp0]
      · exact ihl (d + 1) p wh hcwf.2.1 ht j (by omega) (by omega)

theorem pathNodes_head (A : HashAlgo) (q : Bytes) :
    ∀ (t : CTree) (d : Nat),
      ((t.travPath A q d).reverse ++ [t.digestOf A]).getD 0 [] =
        (t.terminus A q d).digestOf A := by
  intro t
  induction t with
  | empty => intro d; rfl
  | leaf p vh => intro d; rfl
  | node l r ihl ihr =>
    intro d
    unfold CTree.terminus CTree.travPath
    by_cases hb : getBitAtFromMSB q d = 1
    · rw [if_pos hb, if_pos hb]
      simp only [List.reverse_cons, List.append_assoc]
      rw [show ((r.travPath A q (d + 1)).reverse ++
        ([r.digestOf A] ++ [(CTree.node l r).digestOf A])) =
        ((r.travPath A q (d + 1)).reverse ++ [r.digestOf A]) ++
          [(CTree.node l r).digestOf A] from by simp]
      rw [List.getD_append _ _ _ _ (by simp)]
      exact ihr (d + 1)
    · rw [if_neg hb, if_neg hb]
      simp only [List.reverse_cons, List.append_assoc]
      rw [show ((l.travPath A q (d + 1)).reverse ++
        ([l.digestOf A] ++ [(CTree.node l r).digestOf A])) =
        ((l.travPath A q (d + 1)).reverse ++ [l.digestOf A]) ++
          [(CTree.node l r).digestOf A] from by simp]
      rw [List.getD_append _ _ _ _ (by simp)]
      exact ihl (d + 1)

/-! ## Framework: the pure insert against the loop combinators -/

theorem travSides_node (A : HashAlgo) (l r : CTree) (q : Bytes) (d : Nat) :
    (CTree.node l r).travSides A q d =
      if getBitAtFromMSB q d = 1 then l.digestOf A :: r.travSides A q (d + 1)
      else r.digestOf A :: l.travSides A q (d + 1) := rfl

theorem travPath_node (A : HashAlgo) (l r : CTree) (q : Bytes) (d : Nat) :
    (CTree.node l r).travPath A q d =
      if getBitAtFromMSB q d = 1 then r.digestOf A :: r.travPath A q (d + 1)
      else l.digestOf A :: l.travPath A q (d + 1) := rfl

theorem terminus_node (A : HashAlgo) (l r : CTree) (q : Bytes) (d : Nat) :
    (CTree.node l r).terminus A q d =
      if getBitAtFromMSB q d = 1 then r.terminus A q (d + 1) else l.terminus A q (d + 1) := rfl

theorem insertLeaf_node (A : HashAlgo) (d : Nat) (l r : CTree) (p vh : Bytes) :
    CTree.insertLeaf A d (CTree.node l r) p vh =
      if getBitAtFromMSB p d = 1 then CTree.node l (CTree.insertLeaf A (d + 1) r p vh)
      else CTree.node (CTree.insertLeaf A (d + 1) l p vh) r := rfl

theorem insertLeaf_leafArm (A : HashAlgo) (d : Nat) (q wh p vh : Bytes) :
    CTree.insertLeaf A d (CTree.leaf q wh) p vh =
      if countCommonPref p q = 8 * A.size then CTree.leaf p vh
      else CTree.splitLeaf p vh q wh d (countCommonPref p q - d) := rfl

theorem insertLeaf_digest (A : HashAlgo) (q vh : Bytes) :
    ∀ (t : CTree) (d : Nat),
      (CTree.insertLeaf A d t q vh).digestOf A =
        combineDown A q (t.travSides A q d) d
          ((CTree.insertLeaf A (d + (t.travSides A q d).length)
            (t.terminus A q d) q vh).digestOf A) := by
  intro t
  induction t with
  | empty => intro d; simp [CTree.travSides, CTree.terminus, combineDown]
  | leaf p wh => intro d; simp [CTree.travSides, CTree.terminus, combineDown]
  | node l r ihl ihr =>
    intro d
    rw [travSides_node, terminus_node, insertLeaf_node]
    by_cases hb : getBitAtFromMSB q d = 1
    · rw [if_pos hb, if_pos hb, if_pos hb]
      simp only [combineDown, List.length_cons]
      unfold combineAt
      rw [if_pos hb]
      rw [show CTree.digestOf A (CTree.node l (CTree.insertLeaf A (d + 1) r q vh)) =
        A.hash (nodeEncB (l.digestOf A) ((CTree.insertLeaf A (d + 1) r q vh).digestOf A))
        from rfl]
      rw [ihr (d + 1)]
      rw [show d + 1 + (r.travSides A q (d + 1)).length =
        d + ((r.travSides A q (d + 1)).length + 1) from by omega]
    · rw [if_neg hb, if_neg hb, if_neg hb]
      simp only [combineDown, List.length_cons]
      unfold combineAt
      rw [if_neg hb]
      rw [show CTree.digestOf A (CTree.node (CTree.insertLeaf A (d + 1) l q vh) r) =
        A.hash (nodeEncB ((CTree.insertLeaf A (d + 1) l q vh).digestOf A) (r.digestOf A))
        from rfl]
      rw [ihl (d + 1)]
      rw [show d + 1 + (l.travSides A q (d + 1)).length =
        d + ((l.travSides A q (d + 1)).length + 1) from by omega]

theorem insertLeaf_encList_sub (A : HashAlgo) (q vh : Bytes) :
    ∀ (t : CTree) (d : Nat) (e : Bytes),
      e ∈ (CTree.insertLeaf A d t q vh).encList A →
      e ∈ sidesEncs A q (t.travSides A q d) d
            ((CTree.insertLeaf A (d + (t.travSides A q d).length)
              (t.terminus A q d) q vh).digestOf A) ∨
      e ∈ (CTree.insertLeaf A (d + (t.travSides A q d).length)
            (t.terminus A q d) q vh).encList A ∨
      e ∈ t.encList A := by
  intro t
  induction t with
  | empty =>
    intro d e he
    right; left
    simpa [CTree.travSides, CTree.terminus] using he
  | leaf p wh =>
    intro d e he
    right; left
    simpa [CTree.travSides, CTree.terminus] using he
  | node l r ihl ihr =>
    intro d e he
    by_cases hb : getBitAtFromMSB q d = 1
    · rw [insertLeaf_node, if_pos hb] at he
      rw [travSides_node, terminus_node, if_pos hb, if_pos hb]
      simp only [List.length_cons]
      rw [show d + ((r.travSides A q (d + 1)).length + 1) =
        d + 1 + (r.travSides A q (d + 1)).length from by omega]
      simp only [CTree.encList, List.mem_cons, List.mem_append] at he
      rcases he with he | he | he
      · left
        unfold sidesEncs
        apply List.mem_append.mpr
        right
        rw [he]
        unfold combineAt
        rw [if_pos hb]
        rw [← insertLeaf_digest A q vh r (d + 1)]
        simp
      · right; right
        simp [CTree.encList, he]
      · rcases ihr (d + 1) e he with h | h | h
        · left
          unfold sidesEncs
          exact List.mem_append.mpr (Or.inl h)
        · right; left; exact h
        · right; right
          simp [CTree.encList, h]
    · rw [insertLeaf_node, if_neg hb] at he
      rw [travSides_node, terminus_node, if_neg hb, if_neg hb]
      simp only [List.length_cons]
      rw [show d + ((l.travSides A q (d + 1)).length + 1) =
        d + 1 + (l.travSides A q (d + 1)).length from by omega]
      simp only [CTree.encList, List.mem_cons, List.mem_append] at he
      rcases he with he | he | he
      · left
        unfold sidesEncs
        apply List.mem_append.mpr
        right
        rw [he]
        unfold combineAt
        rw [if_neg hb]
        rw [← insertLeaf_digest A q vh l (d + 1)]
        simp
      · rcases ihl (d + 1) e he with h | h | h
        · left
          unfold sidesEncs
          exact List.mem_append.mpr (Or.inl h)
        · right; left; exact h
        · right; right
          simp [CTree.encList, h]
      · right; right
        simp [CTree.encList, he]

theorem splitLeaf_leaves (p vh q wh : Bytes) :
    ∀ (f d : Nat) (pr : Bytes × Bytes),
      pr ∈ (CTree.splitLeaf p vh q wh d f).leaves ↔ pr = (p, vh) ∨ pr = (q, wh) := by
  intro f
  induction f with
  | zero =>
    intro d pr
    unfold CTree.splitLeaf
    by_cases hb : getBitAtFromMSB p d = 1
    · rw [if_pos hb]
      simp [CTree.leaves]
      tauto
    · rw [if_neg hb]
      simp [CTree.leaves]
  | succ f ih =>
    intro d pr
    unfold CTree.splitLeaf
    by_cases hb : getBitAtFromMSB p d = 1
    · rw [if_pos hb]
      simp only [CTree.leaves, List.nil_append]
      exact ih (d + 1) pr
    · rw [if_neg hb]
      simp only [CTree.leaves, List.append_nil]
      exact ih (d + 1) pr

theorem splitLeaf_leafCount (p vh q wh : Bytes) :
    ∀ (f d : Nat), (CTree.splitLeaf p vh q wh d f).leafCount = 2 := by
  intro f
  induction f with
  | zero =>
    intro d
    unfold CTree.splitLeaf
    by_cases hb : getBitAtFromMSB p d = 1
    · rw [if_pos hb]; rfl
    · rw [if_neg hb]; rfl
  | succ f ih =>
    intro d
    unfold CTree.splitLeaf
    by_cases hb : getBitAtFromMSB p d = 1
    · rw [if_pos hb]
      have := ih (d + 1)
      simp only [CTree.leafCount, CTree.leaves, List.nil_append] at this ⊢
      exact this
    · rw [if_neg hb]
      have := ih (d + 1)
      simp only [CTree.leafCount, CTree.leaves, List.append_nil] at this ⊢
      exact this

theorem insertLeaf_leaves_mem (A : HashAlgo) (q vh : Bytes) :
    ∀ (t : CTree) (d : Nat) (pr : Bytes × Bytes),
      pr ∈ (CTree.insertLeaf A d t q vh).leaves → pr ∈ t.leaves ∨ pr = (q, vh) := by
  intro t
  induction t with
  | empty =>
    intro d pr h
    simp [CTree.insertLeaf, CTree.leaves] at h
    right
    simp [h]
  | leaf p wh =>
    intro d pr h
    unfold CTree.insertLeaf at h
    by_cases hc : countCommonPref q p = 8 * A.size
    · rw [if_pos hc] at h
      simp [CTree.leaves] at h
      right
      simp [h]
    · rw [if_neg hc] at h
      rcases (splitLeaf_leaves q vh p wh _ d pr).mp h with h' | h'
      · right; exact h'
      · left; simp [CTree.leaves, h']
  | node l r ihl ihr =>
    intro d pr h
    unfold CTree.insertLeaf at h
    by_cases hb : getBitAtFromMSB q d = 1
    · rw [if_pos hb] at h
      simp only [CTree.leaves, List.mem_append] at h ⊢
      rcases h with h | h
      · left; left; exact h
      · rcases ihr (d + 1) pr h with h' | h'
        · left; right; exact h'
        · right; exact h'
    · rw [if_neg hb] at h
      simp only [CTree.leaves, List.mem_append] at h ⊢
      rcases h with h | h
      · rcases ihl (d + 1) pr h with h' | h'
        · left; left; exact h'
        · right; exact h'
      · left; right; exact h

theorem insertLeaf_leafCount_ge (A : HashAlgo) (q vh : Bytes) :
    ∀ (t : CTree) (d : Nat), t.leafCount ≤ (CTree.insertLeaf A d t q vh).leafCount := by
  intro t
  induction t with
  | empty => intro d; simp [CTree.insertLeaf, CTree.leafCount, CTree.leaves]
  | leaf p wh =>
    intro d
    unfold CTree.insertLeaf
    by_cases hc : countCommonPref q p = 8 * A.size
    · rw [if_pos hc]
      exact Nat.le_of_eq rfl
    · rw [if_neg hc]
      rw [splitLeaf_leafCount]
      simp [CTree.leafCount, CTree.leaves]
  | node l r ihl ihr =>
    intro d
    unfold CTree.insertLeaf
    by_cases hb : getBitAtFromMSB q d = 1
    · rw [if_pos hb]
      unfold CTree.leafCount CTree.leaves
      simp only [List.length_append]
      have := ihr (d + 1)
      unfold CTree.leafCount at this
      omega
    · rw [if_neg hb]
      unfold CTree.leafCount CTree.leaves
      simp only [List.length_append]
      have := ihl (d + 1)
      unfold CTree.leafCount at this
      omega

theorem splitLeaf_cwf (A : HashAlgo) (p vh q wh : Bytes)
    (hp : p.length = A.size) (hpb : ∀ x ∈ p, x < 256)
    (hq : q.length = A.size) (hqb : ∀ x ∈ q, x < 256)
    (hlt : countCommonPref p q < 8 * A.size) :
    ∀ (f d : Nat), d + f = countCommonPref p q →
      (CTree.splitLeaf p vh q wh d f).cwf A d := by
  have hbitne : getBitAtFromMSB p (countCommonPref p q) ≠
      getBitAtFromMSB q (countCommonPref p q) :=
    bit_ne_at_countCommonPref p q (by rw [hp]; exact hlt)
  intro f
  induction f with
  | zero =>
    intro d hd
    rw [Nat.add_zero] at hd
    subst hd
    unfold CTree.splitLeaf
    by_cases hb : getBitAtFromMSB p (countCommonPref p q) = 1
    · rw [if_pos hb]
      have hqbit : getBitAtFromMSB q (countCommonPref p q) = 0 := by
        have := getBit_lt_two q (countCommonPref p q)
        omega
      refine ⟨hlt, ⟨hq, by omega, hqb⟩, ⟨hp, by omega, hpb⟩, ?_, ?_, by
        simp [CTree.leafCount, CTree.leaves]⟩
      · intro pr hpr
        simp [CTree.leaves] at hpr
        rw [hpr]
        exact hqbit
      · intro pr hpr
        simp [CTree.leaves] at hpr
        rw [hpr]
        exact hb
    · rw [if_neg hb]
      have hpbit : getBitAtFromMSB p (countCommonPref p q) = 0 := by
        have := getBit_lt_two p (countCommonPref p q)
        omega
      have hqbit : getBitAtFromMSB q (countCommonPref p q) = 1 := by
        have := getBit_lt_two q (countCommonPref p q)
        omega
      refine ⟨hlt, ⟨hp, by omega, hpb⟩, ⟨hq, by omega, hqb⟩, ?_, ?_, by
        simp [CTree.leafCount, CTree.leaves]⟩
      · intro pr hpr
        simp [CTree.leaves] at hpr
        rw [hpr]
        exact hpbit
      · intro pr hpr
        simp [CTree.leaves] at hpr
        rw [hpr]
        exact hqbit
  | succ f ih =>
    intro d hd
    have hdlt : d < countCommonPref p q := by omega
    have hagree : getBitAtFromMSB p d = getBitAtFromMSB q d :=
      countCommonPref_agree p q d hdlt
    unfold CTree.splitLeaf
    by_cases hb : getBitAtFromMSB p d = 1
    · rw [if_pos hb]
      refine ⟨by omega, trivial, ih (d + 1) (by omega), ?_, ?_, ?_⟩
      · intro pr hpr
        simp [CTree.leaves] at hpr
      · intro pr hpr
        rcases (splitLeaf_leaves p vh q wh f (d + 1) pr).mp hpr with h | h
        · rw [h]; exact hb
        · rw [h]; rw [← hagree]; exact hb
      · have := splitLeaf_leafCount p vh q wh f (d + 1)
        simp only [CTree.leafCount] at this ⊢
        simp only [CTree.leaves, List.length_nil]
        omega
    · rw [if_neg hb]
      have hb0 : getBitAtFromMSB p d = 0 := by
        have := getBit_lt_two p d
        omega
      refine ⟨by omega, ih (d + 1) (by omega), trivial, ?_, ?_, ?_⟩
      · intro pr hpr
        rcases (splitLeaf_leaves p vh q wh f (d + 1) pr).mp hpr with h | h
        · rw [h]; exact hb0
        · rw [h]; rw [← hagree]; exact hb0
      · intro pr hpr
        simp [CTree.leaves] at hpr
      · have := splitLeaf_leafCount p vh q wh f (d + 1)
        simp only [CTree.leafCount] at this ⊢
        simp only [CTree.leaves, List.length_nil]
        omega

theorem insertLeaf_cwf (A : HashAlgo) (q vh : Bytes) (hq : q.length = A.size)
    (hqb : ∀ x ∈ q, x < 256) :
    ∀ (t : CTree) (d : Nat), t.cwf A d → d ≤ 8 * A.size →
      (∀ pr ∈ t.leaves, ∀ j, j < d → getBitAtFromMSB q j = getBitAtFromMSB pr.1 j) →
      (CTree.insertLeaf A d t q vh).cwf A d := by
  intro t
  induction t with
  | empty =>
    intro d _ hd _
    exact ⟨hq, hd, hqb⟩
  | leaf p wh =>
    intro d hcwf hd hagree
    rw [insertLeaf_leafArm]
    by_cases hc : countCommonPref q p = 8 * A.size
    · rw [if_pos hc]
      exact ⟨hq, hd, hqb⟩
    · rw [if_neg hc]
      have hle : countCommonPref q p ≤ 8 * A.size := by
        have := countCommonPref_le q p
        rw [hq] at this
        exact this
      have hdc : d ≤ countCommonPref q p := by
        apply countCommonPref_ge_of_agree q p d (by rw [hq]; omega)
        intro j hj
        exact hagree (p, wh) (by simp [CTree.leaves]) j hj
      exact splitLeaf_cwf A q vh p wh hq hqb hcwf.1 hcwf.2.2 (by omega)
        (countCommonPref q p - d) d (by omega)
  | node l r ihl ihr =>
    intro d hcwf hd hagree
    rw [insertLeaf_node]
    by_cases hb : getBitAtFromMSB q d = 1
    · rw [if_pos hb]
      refine ⟨hcwf.1, hcwf.2.1, ?_, hcwf.2.2.2.1, ?_, ?_⟩
      · apply ihr (d + 1) hcwf.2.2.1 (by have := hcwf.1; omega)
        intro pr hpr j hj
        rcases Nat.lt_succ_iff_lt_or_eq.mp hj with h | h
        · exact hagree pr (by simp [CTree.leaves, hpr]) j h
        · subst h
          rw [hb]
          exact (hcwf.2.2.2.2.1 pr hpr).symm
      · intro pr hpr
        rcases insertLeaf_leaves_mem A q vh r (d + 1) pr hpr with h | h
        · exact hcwf.2.2.2.2.1 pr h
        · rw [h]; exact hb
      · have h1 := insertLeaf_leafCount_ge A q vh r (d + 1)
        have h2 := hcwf.2.2.2.2.2
        omega
    · rw [if_neg hb]
      have hb0 : getBitAtFromMSB q d = 0 := by
        have := getBit_lt_two q d
        omega
      refine ⟨hcwf.1, ?_, hcwf.2.2.1, ?_, hcwf.2.2.2.2.1, ?_⟩
      · apply ihl (d + 1) hcwf.2.1 (by have := hcwf.1; omega)
        intro pr hpr j hj
        rcases Nat.lt_succ_iff_lt_or_eq.mp hj with h | h
        · exact hagree pr (by simp [CTree.leaves, hpr]) j h
        · subst h
          rw [hb0]
          exact (hcwf.2.2.2.1 pr hpr).symm
      · intro pr hpr
        rcases insertLeaf_leaves_mem A q vh l (d + 1) pr hpr with h | h
        · exact hcwf.2.2.2.1 pr h
        · rw [h]; exact hb0
      · have h1 := insertLeaf_leafCount_ge A q vh l (d + 1)
        have h2 := hcwf.2.2.2.2.2
        omega

/-! ## Framework: encoding inventories -/

theorem storedIn_iff (A : HashAlgo) (nodes : SimpleMap) :
    ∀ t : CTree, t.storedIn A nodes ↔
      ∀ e ∈ t.encList A, nodes.dataAt (A.hash e) = some e ∧
        (A.hash e).length = A.size ∧ A.hash e ≠ List.replicate A.size 0 := by
  intro t
  induction t with
  | empty => simp [CTree.storedIn, CTree.encList]
  | leaf p vh =>
    simp only [CTree.storedIn, CTree.encList, List.mem_singleton]
    constructor
    · rintro ⟨h1, h2, h3⟩ e he
      subst he
      exact ⟨h1, h2, h3⟩
    · intro h
      exact h _ rfl
  | node l r ihl ihr =>
    simp only [CTree.storedIn, CTree.encList, List.mem_cons, List.mem_append]
    constructor
    · rintro ⟨h1, h2, h3, hl, hr⟩ e he
      rcases he with he | he | he
      · subst he; exact ⟨h1, h2, h3⟩
      · exact (ihl.mp hl) e he
      · exact (ihr.mp hr) e he
    · intro h
      refine ⟨(h _ (Or.inl rfl)).1, (h _ (Or.inl rfl)).2.1, (h _ (Or.inl rfl)).2.2, ?_, ?_⟩
      · exact ihl.mpr (fun e he => h e (Or.inr (Or.inl he)))
      · exact ihr.mpr (fun e he => h e (Or.inr (Or.inr he)))

theorem encList_of_leaf_mem (A : HashAlgo) :
    ∀ (t : CTree) (p vh : Bytes), (p, vh) ∈ t.leaves → leafEncB p vh ∈ t.encList A := by
  intro t
  induction t with
  | empty => intro p vh h; cases h
  | leaf p' vh' =>
    intro p vh h
    simp [CTree.leaves] at h
    simp [CTree.encList, h]
  | node l r ihl ihr =>
    intro p vh h
    simp only [CTree.leaves, List.mem_append] at h
    simp only [CTree.encList, List.mem_cons, List.mem_append]
    rcases h with h | h
    · exact Or.inr (Or.inl (ihl p vh h))
    · exact Or.inr (Or.inr (ihr p vh h))

theorem splitLeaf_leaves_self (p vh q wh : Bytes) :
    ∀ (f d : Nat), (p, vh) ∈ (CTree.splitLeaf p vh q wh d f).leaves :=
  fun f d => (splitLeaf_leaves p vh q wh f d (p, vh)).mpr (Or.inl rfl)

theorem insertLeaf_leaves_self (A : HashAlgo) (q vh : Bytes) :
    ∀ (t : CTree) (d : Nat), (q, vh) ∈ (CTree.insertLeaf A d t q vh).leaves := by
  intro t
  induction t with
  | empty => intro d; simp [CTree.insertLeaf, CTree.leaves]
  | leaf p wh =>
    intro d
    rw [insertLeaf_leafArm]
    by_cases hc : countCommonPref q p = 8 * A.size
    · rw [if_pos hc]; simp [CTree.leaves]
    · rw [if_neg hc]; exact splitLeaf_leaves_self q vh p wh _ d
  | node l r ihl ihr =>
    intro d
    rw [insertLeaf_node]
    by_cases hb : getBitAtFromMSB q d = 1
    · rw [if_pos hb]
      simp only [CTree.leaves, List.mem_append]
      exact Or.inr (ihr (d + 1))
    · rw [if_neg hb]
      simp only [CTree.leaves, List.mem_append]
      exact Or.inl (ihl (d + 1))

theorem insertLeaf_encs_sup (A : HashAlgo) (q vh : Bytes) :
    ∀ (t : CTree) (d : Nat) (e : Bytes),
      (e ∈ sidesEncs A q (t.travSides A q d) d
            ((CTree.insertLeaf A (d + (t.travSides A q d).length)
              (t.terminus A q d) q vh).digestOf A) ∨
       e ∈ (CTree.insertLeaf A (d + (t.travSides A q d).length)
            (t.terminus A q d) q vh).encList A) →
      e ∈ (CTree.insertLeaf A d t q vh).encList A := by
  intro t
  induction t with
  | empty =>
    intro d e he
    rcases he with he | he
    · simp [CTree.travSides, sidesEncs] at he
    · simpa [CTree.travSides, CTree.terminus] using he
  | leaf p wh =>
    intro d e he
    rcases he with he | he
    · simp [CTree.travSides, sidesEncs] at he
    · simpa [CTree.travSides, CTree.terminus] using he
  | node l r ihl ihr =>
    intro d e he
    rw [travSides_node, terminus_node] at he
    rw [insertLeaf_node]
    by_cases hb : getBitAtFromMSB q d = 1
    · rw [if_pos hb, if_pos hb] at he
      rw [if_pos hb]
      simp only [List.length_cons] at he
      rw [show d + ((r.travSides A q (d + 1)).length + 1) =
        d + 1 + (r.travSides A q (d + 1)).length from by omega] at he
      simp only [CTree.encList, List.mem_cons, List.mem_append]
      rcases he with he | he
      · unfold sidesEncs at he
        rcases List.mem_append.mp he with he | he
        · exact Or.inr (Or.inr (ihr (d + 1) e (Or.inl he)))
        · left
          simp only [List.mem_singleton] at he
          rw [he]
          unfold combineAt
          rw [if_pos hb]
          rw [← insertLeaf_digest A q vh r (d + 1)]
      · exact Or.inr (Or.inr (ihr (d + 1) e (Or.inr he)))
    · rw [if_neg hb, if_neg hb] at he
      rw [if_neg hb]
      simp only [List.length_cons] at he
      rw [show d + ((l.travSides A q (d + 1)).length + 1) =
        d + 1 + (l.travSides A q (d + 1)).length from by omega] at he
      simp only [CTree.encList, List.mem_cons, List.mem_append]
      rcases he with he | he
      · unfold sidesEncs at he
        rcases List.mem_append.mp he with he | he
        · exact Or.inr (Or.inl (ihl (d + 1) e (Or.inl he)))
        · left
          simp only [List.mem_singleton] at he
          rw [he]
          unfold combineAt
          rw [if_neg hb]
          rw [← insertLeaf_digest A q vh l (d + 1)]
      · exact Or.inr (Or.inl (ihl (d + 1) e (Or.inr he)))

theorem wrapAt_encList (A : HashAlgo) (q : Bytes) (d : Nat) (t : CTree) :
    (wrapAt q d t).encList A = rootEncOf A (wrapAt q d t) :: t.encList A := by
  unfold wrapAt
  by_cases hb : getBitAtFromMSB q d = 1
  · rw [if_pos hb]; simp [CTree.encList, rootEncOf]
  · rw [if_neg hb]; simp [CTree.encList, rootEncOf]

theorem wrapChain_encList_sub (A : HashAlgo) (q : Bytes) :
    ∀ (f dt : Nat) (t0 : CTree) (e : Bytes),
      e ∈ (wrapChain q f dt t0).encList A →
      e ∈ wrapEncs A q f dt t0 ∨ e ∈ t0.encList A := by
  intro f
  induction f with
  | zero => intro dt t0 e he; exact Or.inr he
  | succ f ih =>
    intro dt t0 e he
    rw [show wrapChain q (f + 1) dt t0 = wrapChain q f dt (wrapAt q (dt + f) t0) from rfl] at he
    rcases ih dt (wrapAt q (dt + f) t0) e he with h | h
    · left
      rw [show wrapEncs A q (f + 1) dt t0 =
        rootEncOf A (wrapAt q (dt + f) t0) :: wrapEncs A q f dt (wrapAt q (dt + f) t0)
        from rfl]
      exact List.mem_cons_of_mem _ h
    · rw [wrapAt_encList] at h
      rcases List.mem_cons.mp h with h | h
      · left
        rw [show wrapEncs A q (f + 1) dt t0 =
          rootEncOf A (wrapAt q (dt + f) t0) :: wrapEncs A q f dt (wrapAt q (dt + f) t0)
          from rfl]
        rw [h]
        exact List.mem_cons_self _ _
      · exact Or.inr h

theorem wrapChain_encList_sup (A : HashAlgo) (q : Bytes) :
    ∀ (f dt : Nat) (t0 : CTree) (e : Bytes),
      (e ∈ wrapEncs A q f dt t0 ∨ e ∈ t0.encList A) →
      e ∈ (wrapChain q f dt t0).encList A := by
  intro f
  induction f with
  | zero =>
    intro dt t0 e he
    rcases he with he | he
    · cases he
    · exact he
  | succ f ih =>
    intro dt t0 e he
    rw [show wrapChain q (f + 1) dt t0 = wrapChain q f dt (wrapAt q (dt + f) t0) from rfl]
    rcases he with he | he
    · rw [show wrapEncs A q (f + 1) dt t0 =
        rootEncOf A (wrapAt q (dt + f) t0) :: wrapEncs A q f dt (wrapAt q (dt + f) t0)
        from rfl] at he
      rcases List.mem_cons.mp he with he | he
      · apply ih
        right
        rw [wrapAt_encList, he]
        exact List.mem_cons_self _ _
      · exact ih dt _ e (Or.inl he)
    · apply ih
      right
      rw [wrapAt_encList]
      exact List.mem_cons_of_mem _ he

theorem twoLeafAt_encList (A : HashAlgo) (p vh q wh : Bytes) (e : Nat) (x : Bytes) :
    x ∈ (twoLeafAt p vh q wh e).encList A ↔
      x = rootEncOf A (twoLeafAt p vh q wh e) ∨ x = leafEncB p vh ∨ x = leafEncB q wh := by
  unfold twoLeafAt
  by_cases hb : getBitAtFromMSB p e = 1
  · rw [if_pos hb]
    simp [CTree.encList, rootEncOf]
    tauto
  · rw [if_neg hb]
    simp [CTree.encList, rootEncOf]

theorem twoLeafAt_digest (A : HashAlgo) (p vh q wh : Bytes) (e : Nat) :
    (twoLeafAt p vh q wh e).digestOf A =
      (combineAt A p e (A.hash (leafEncB q wh)) (A.hash (leafEncB p vh))).1 := by
  unfold twoLeafAt combineAt
  by_cases hb : getBitAtFromMSB p e = 1
  · rw [if_pos hb, if_pos hb]; rfl
  · rw [if_neg hb, if_neg hb]; rfl

theorem twoLeafAt_rootEnc (A : HashAlgo) (p vh q wh : Bytes) (e : Nat) :
    rootEncOf A (twoLeafAt p vh q wh e) =
      (combineAt A p e (A.hash (leafEncB q wh)) (A.hash (leafEncB p vh))).2 := by
  unfold twoLeafAt combineAt
  by_cases hb : getBitAtFromMSB p e = 1
  · rw [if_pos hb, if_pos hb]; rfl
  · rw [if_neg hb, if_neg hb]; rfl

theorem insertLeaf_self (A : HashAlgo) (q vh : Bytes) (hq : q.length = A.size) :
    ∀ (t : CTree) (d : Nat), t.terminus A q d = .leaf q vh →
      CTree.insertLeaf A d t q vh = t := by
  have hfull : countCommonPref q q = 8 * A.size := by
    have h1 := countCommonPref_le q q
    have h2 := countCommonPref_ge_of_agree q q (8 * q.length) le_rfl (fun j _ => rfl)
    rw [hq] at h1 h2
    omega
  intro t
  induction t with
  | empty => intro d ht; simp [CTree.terminus] at ht
  | leaf p wh =>
    intro d ht
    simp only [CTree.terminus, CTree.leaf.injEq] at ht
    rw [insertLeaf_leafArm, ht.1, ht.2, if_pos hfull]
  | node l r ihl ihr =>
    intro d ht
    rw [terminus_node] at ht
    rw [insertLeaf_node]
    by_cases hb : getBitAtFromMSB q d = 1
    · rw [if_pos hb] at ht
      rw [if_pos hb, ihr (d + 1) ht]
    · rw [if_neg hb] at ht
      rw [if_neg hb, ihl (d + 1) ht]

theorem revSome_getD (S : List Bytes) (j : Nat) (hj : j < S.length) :
    ((S.map some).reverse).getD j none = some (S.getD (S.length - 1 - j) []) := by
  rw [List.getD_eq_getElem?_getD, List.getElem?_reverse (by simp [hj])]
  simp only [List.length_map]
  rw [List.getElem?_map]
  rw [List.getD_eq_getElem?_getD]
  cases he : S[S.length - 1 - j]? with
  | none =>
    rw [List.getElem?_eq_none_iff] at he
    omega
  | some v => simp

/-! ## Framework: the update loop end to end -/

theorem updateSideAt_sides (th : treeHasher) (cpc dep : Nat) (S : List Bytes)
    (j : Nat) (hj : j < S.length) (hk : S.length ≤ dep) :
    updateSideAt th cpc dep (dep - S.length) ((S.map some).reverse) (dep - S.length + j) =
      some (S.getD (S.length - 1 - j) []) := by
  unfold updateSideAt
  rw [show dep - S.length + j - (dep - S.length) = j from by omega, revSome_getD S j hj]
  rw [if_neg (by
    intro hcon
    rcases hcon with h | h
    · omega
    · simp at h)]

theorem updateSideAt_none_eqdep (th : treeHasher) (dep : Nat) (S : List Bytes) (i : Nat)
    (hi : i < dep - S.length) :
    updateSideAt th dep dep (dep - S.length) ((S.map some).reverse) i = none := by
  unfold updateSideAt
  rw [if_pos (Or.inl (by omega))]
  rw [if_neg (by intro h; exact h.1 rfl)]

theorem updateSideAt_none_lt (th : treeHasher) (cpc dep : Nat) (S : List Bytes) (i : Nat)
    (hk : S.length ≤ cpc) (hcd : cpc ≤ dep) (hi : i < dep - cpc) :
    updateSideAt th cpc dep (dep - S.length) ((S.map some).reverse) i = none := by
  unfold updateSideAt
  rw [if_pos (Or.inl (by omega))]
  rw [if_neg (by intro h; omega)]

theorem updateLoop_skip_sides (th : treeHasher) (A : HashAlgo) (q : Bytes) (dep : Nat)
    (S : List Bytes) (hk : S.length ≤ dep) (B : Bytes) (nodes : SimpleMap) :
    updateLoop th A q dep dep (dep - S.length) ((S.map some).reverse) dep 0 B B nodes =
      (combineDown A q S 0 B, combineDown A q S 0 B,
       putAll A (sidesEncs A q S 0 B) nodes) := by
  rw [show dep = (dep - S.length) + S.length from by omega]
  rw [updateLoop_split]
  rw [updateLoop_skip th A q ((dep - S.length) + S.length) ((dep - S.length) + S.length)
    (((dep - S.length) + S.length) - S.length) ((S.map some).reverse) (dep - S.length) 0 B B
    nodes ?_]
  · dsimp only
    have := updateLoop_sides th A q ((dep - S.length) + S.length)
      ((dep - S.length) + S.length) (((dep - S.length) + S.length) - S.length)
      ((S.map some).reverse) 0 S B nodes (by omega) ?_
    · rw [show (dep - S.length) + S.length - 0 - S.length = dep - S.length from by omega] at this
      rw [show (0 : Nat) + (dep - S.length) = dep - S.length from by omega]
      exact this
    · intro j hj
      rw [show (dep - S.length) + S.length - 0 - S.length + j = (dep - S.length) + j from
        by omega]
      rw [show ((dep - S.length) + S.length) - S.length = dep - S.length from by omega]
      have := updateSideAt_sides th ((dep - S.length) + S.length)
        ((dep - S.length) + S.length) S j hj (by omega)
      rw [show ((dep - S.length) + S.length) - S.length = dep - S.length from by omega] at this
      exact this
  · intro j h1 h2
    exact updateSideAt_none_eqdep th ((dep - S.length) + S.length) S j (by omega)

theorem updateLoop_full_phases (th : treeHasher) (A : HashAlgo) (q : Bytes)
    (cpc dep : Nat) (S : List Bytes) (t0 : CTree)
    (hthp : th.placeholder = List.replicate A.size 0)
    (hk : S.length ≤ cpc) (hcd : cpc ≤ dep) (hcpc : cpc ≠ dep) (nodes : SimpleMap) :
    updateLoop th A q cpc dep (dep - S.length) ((S.map some).reverse) dep 0
        (t0.digestOf A) (t0.digestOf A) nodes =
      (combineDown A q S 0 ((wrapChain q (cpc - S.length) S.length t0).digestOf A),
       combineDown A q S 0 ((wrapChain q (cpc - S.length) S.length t0).digestOf A),
       putAll A (sidesEncs A q S 0 ((wrapChain q (cpc - S.length) S.length t0).digestOf A))
         (putAll A (wrapEncs A q (cpc - S.length) S.length t0) nodes)) := by
  rw [show dep = (dep - cpc) + ((cpc - S.length) + S.length) from by omega]
  rw [updateLoop_split]
  rw [updateLoop_skip th A q cpc ((dep - cpc) + ((cpc - S.length) + S.length))
    (((dep - cpc) + ((cpc - S.length) + S.length)) - S.length) ((S.map some).reverse)
    (dep - cpc) 0 (t0.digestOf A) (t0.digestOf A) nodes ?_]
  · dsimp only
    rw [updateLoop_split]
    have hw := updateLoop_wraps th A q cpc ((dep - cpc) + ((cpc - S.length) + S.length))
      (((dep - cpc) + ((cpc - S.length) + S.length)) - S.length) ((S.map some).reverse)
      hthp (by omega) (cpc - S.length) S.length t0 nodes (by omega) (by omega) (by omega)
    rw [show ((dep - cpc) + ((cpc - S.length) + S.length)) -
      (S.length + (cpc - S.length)) = dep - cpc from by omega] at hw
    rw [show (0 : Nat) + (dep - cpc) = dep - cpc from by omega]
    rw [hw]
    dsimp only
    have hs := updateLoop_sides th A q cpc ((dep - cpc) + ((cpc - S.length) + S.length))
      (((dep - cpc) + ((cpc - S.length) + S.length)) - S.length) ((S.map some).reverse) 0 S
      ((wrapChain q (cpc - S.length) S.length t0).digestOf A)
      (putAll A (wrapEncs A q (cpc - S.length) S.length t0) nodes) (by omega) ?_
    · rw [show (dep - cpc) + ((cpc - S.length) + S.length) - 0 - S.length =
        dep - S.length from by omega] at hs
      rw [show dep - cpc + (cpc - S.length) = dep - S.length from by omega]
      exact hs
    · intro j hj
      rw [show (dep - cpc) + ((cpc - S.length) + S.length) - 0 - S.length + j =
        ((dep - cpc) + ((cpc - S.length) + S.length)) - S.length + j from by omega]
      exact updateSideAt_sides th cpc ((dep - cpc) + ((cpc - S.length) + S.length)) S j hj
        (by omega)
  · intro j h1 h2
    rw [show ((dep - cpc) + ((cpc - S.length) + S.length)) - S.length =
      ((dep - cpc) + ((cpc - S.length) + S.length)) - S.length from rfl]
    exact updateSideAt_none_lt th cpc ((dep - cpc) + ((cpc - S.length) + S.length)) S j hk
      (by omega) (by omega)

/-! ## Framework: store state after a put sequence -/

theorem stored_after_putAll (A : HashAlgo) (t t' : CTree) (nodes : SimpleMap)
    (E : List Bytes)
    (hsub : ∀ e ∈ t'.encList A, e ∈ E ∨ e ∈ t.encList A)
    (hE : ∀ e ∈ E, e ∈ t'.encList A)
    (hst : t.storedIn A nodes)
    (hlen : ∀ e ∈ t'.encList A, (A.hash e).length = A.size)
    (hnp : ∀ e ∈ t'.encList A, A.hash e ≠ List.replicate A.size 0)
    (hfresh : ∀ e ∈ t'.encList A,
      nodes.dataAt (A.hash e) = none ∨ nodes.dataAt (A.hash e) = some e)
    (hinj : ∀ e1 ∈ t'.encList A, ∀ e2 ∈ t'.encList A, A.hash e1 = A.hash e2 → e1 = e2) :
    t'.storedIn A (putAll A E nodes) ∧
    (∀ w v, nodes.dataAt w = some v → (putAll A E nodes).dataAt w = some v) := by
  have hfreshE : ∀ e ∈ E, nodes.dataAt (A.hash e) = none ∨ nodes.dataAt (A.hash e) = some e :=
    fun e he => hfresh e (hE e he)
  have hinjE : ∀ e1 ∈ E, ∀ e2 ∈ E, A.hash e1 = A.hash e2 → e1 = e2 :=
    fun e1 h1 e2 h2 => hinj e1 (hE e1 h1) e2 (hE e2 h2)
  have hmono := dataAt_putAll_mono A E nodes hfreshE hinjE
  refine ⟨?_, hmono⟩
  rw [storedIn_iff]
  intro e he
  refine ⟨?_, hlen e he, hnp e he⟩
  rcases hsub e he with h | h
  · exact dataAt_putAll_mem A E nodes hfreshE hinjE e h
  · exact hmono _ _ (((storedIn_iff A nodes t).mp hst e h).1)

/-! ## Framework: updateWithSideNodes against the pure insert -/

theorem updateForRoot_ok (A : HashAlgo) (smt : SparseMerkleTree) (key value root : Bytes)
    (sn : List (Option Bytes)) (pn : List Bytes) (old sib : Option Bytes)
    (htrav : sideNodesForRoot smt (smt.th.path A key) root false = .ok (sn, pn, old, sib))
    (hvalue : value ≠ defaultValue) :
    UpdateForRoot A smt key value root =
      .ok (updateWithSideNodes A smt (smt.th.path A key) key value sn pn old) := by
  simp only [UpdateForRoot]
  rw [htrav]
  dsimp only
  rw [if_neg hvalue]

theorem updateWithSideNodes_empty_spec (A : HashAlgo) (smt : SparseMerkleTree)
    (key value q vh : Bytes) (t : CTree)
    (hq : q = smt.th.path A key) (hvh : vh = smt.th.digest A value)
    (hth : smt.th = ⟨A.size, List.replicate A.size 0⟩)
    (hcwf : t.cwf A 0)
    (ht : t.terminus A q 0 = .empty) :
    updateWithSideNodes A smt q key value (((t.travSides A q 0).map some).reverse)
        ((t.travPath A q 0).reverse ++ [t.digestOf A]) (t.travLeaf A q 0) =
      ((CTree.insertLeaf A 0 t q vh).digestOf A,
       { smt with
         nodes := putAll A
           (leafEncB q vh :: sidesEncs A q (t.travSides A q 0) 0 (A.hash (leafEncB q vh)))
           smt.nodes,
         values := smt.values.put (A.hash (q ++ vh)) value }) := by
  have hdep : smt.depth = 8 * A.size := by
    unfold SparseMerkleTree.depth treeHasher.pathSize
    rw [hth]
    dsimp only
    omega
  have hklen : (t.travSides A q 0).length ≤ 8 * A.size := by
    rcases travSides_length_le A q t 0 hcwf with h | h
    · omega
    · rw [h]; simp
  have hpn0 : ((t.travPath A q 0).reverse ++ [t.digestOf A]).getD 0 [] =
      smt.th.placeholder := by
    rw [pathNodes_head A q t 0, ht, hth]
    rfl
  simp only [updateWithSideNodes]
  rw [hpn0]
  rw [if_pos rfl]
  rw [← hvh]
  simp only [SparseMerkleTree.depth]
  dsimp only
  rw [show smt.th.digestLeaf A q vh = (A.hash (leafEncB q vh), leafEncB q vh) from rfl]
  rw [show smt.th.digest A (q ++ vh) = A.hash (q ++ vh) from rfl]
  dsimp only
  rw [dif_neg (fun h => h rfl)]
  rw [if_neg (by simp)]
  rw [List.length_reverse, List.length_map]
  have hloop := updateLoop_skip_sides smt.th A q (smt.th.pathSize * 8) (t.travSides A q 0)
    (by rw [show smt.th.pathSize = A.size from by rw [hth]; rfl]; omega)
    (A.hash (leafEncB q vh)) (smt.nodes.put (A.hash (leafEncB q vh)) (leafEncB q vh))
  rw [hloop]
  dsimp only
  rw [insertLeaf_digest A q vh t 0, ht]
  rw [show CTree.insertLeaf A (0 + (t.travSides A q 0).length) CTree.empty q vh =
    CTree.leaf q vh from rfl]
  rw [show CTree.digestOf A (CTree.leaf q vh) = A.hash (leafEncB q vh) from rfl]
  rfl


theorem twoLeafAt_digest_hash (A : HashAlgo) (p vh q wh : Bytes) (e : Nat) :
    (twoLeafAt p vh q wh e).digestOf A = A.hash (rootEncOf A (twoLeafAt p vh q wh e)) := by
  unfold twoLeafAt
  by_cases hb : getBitAtFromMSB p e = 1
  · rw [if_pos hb]; rfl
  · rw [if_neg hb]; rfl

theorem updateWithSideNodes_split_spec (A : HashAlgo) (smt : SparseMerkleTree)
    (key value q vh p wh : Bytes) (t : CTree)
    (hvh : vh = smt.th.digest A value)
    (hth : smt.th = ⟨A.size, List.replicate A.size 0⟩)
    (hcwf : t.cwf A 0) (hst : t.storedIn A smt.nodes)
    (ht : t.terminus A q 0 = .leaf p wh)
    (hqlen : q.length = A.size)
    (hcpc : countCommonPref q p ≠ 8 * A.size) :
    updateWithSideNodes A smt q key value (((t.travSides A q 0).map some).reverse)
        ((t.travPath A q 0).reverse ++ [t.digestOf A]) (t.travLeaf A q 0) =
      ((CTree.insertLeaf A 0 t q vh).digestOf A,
       { smt with
         nodes := putAll A
           (leafEncB q vh :: rootEncOf A (twoLeafAt q vh p wh (countCommonPref q p)) ::
             (wrapEncs A q (countCommonPref q p - (t.travSides A q 0).length)
               (t.travSides A q 0).length (twoLeafAt q vh p wh (countCommonPref q p)) ++
              sidesEncs A q (t.travSides A q 0) 0
                ((wrapChain q (countCommonPref q p - (t.travSides A q 0).length)
                  (t.travSides A q 0).length
                  (twoLeafAt q vh p wh (countCommonPref q p))).digestOf A)))
           smt.nodes,
         values := smt.values.put (A.hash (q ++ vh)) value }) := by
  have hps : smt.th.pathSize = A.size := by rw [hth]; rfl
  have hklen : (t.travSides A q 0).length ≤ 8 * A.size := by
    rcases travSides_length_le A q t 0 hcwf with h | h
    · omega
    · rw [h]; simp
  have htermcwf := terminus_cwf A q t 0 hcwf
  rw [ht] at htermcwf
  have hplen : p.length = A.size := htermcwf.1
  have htst := terminus_storedIn A smt.nodes q t 0 hst
  rw [ht] at htst
  have hk : (t.travSides A q 0).length ≤ countCommonPref q p := by
    apply countCommonPref_ge_of_agree q p _ (by rw [hqlen]; omega)
    intro j hj
    exact terminus_bits A q t 0 p wh hcwf ht j (by omega) (by omega)
  have hcle : countCommonPref q p ≤ 8 * A.size := by
    have := countCommonPref_le q p
    rw [hqlen] at this
    exact this
  have hpn0 : ((t.travPath A q 0).reverse ++ [t.digestOf A]).getD 0 [] =
      A.hash (leafEncB p wh) := by
    rw [pathNodes_head A q t 0, ht]
    rfl
  have hld : t.travLeaf A q 0 = some (leafEncB p wh) := by
    unfold CTree.travLeaf
    rw [ht]
  have hparse : smt.th.parseLeaf (leafEncB p wh) = (p, wh, p ++ wh) :=
    parseLeaf_leafEncB smt.th p wh (by rw [hth]; exact hplen)
  simp only [updateWithSideNodes]
  rw [hpn0]
  rw [if_neg (by rw [hth]; exact htst.2.2)]
  rw [hld]
  simp only [Option.getD_some]
  simp only [hparse]
  rw [← hvh]
  simp only [SparseMerkleTree.depth]
  rw [show smt.th.digestLeaf A q vh = (A.hash (leafEncB q vh), leafEncB q vh) from rfl]
  rw [show smt.th.digest A (q ++ vh) = A.hash (q ++ vh) from rfl]
  dsimp only
  rw [hps]
  rw [dif_pos (by intro h; apply hcpc; omega)]
  rw [combineAt_eq_digestNode smt.th A q (countCommonPref q p)
    (A.hash (leafEncB p wh)) (A.hash (leafEncB q vh))]
  rw [← twoLeafAt_digest A q vh p wh (countCommonPref q p)]
  rw [← twoLeafAt_rootEnc A q vh p wh (countCommonPref q p)]
  rw [List.length_reverse, List.length_map]
  rw [twoLeafAt_digest_hash A q vh p wh (countCommonPref q p)]
  have hloop := updateLoop_full_phases smt.th A q (countCommonPref q p) (A.size * 8)
    (t.travSides A q 0) (twoLeafAt q vh p wh (countCommonPref q p))
    (by rw [hth]; rfl) hk (by omega) (by intro h; apply hcpc; omega)
    ((smt.nodes.put (A.hash (leafEncB q vh)) (leafEncB q vh)).put
      (A.hash (rootEncOf A (twoLeafAt q vh p wh (countCommonPref q p))))
      (rootEncOf A (twoLeafAt q vh p wh (countCommonPref q p))))
  rw [show (twoLeafAt q vh p wh (countCommonPref q p)).digestOf A =
    A.hash (rootEncOf A (twoLeafAt q vh p wh (countCommonPref q p))) from
    twoLeafAt_digest_hash A q vh p wh (countCommonPref q p)] at hloop
  rw [hloop]
  dsimp only
  rw [insertLeaf_digest A q vh t 0, ht]
  rw [insertLeaf_leafArm]
  rw [if_neg hcpc]
  rw [splitLeaf_eq_wrapChain q vh p wh]
  rw [show (0 + (t.travSides A q 0).length) +
    (countCommonPref q p - (0 + (t.travSides A q 0).length)) = countCommonPref q p from
    by omega]
  rw [show (0 : Nat) + (t.travSides A q 0).length = (t.travSides A q 0).length from by omega]
  simp only [putAll]
  rw [putAll_append]


theorem updateWithSideNodes_replace_spec (A : HashAlgo) (smt : SparseMerkleTree)
    (key value q vh p wh : Bytes) (t : CTree)
    (hvh : vh = smt.th.digest A value)
    (hth : smt.th = ⟨A.size, List.replicate A.size 0⟩)
    (hcwf : t.cwf A 0) (hst : t.storedIn A smt.nodes)
    (ht : t.terminus A q 0 = .leaf p wh)
    (hqlen : q.length = A.size)
    (hcpc : countCommonPref q p = 8 * A.size) (hwh : wh ≠ vh) :
    updateWithSideNodes A smt q key value (((t.travSides A q 0).map some).reverse)
        ((t.travPath A q 0).reverse ++ [t.digestOf A]) (t.travLeaf A q 0) =
      ((CTree.insertLeaf A 0 t q vh).digestOf A,
       { smt with
         nodes := putAll A
           (leafEncB q vh :: sidesEncs A q (t.travSides A q 0) 0 (A.hash (leafEncB q vh)))
           smt.nodes,
         values := smt.values.put (A.hash (q ++ vh)) value }) := by
  have hps : smt.th.pathSize = A.size := by rw [hth]; rfl
  have hklen : (t.travSides A q 0).length ≤ 8 * A.size := by
    rcases travSides_length_le A q t 0 hcwf with h | h
    · omega
    · rw [h]; simp
  have htermcwf := terminus_cwf A q t 0 hcwf
  rw [ht] at htermcwf
  have hplen : p.length = A.size := htermcwf.1
  have htst := terminus_storedIn A smt.nodes q t 0 hst
  rw [ht] at htst
  have hpn0 : ((t.travPath A q 0).reverse ++ [t.digestOf A]).getD 0 [] =
      A.hash (leafEncB p wh) := by
    rw [pathNodes_head A q t 0, ht]
    rfl
  have hld : t.travLeaf A q 0 = some (leafEncB p wh) := by
    unfold CTree.travLeaf
    rw [ht]
  have hparse : smt.th.parseLeaf (leafEncB p wh) = (p, wh, p ++ wh) :=
    parseLeaf_leafEncB smt.th p wh (by rw [hth]; exact hplen)
  simp only [updateWithSideNodes]
  rw [hpn0]
  rw [if_neg (by rw [hth]; exact htst.2.2)]
  rw [hld]
  simp only [Option.getD_some]
  simp only [hparse]
  rw [← hvh]
  simp only [SparseMerkleTree.depth]
  rw [show smt.th.digestLeaf A q vh = (A.hash (leafEncB q vh), leafEncB q vh) from rfl]
  rw [show smt.th.digest A (q ++ vh) = A.hash (q ++ vh) from rfl]
  dsimp only
  rw [hps]
  rw [dif_neg (fun h => h (by omega))]
  rw [if_neg (by intro hcon; rw [Option.some.injEq] at hcon; exact hwh hcon)]
  rw [List.length_reverse, List.length_map]
  rw [show countCommonPref q p = A.size * 8 from by omega]
  have hloop := updateLoop_skip_sides smt.th A q (A.size * 8) (t.travSides A q 0)
    (by omega) (A.hash (leafEncB q vh))
    (smt.nodes.put (A.hash (leafEncB q vh)) (leafEncB q vh))
  rw [hloop]
  dsimp only
  rw [insertLeaf_digest A q vh t 0, ht]
  rw [insertLeaf_leafArm]
  rw [if_pos hcpc]
  rw [show CTree.digestOf A (CTree.leaf q vh) = A.hash (leafEncB q vh) from rfl]
  rfl

theorem updateWithSideNodes_same_spec (A : HashAlgo) (smt : SparseMerkleTree)
    (key value q vh p wh : Bytes) (t : CTree)
    (hvh : vh = smt.th.digest A value)
    (hth : smt.th = ⟨A.size, List.replicate A.size 0⟩)
    (hcwf : t.cwf A 0) (hst : t.storedIn A smt.nodes)
    (ht : t.terminus A q 0 = .leaf p wh)
    (hqlen : q.length = A.size)
    (hcpc : countCommonPref q p = 8 * A.size) (hwh : wh = vh) :
    updateWithSideNodes A smt q key value (((t.travSides A q 0).map some).reverse)
        ((t.travPath A q 0).reverse ++ [t.digestOf A]) (t.travLeaf A q 0) =
      (smt.root,
       { smt with
         nodes := smt.nodes.put (A.hash (leafEncB q vh)) (leafEncB q vh),
         values := smt.values.put (A.hash (q ++ vh)) value }) := by
  have hps : smt.th.pathSize = A.size := by rw [hth]; rfl
  have htermcwf := terminus_cwf A q t 0 hcwf
  rw [ht] at htermcwf
  have hplen : p.length = A.size := htermcwf.1
  have htst := terminus_storedIn A smt.nodes q t 0 hst
  rw [ht] at htst
  have hpn0 : ((t.travPath A q 0).reverse ++ [t.digestOf A]).getD 0 [] =
      A.hash (leafEncB p wh) := by
    rw [pathNodes_head A q t 0, ht]
    rfl
  have hld : t.travLeaf A q 0 = some (leafEncB p wh) := by
    unfold CTree.travLeaf
    rw [ht]
  have hparse : smt.th.parseLeaf (leafEncB p wh) = (p, wh, p ++ wh) :=
    parseLeaf_leafEncB smt.th p wh (by rw [hth]; exact hplen)
  simp only [updateWithSideNodes]
  rw [hpn0]
  rw [if_neg (by rw [hth]; exact htst.2.2)]
  rw [hld]
  simp only [Option.getD_some]
  simp only [hparse]
  rw [← hvh]
  simp only [SparseMerkleTree.depth]
  rw [show smt.th.digestLeaf A q vh = (A.hash (leafEncB q vh), leafEncB q vh) from rfl]
  rw [show smt.th.digest A (q ++ vh) = A.hash (q ++ vh) from rfl]
  dsimp only
  rw [hps]
  rw [dif_neg (fun h => h (by omega))]
  rw [if_pos (by rw [hwh])]


theorem updateForRoot_insert_spec (A : HashAlgo) (smt : SparseMerkleTree)
    (key value q vh : Bytes) (t : CTree)
    (hq : q = smt.th.path A key) (hvh : vh = smt.th.digest A value)
    (hth : smt.th = ⟨A.size, List.replicate A.size 0⟩)
    (hroot : smt.root = t.digestOf A)
    (hcwf : t.cwf A 0) (hst : t.storedIn A smt.nodes)
    (hval : value ≠ defaultValue)
    (hqlen : q.length = A.size) (hqb : ∀ x ∈ q, x < 256)
    (hlen : ∀ e ∈ (CTree.insertLeaf A 0 t q vh).encList A, (A.hash e).length = A.size)
    (hnp : ∀ e ∈ (CTree.insertLeaf A 0 t q vh).encList A,
      A.hash e ≠ List.replicate A.size 0)
    (hfresh : ∀ e ∈ (CTree.insertLeaf A 0 t q vh).encList A,
      smt.nodes.dataAt (A.hash e) = none ∨ smt.nodes.dataAt (A.hash e) = some e)
    (hinj : ∀ e1 ∈ (CTree.insertLeaf A 0 t q vh).encList A,
      ∀ e2 ∈ (CTree.insertLeaf A 0 t q vh).encList A, A.hash e1 = A.hash e2 → e1 = e2) :
    ∃ nodes' : SimpleMap,
      UpdateForRoot A smt key value (t.digestOf A) =
        .ok ((CTree.insertLeaf A 0 t q vh).digestOf A,
          { smt with
            nodes := nodes'
            values := smt.values.put (A.hash (q ++ vh)) value }) ∧
      (CTree.insertLeaf A 0 t q vh).storedIn A nodes' ∧
      (∀ w v, smt.nodes.dataAt w = some v → nodes'.dataAt w = some v) := by
  have htrav := sideNodesForRoot_spec A smt q t hth hcwf hst
  rw [hq] at htrav
  have hok := updateForRoot_ok A smt key value (t.digestOf A) _ _ _ _ htrav hval
  rw [← hq] at hok
  have hself : leafEncB q vh ∈ (CTree.insertLeaf A 0 t q vh).encList A :=
    encList_of_leaf_mem A _ q vh (insertLeaf_leaves_self A q vh t 0)
  cases htm : t.terminus A q 0 with
  | node lt rt => exact absurd htm (terminus_not_node A q t 0 lt rt)
  | empty =>
    have hupd := updateWithSideNodes_empty_spec A smt key value q vh t hq hvh hth hcwf htm
    rw [hupd] at hok
    have hB : A.hash (leafEncB q vh) =
        (CTree.insertLeaf A (0 + (t.travSides A q 0).length) (t.terminus A q 0) q vh).digestOf
          A := by
      rw [htm]
      rfl
    have hE : ∀ e ∈ leafEncB q vh ::
        sidesEncs A q (t.travSides A q 0) 0 (A.hash (leafEncB q vh)),
        e ∈ (CTree.insertLeaf A 0 t q vh).encList A := by
      intro e he
      rcases List.mem_cons.mp he with he | he
      · rw [he]; exact hself
      · rw [hB] at he
        exact insertLeaf_encs_sup A q vh t 0 e (Or.inl he)
    have hsub : ∀ e ∈ (CTree.insertLeaf A 0 t q vh).encList A,
        e ∈ leafEncB q vh ::
          sidesEncs A q (t.travSides A q 0) 0 (A.hash (leafEncB q vh)) ∨
        e ∈ t.encList A := by
      intro e he
      rcases insertLeaf_encList_sub A q vh t 0 e he with h | h | h
      · left
        apply List.mem_cons_of_mem
        rw [hB]
        exact h
      · left
        rw [htm] at h
        simp only [CTree.encList, List.mem_singleton] at h
        rw [h]
        exact List.mem_cons_self _ _
      · exact Or.inr h
    obtain ⟨hstored, hmono⟩ := stored_after_putAll A t (CTree.insertLeaf A 0 t q vh)
      smt.nodes _ hsub hE hst hlen hnp hfresh hinj
    exact ⟨_, hok, hstored, hmono⟩
  | leaf p wh =>
    have htermcwf := terminus_cwf A q t 0 hcwf
    rw [htm] at htermcwf
    have hplen : p.length = A.size := htermcwf.1
    have hpb : ∀ x ∈ p, x < 256 := htermcwf.2.2
    have hpmem : (p, wh) ∈ t.leaves := by
      apply terminus_leaves_sub A q t 0
      rw [htm]
      simp [CTree.leaves]
    by_cases hcfull : countCommonPref q p = 8 * A.size
    · have hqp : q = p :=
        (countCommonPref_eq_full_iff q p (by rw [hqlen, hplen]) hqb hpb).mp
          (by rw [hqlen]; omega)
      by_cases hwh : wh = vh
      · -- idempotent write: the tree is unchanged
        have htm' : t.terminus A q 0 = .leaf q vh := by rw [htm, hqp, hwh]
        have hins : CTree.insertLeaf A 0 t q vh = t :=
          insertLeaf_self A q vh hqlen t 0 htm'
        have hupd := updateWithSideNodes_same_spec A smt key value q vh p wh t hvh hth
          hcwf hst htm hqlen hcfull hwh
        rw [hupd] at hok
        have hE : ∀ e ∈ [leafEncB q vh], e ∈ (CTree.insertLeaf A 0 t q vh).encList A := by
          intro e he
          rcases List.mem_singleton.mp he with he
          rw [he]
          exact hself
        have hsub : ∀ e ∈ (CTree.insertLeaf A 0 t q vh).encList A,
            e ∈ [leafEncB q vh] ∨ e ∈ t.encList A := by
          intro e he
          rw [hins] at he
          exact Or.inr he
        obtain ⟨hstored, hmono⟩ := stored_after_putAll A t (CTree.insertLeaf A 0 t q vh)
          smt.nodes _ hsub hE hst hlen hnp hfresh hinj
        refine ⟨smt.nodes.put (A.hash (leafEncB q vh)) (leafEncB q vh), ?_, hstored, hmono⟩
        rw [hok, hroot, hins]
      · -- same path, different value: the leaf is replaced
        have hupd := updateWithSideNodes_replace_spec A smt key value q vh p wh t hvh hth
          hcwf hst htm hqlen hcfull hwh
        rw [hupd] at hok
        have hB : A.hash (leafEncB q vh) =
            (CTree.insertLeaf A (0 + (t.travSides A q 0).length)
              (t.terminus A q 0) q vh).digestOf A := by
          rw [htm, insertLeaf_leafArm, if_pos hcfull]
          rfl
        have hE : ∀ e ∈ leafEncB q vh ::
            sidesEncs A q (t.travSides A q 0) 0 (A.hash (leafEncB q vh)),
            e ∈ (CTree.insertLeaf A 0 t q vh).encList A := by
          intro e he
          rcases List.mem_cons.mp he with he | he
          · rw [he]; exact hself
          · rw [hB] at he
            exact insertLeaf_encs_sup A q vh t 0 e (Or.inl he)
        have hsub : ∀ e ∈ (CTree.insertLeaf A 0 t q vh).encList A,
            e ∈ leafEncB q vh ::
              sidesEncs A q (t.travSides A q 0) 0 (A.hash (leafEncB q vh)) ∨
            e ∈ t.encList A := by
          intro e he
          rcases insertLeaf_encList_sub A q vh t 0 e he with h | h | h
          · left
            apply List.mem_cons_of_mem
            rw [hB]
            exact h
          · left
            rw [htm, insertLeaf_leafArm, if_pos hcfull] at h
            simp only [CTree.encList, List.mem_singleton] at h
            rw [h]
            exact List.mem_cons_self _ _
          · exact Or.inr h
        obtain ⟨hstored, hmono⟩ := stored_after_putAll A t (CTree.insertLeaf A 0 t q vh)
          smt.nodes _ hsub hE hst hlen hnp hfresh hinj
        exact ⟨_, hok, hstored, hmono⟩
    · -- diverging paths: the old leaf is split
      have hklen : (t.travSides A q 0).length ≤ 8 * A.size := by
        rcases travSides_length_le A q t 0 hcwf with h | h
        · omega
        · rw [h]; simp
      have hk : (t.travSides A q 0).length ≤ countCommonPref q p := by
        apply countCommonPref_ge_of_agree q p _ (by rw [hqlen]; omega)
        intro j hj
        exact terminus_bits A q t 0 p wh hcwf htm j (by omega) (by omega)
      have hupd := updateWithSideNodes_split_spec A smt key value q vh p wh t hvh hth
        hcwf hst htm hqlen hcfull
      rw [hupd] at hok
      have hmid : CTree.insertLeaf A (0 + (t.travSides A q 0).length)
          (t.terminus A q 0) q vh =
          wrapChain q (countCommonPref q p - (t.travSides A q 0).length)
            (t.travSides A q 0).length (twoLeafAt q vh p wh (countCommonPref q p)) := by
        rw [htm, insertLeaf_leafArm, if_neg hcfull, splitLeaf_eq_wrapChain q vh p wh]
        rw [show (0 + (t.travSides A q 0).length) +
          (countCommonPref q p - (0 + (t.travSides A q 0).length)) =
          countCommonPref q p from by omega]
        rw [show (0 : Nat) + (t.travSides A q 0).length = (t.travSides A q 0).length from
          by omega]
      have hE : ∀ e ∈ leafEncB q vh ::
          rootEncOf A (twoLeafAt q vh p wh (countCommonPref q p)) ::
            (wrapEncs A q (countCommonPref q p - (t.travSides A q 0).length)
              (t.travSides A q 0).length (twoLeafAt q vh p wh (countCommonPref q p)) ++
             sidesEncs A q (t.travSides A q 0) 0
               ((wrapChain q (countCommonPref q p - (t.travSides A q 0).length)
                 (t.travSides A q 0).length
                 (twoLeafAt q vh p wh (countCommonPref q p))).digestOf A)),
          e ∈ (CTree.insertLeaf A 0 t q vh).encList A := by
        intro e he
        rcases List.mem_cons.mp he with he | he
        · rw [he]; exact hself
        rcases List.mem_cons.mp he with he | he
        · apply insertLeaf_encs_sup A q vh t 0 e
          right
          rw [hmid]
          apply wrapChain_encList_sup
          right
          rw [he]
          exact (twoLeafAt_encList A q vh p wh (countCommonPref q p) _).mpr (Or.inl rfl)
        rcases List.mem_append.mp he with he | he
        · apply insertLeaf_encs_sup A q vh t 0 e
          right
          rw [hmid]
          exact wrapChain_encList_sup A q _ _ _ e (Or.inl he)
        · apply insertLeaf_encs_sup A q vh t 0 e
          left
          rw [hmid]
          exact he
      have hsub : ∀ e ∈ (CTree.insertLeaf A 0 t q vh).encList A,
          e ∈ leafEncB q vh ::
            rootEncOf A (twoLeafAt q vh p wh (countCommonPref q p)) ::
              (wrapEncs A q (countCommonPref q p - (t.travSides A q 0).length)
                (t.travSides A q 0).length (twoLeafAt q vh p wh (countCommonPref q p)) ++
               sidesEncs A q (t.travSides A q 0) 0
                 ((wrapChain q (countCommonPref q p - (t.travSides A q 0).length)
                   (t.travSides A q 0).length
                   (twoLeafAt q vh p wh (countCommonPref q p))).digestOf A)) ∨
          e ∈ t.encList A := by
        intro e he
        rcases insertLeaf_encList_sub A q vh t 0 e he with h | h | h
        · left
          apply List.mem_cons_of_mem
          apply List.mem_cons_of_mem
          apply List.mem_append.mpr
          right
          rw [hmid] at h
          exact h
        · rw [hmid] at h
          rcases wrapChain_encList_sub A q _ _ _ e h with h | h
          · left
            apply List.mem_cons_of_mem
            apply List.mem_cons_of_mem
            exact List.mem_append.mpr (Or.inl h)
          · rcases (twoLeafAt_encList A q vh p wh (countCommonPref q p) e).mp h with
              h | h | h
            · left
              rw [h]
              exact List.mem_cons_of_mem _ (List.mem_cons_self _ _)
            · left
              rw [h]
              exact List.mem_cons_self _ _
            · right
              rw [h]
              exact encList_of_leaf_mem A t p wh hpmem
        · exact Or.inr h
      obtain ⟨hstored, hmono⟩ := stored_after_putAll A t (CTree.insertLeaf A 0 t q vh)
        smt.nodes _ hsub hE hst hlen hnp hfresh hinj
      exact ⟨_, hok, hstored, hmono⟩

/-! ## Framework: history execution -/

theorem update_step (A : HashAlgo) (smt : SparseMerkleTree) (t : CTree)
    (key value : Bytes) (hInv : TreeInv A smt t)
    (hstep : StepOk A smt t key value) :
    ∃ smt', Update A smt key value =
        .ok ((CTree.insertLeaf A 0 t (A.hash key) (A.hash value)).digestOf A, smt') ∧
      TreeInv A smt' (CTree.insertLeaf A 0 t (A.hash key) (A.hash value)) := by
  obtain ⟨hth, hroot, hcwf, hst⟩ := hInv
  obtain ⟨hval, hqlen, hqb, hmix, hinj⟩ := hstep
  obtain ⟨nodes', hok, hstored, hmono⟩ := updateForRoot_insert_spec A smt key value
    (A.hash key) (A.hash value) t rfl rfl hth hroot hcwf hst hval hqlen hqb
    (fun e he => (hmix e he).1) (fun e he => (hmix e he).2.1)
    (fun e he => (hmix e he).2.2) hinj
  refine ⟨SparseMerkleTree.setRoot
      { smt with
        nodes := nodes'
        values := smt.values.put (A.hash (A.hash key ++ A.hash value)) value }
      ((CTree.insertLeaf A 0 t (A.hash key) (A.hash value)).digestOf A),
    ?_, hth, rfl, ?_, hstored⟩
  · unfold Update
    rw [hroot, hok]
    rfl
  · exact insertLeaf_cwf A (A.hash key) (A.hash value) hqlen hqb t 0 hcwf
      (Nat.zero_le _) (fun pr _ j hj => absurd hj (Nat.not_lt_zero j))

theorem updateSeq_spec (A : HashAlgo) :
    ∀ (kvs : List (Bytes × Bytes)) (smt : SparseMerkleTree) (t : CTree),
      TreeInv A smt t → HistOk A smt t kvs →
      ∃ smt', updateSeq A kvs smt = some smt' ∧ TreeInv A smt' (insertFold A kvs t) := by
  intro kvs
  induction kvs with
  | nil => intro smt t hInv _; exact ⟨smt, rfl, hInv⟩
  | cons kv rest ih =>
    intro smt t hInv hok
    obtain ⟨hstep, hrest⟩ := hok
    obtain ⟨smt', hupd, hInv'⟩ := update_step A smt t kv.1 kv.2 hInv hstep
    rw [hupd] at hrest
    unfold updateSeq
    rw [hupd]
    exact ih smt' _ hInv' hrest

/-! ## Framework: canonical trees are determined by their leaves -/

theorem splitLeaf_leaves_eq (p vh q wh : Bytes) :
    ∀ (f d : Nat), (CTree.splitLeaf p vh q wh d f).leaves = [(p, vh), (q, wh)] ∨
      (CTree.splitLeaf p vh q wh d f).leaves = [(q, wh), (p, vh)] := by
  intro f
  induction f with
  | zero =>
    intro d
    unfold CTree.splitLeaf
    by_cases hb : getBitAtFromMSB p d = 1
    · rw [if_pos hb]; right; rfl
    · rw [if_neg hb]; left; rfl
  | succ f ih =>
    intro d
    unfold CTree.splitLeaf
    by_cases hb : getBitAtFromMSB p d = 1
    · rw [if_pos hb]
      simp only [CTree.leaves, List.nil_append]
      exact ih (d + 1)
    · rw [if_neg hb]
      simp only [CTree.leaves, List.append_nil]
      exact ih (d + 1)

theorem insertLeaf_leaves_perm (A : HashAlgo) (p vh : Bytes) :
    ∀ (t : CTree) (d : Nat),
      (∀ pr ∈ t.leaves, countCommonPref p pr.1 ≠ 8 * A.size) →
      ((CTree.insertLeaf A d t p vh).leaves).Perm ((p, vh) :: t.leaves) := by
  intro t
  induction t with
  | empty => intro d _; simp [CTree.insertLeaf, CTree.leaves]
  | leaf q wh =>
    intro d habs
    rw [insertLeaf_leafArm]
    rw [if_neg (habs (q, wh) (by simp [CTree.leaves]))]
    rcases splitLeaf_leaves_eq p vh q wh (countCommonPref p q - d) d with h | h
    · rw [h]
      exact List.Perm.refl _
    · rw [h]
      exact List.Perm.swap _ _ _
  | node l r ihl ihr =>
    intro d habs
    rw [insertLeaf_node]
    by_cases hb : getBitAtFromMSB p d = 1
    · rw [if_pos hb]
      simp only [CTree.leaves]
      have hsub := ihr (d + 1) (fun pr hpr => habs pr (by
        simp only [CTree.leaves, List.mem_append]; exact Or.inr hpr))
      exact (List.Perm.append_left l.leaves hsub).trans List.perm_middle
    · rw [if_neg hb]
      simp only [CTree.leaves]
      have hsub := ihl (d + 1) (fun pr hpr => habs pr (by
        simp only [CTree.leaves, List.mem_append]; exact Or.inl hpr))
      exact List.Perm.append_right r.leaves hsub

theorem filter_split_left (P : (Bytes × Bytes) → Bool) (a b : List (Bytes × Bytes))
    (ha : ∀ x ∈ a, P x = true) (hb : ∀ x ∈ b, P x = false) :
    (a ++ b).filter P = a := by
  rw [List.filter_append]
  rw [List.filter_eq_self.mpr ha]
  rw [show b.filter P = [] from List.filter_eq_nil.mpr (by
    intro x hx
    rw [hb x hx]
    simp)]
  simp

theorem cwf_unique (A : HashAlgo) :
    ∀ (t1 t2 : CTree) (d : Nat), t1.cwf A d → t2.cwf A d →
      t1.leaves.Perm t2.leaves → t1 = t2 := by
  intro t1
  induction t1 with
  | empty =>
    intro t2 d _ hc2 hperm
    cases t2 with
    | empty => rfl
    | leaf p vh => exact absurd hperm.length_eq (by simp [CTree.leaves])
    | node l r =>
      have := hc2.2.2.2.2.2
      have hlen := hperm.length_eq
      simp only [CTree.leaves, List.length_nil, List.length_append] at hlen
      unfold CTree.leafCount at this
      omega
  | leaf p vh =>
    intro t2 d _ hc2 hperm
    cases t2 with
    | empty => exact absurd hperm.length_eq (by simp [CTree.leaves])
    | leaf p2 vh2 =>
      have h := List.perm_singleton.mp hperm
      simp only [CTree.leaves] at h
      injection h with h1 h2
      rw [Prod.mk.injEq] at h1
      rw [h1.1, h1.2]
    | node l r =>
      have := hc2.2.2.2.2.2
      have hlen := hperm.length_eq
      simp only [CTree.leaves, List.length_cons, List.length_nil, List.length_append] at hlen
      unfold CTree.leafCount at this
      omega
  | node l1 r1 ihl ihr =>
    intro t2 d hc1 hc2 hperm
    cases t2 with
    | empty =>
      have := hc1.2.2.2.2.2
      have hlen := hperm.length_eq
      simp only [CTree.leaves, List.length_nil, List.length_append] at hlen
      unfold CTree.leafCount at this
      omega
    | leaf p2 vh2 =>
      have := hc1.2.2.2.2.2
      have hlen := hperm.length_eq
      simp only [CTree.leaves, List.length_cons, List.length_nil, List.length_append] at hlen
      unfold CTree.leafCount at this
      omega
    | node l2 r2 =>
      have hfl : ∀ (a b : CTree), a.cwf A (d + 1) → b.cwf A (d + 1) →
          (∀ pr ∈ a.leaves, getBitAtFromMSB pr.1 d = 0) →
          (∀ pr ∈ b.leaves, getBitAtFromMSB pr.1 d = 1) →
          ((CTree.node a b).leaves).filter
            (fun pr => getBitAtFromMSB pr.1 d == 0) = a.leaves := by
        intro a b _ _ h0 h1
        apply filter_split_left
        · intro x hx
          simp [h0 x hx]
        · intro x hx
          simp [h1 x hx]
      have hfr : ∀ (a b : CTree), a.cwf A (d + 1) → b.cwf A (d + 1) →
          (∀ pr ∈ a.leaves, getBitAtFromMSB pr.1 d = 0) →
          (∀ pr ∈ b.leaves, getBitAtFromMSB pr.1 d = 1) →
          ((CTree.node a b).leaves).filter
            (fun pr => getBitAtFromMSB pr.1 d == 1) = b.leaves := by
        intro a b _ _ h0 h1
        show (a.leaves ++ b.leaves).filter (fun pr => getBitAtFromMSB pr.1 d == 1) = b.leaves
        rw [List.filter_append]
        rw [show a.leaves.filter (fun pr => getBitAtFromMSB pr.1 d == 1) = [] from
          List.filter_eq_nil.mpr (by
            intro x hx
            simp [h0 x hx])]
        rw [List.filter_eq_self.mpr (by intro x hx; simp [h1 x hx])]
        simp
      have hpl : l1.leaves.Perm l2.leaves := by
        have := hperm.filter (fun pr => getBitAtFromMSB pr.1 d == 0)
        rw [hfl l1 r1 hc1.2.1 hc1.2.2.1 hc1.2.2.2.1 hc1.2.2.2.2.1] at this
        rw [hfl l2 r2 hc2.2.1 hc2.2.2.1 hc2.2.2.2.1 hc2.2.2.2.2.1] at this
        exact this
      have hpr : r1.leaves.Perm r2.leaves := by
        have := hperm.filter (fun pr => getBitAtFromMSB pr.1 d == 1)
        rw [hfr l1 r1 hc1.2.1 hc1.2.2.1 hc1.2.2.2.1 hc1.2.2.2.2.1] at this
        rw [hfr l2 r2 hc2.2.1 hc2.2.2.1 hc2.2.2.2.1 hc2.2.2.2.2.1] at this
        exact this
      rw [ihl l2 (d + 1) hc1.2.1 hc2.2.1 hpl, ihr r2 (d + 1) hc1.2.2.1 hc2.2.2.1 hpr]

theorem insertFold_cwf (A : HashAlgo) :
    ∀ (kvs : List (Bytes × Bytes)) (t : CTree), t.cwf A 0 →
      (∀ kv ∈ kvs, (A.hash kv.1).length = A.size ∧ ∀ x ∈ A.hash kv.1, x < 256) →
      (insertFold A kvs t).cwf A 0 := by
  intro kvs
  induction kvs with
  | nil => intro t h _; exact h
  | cons kv rest ih =>
    intro t h hb
    apply ih
    · exact insertLeaf_cwf A (A.hash kv.1) (A.hash kv.2) (hb kv (by simp)).1
        (hb kv (by simp)).2 t 0 h (Nat.zero_le _)
        (fun pr _ j hj => absurd hj (Nat.not_lt_zero j))
    · intro kv' hkv'
      exact hb kv' (by simp [hkv'])

theorem insertFold_leaves_perm (A : HashAlgo) :
    ∀ (kvs : List (Bytes × Bytes)) (t : CTree),
      (∀ kv ∈ kvs, ∀ pr ∈ t.leaves, countCommonPref (A.hash kv.1) pr.1 ≠ 8 * A.size) →
      kvs.Pairwise (fun a b => countCommonPref (A.hash b.1) (A.hash a.1) ≠ 8 * A.size) →
      ((insertFold A kvs t).leaves).Perm
        ((kvs.map (fun kv => (A.hash kv.1, A.hash kv.2))) ++ t.leaves) := by
  intro kvs
  induction kvs with
  | nil => intro t _ _; exact List.Perm.refl _
  | cons kv rest ih =>
    intro t habs hpw
    obtain ⟨hhead, htail⟩ := List.pairwise_cons.mp hpw
    have hstep := insertLeaf_leaves_perm A (A.hash kv.1) (A.hash kv.2) t 0
      (fun pr hpr => habs kv (by simp) pr hpr)
    have habs' : ∀ kv' ∈ rest,
        ∀ pr ∈ (CTree.insertLeaf A 0 t (A.hash kv.1) (A.hash kv.2)).leaves,
          countCommonPref (A.hash kv'.1) pr.1 ≠ 8 * A.size := by
      intro kv' hkv' pr hpr
      rcases insertLeaf_leaves_mem A (A.hash kv.1) (A.hash kv.2) t 0 pr hpr with h | h
      · exact habs kv' (by simp [hkv']) pr h
      · rw [h]
        exact hhead kv' hkv'
    have hih := ih (CTree.insertLeaf A 0 t (A.hash kv.1) (A.hash kv.2)) habs' htail
    refine hih.trans ?_
    refine (List.Perm.append_left (rest.map fun kv => (A.hash kv.1, A.hash kv.2))
      hstep).trans ?_
    exact List.perm_middle

/-! ## C6: the final root is order independent -/

/-- C6: for a set of key/value pairs with pairwise distinct paths and
well-formed path digests, running the `Update`s from an empty tree in any
two orders (each satisfying the per-step freshness conditions) succeeds
and produces the same final root: the root is a function of the final
mapping, not of insertion order. -/
theorem c6_update_order_independent (A h1 h2 : HashAlgo)
    (kvs kvs' : List (Bytes × Bytes)) (hperm : kvs.Perm kvs')
    (hok : HistOk A (NewSparseMerkleTree A [] [] h1) .empty kvs)
    (hok' : HistOk A (NewSparseMerkleTree A [] [] h2) .empty kvs')
    (hpaths : ∀ kv ∈ kvs, (A.hash kv.1).length = A.size ∧ ∀ x ∈ A.hash kv.1, x < 256)
    (hdist : kvs.Pairwise (fun a b => A.hash a.1 ≠ A.hash b.1)) :
    ∃ smt1 smt2,
      updateSeq A kvs (NewSparseMerkleTree A [] [] h1) = some smt1 ∧
      updateSeq A kvs' (NewSparseMerkleTree A [] [] h2) = some smt2 ∧
      smt1.root = smt2.root := by
  have hInv1 : TreeInv A (NewSparseMerkleTree A [] [] h1) .empty := ⟨rfl, rfl, trivial, trivial⟩
  have hInv2 : TreeInv A (NewSparseMerkleTree A [] [] h2) .empty := ⟨rfl, rfl, trivial, trivial⟩
  obtain ⟨smt1, hseq1, hi1⟩ := updateSeq_spec A kvs _ _ hInv1 hok
  obtain ⟨smt2, hseq2, hi2⟩ := updateSeq_spec A kvs' _ _ hInv2 hok'
  have hpaths' : ∀ kv ∈ kvs', (A.hash kv.1).length = A.size ∧ ∀ x ∈ A.hash kv.1, x < 256 :=
    fun kv hkv => hpaths kv (hperm.mem_iff.mpr hkv)
  have hdist' : kvs'.Pairwise (fun a b => A.hash a.1 ≠ A.hash b.1) :=
    (hperm.pairwise_iff (fun h => h.symm)).mp hdist
  have hcpcform : ∀ (L : List (Bytes × Bytes)),
      (∀ kv ∈ L, (A.hash kv.1).length = A.size ∧ ∀ x ∈ A.hash kv.1, x < 256) →
      L.Pairwise (fun a b => A.hash a.1 ≠ A.hash b.1) →
      L.Pairwise (fun a b => countCommonPref (A.hash b.1) (A.hash a.1) ≠ 8 * A.size) := by
    intro L hL hpw
    apply List.Pairwise.imp_of_mem ?_ hpw
    intro a b ha hb hne hfull
    apply hne
    have := (countCommonPref_eq_full_iff (A.hash b.1) (A.hash a.1)
      (by rw [(hL b hb).1, (hL a ha).1]) (hL b hb).2 (hL a ha).2).mp
      (by rw [(hL b hb).1]; omega)
    rw [this]
  have hp1 := insertFold_leaves_perm A kvs .empty
    (by intro kv _ pr hpr; cases hpr) (hcpcform kvs hpaths hdist)
  have hp2 := insertFold_leaves_perm A kvs' .empty
    (by intro kv _ pr hpr; cases hpr) (hcpcform kvs' hpaths' hdist')
  simp only [CTree.leaves, List.append_nil] at hp1 hp2
  have htree : insertFold A kvs CTree.empty = insertFold A kvs' CTree.empty := by
    apply cwf_unique A _ _ 0
      (insertFold_cwf A kvs .empty trivial hpaths)
      (insertFold_cwf A kvs' .empty trivial hpaths')
    exact hp1.trans ((hperm.map _).trans hp2.symm)
  refine ⟨smt1, smt2, hseq1, hseq2, ?_⟩
  rw [hi1.2.1, hi2.2.1, htree]

/-- Witness for C6 at a concrete input: two pairs inserted in both orders
into the empty test tree give the same root. -/
theorem c6_witness :
    ([([1], [55]), ([7], [61])] : List (Bytes × Bytes)).Perm
        [([7], [61]), ([1], [55])] ∧
    HistOk testAlgo (NewSparseMerkleTree testAlgo [] [] testAlgo) .empty
      [([1], [55]), ([7], [61])] ∧
    HistOk testAlgo (NewSparseMerkleTree testAlgo [] [] testAlgo) .empty
      [([7], [61]), ([1], [55])] ∧
    (∃ smt1 smt2,
      updateSeq testAlgo [([1], [55]), ([7], [61])]
        (NewSparseMerkleTree testAlgo [] [] testAlgo) = some smt1 ∧
      updateSeq testAlgo [([7], [61]), ([1], [55])]
        (NewSparseMerkleTree testAlgo [] [] testAlgo) = some smt2 ∧
      smt1.root = smt2.root) :=
  ⟨by decide, by decide, by decide,
    c6_update_order_independent testAlgo testAlgo testAlgo
      [([1], [55]), ([7], [61])] [([7], [61]), ([1], [55])]
      (by decide) (by decide) (by decide) (by decide) (by decide)⟩
